import Mathlib

/-!
Math compiler: postfix tokenizer, shunting-yard converter, code generator.

A shallow embedding of `src/compiler.cpp`, `src/compiler.h` and
`src/natural_language.cpp`.

* `std::string` is `List Char` (one `Char` per byte).
* `std::map<std::string, T>` is an association list (`StrMap T`) with `find` and the
  inserting `operator[]`.
* C++ exceptions are the `.error` side of `Except Exn`.
* Undefined behaviour (`top()` on an empty `std::stack`, reading a `double` member that
  was never assigned) is the `.error` side of `Except UB`.
* `std::stod` follows the subject-sequence grammar of C `strtod` (C11 7.22.1.3).  The
  parsed value is kept exactly (sign, digits, exponent) instead of being rounded to a
  double: only its range class matters for the control flow.  Whether a result that
  underflows reports `ERANGE` is implementation-defined, so it is a parameter
  (`uf`) of everything that calls `stod`.
-/

set_option autoImplicit false
set_option exponentiation.threshold 100000

namespace MathCompiler

/-! ## Strings and maps -/

/-- The type of `std::string`. -/
abbrev Str := List Char

/-- Association-list model of `std::map<std::string, T>`. -/
abbrev StrMap (β : Type) := List (Str × β)

/-- Member `find` of `std::map`: `none` stands for `end()`. -/
def StrMap.find {β : Type} (m : StrMap β) (k : Str) : Option β :=
  match m with
  | [] => none
  | (k', v) :: rest => if k' = k then some v else StrMap.find rest k

/-- Inserting `operator[]` of `std::map`: an absent key is inserted with the
value-initialised element `dflt`; the value and the map afterwards are returned. -/
def StrMap.index {β : Type} (dflt : β) (m : StrMap β) (k : Str) : β × StrMap β :=
  match StrMap.find m k with
  | some v => (v, m)
  | none => (dflt, m ++ [(k, dflt)])

/-- C `isspace` in the "C" locale; `operator>>` on a `std::istringstream` uses it. -/
def isspace (c : Char) : Bool :=
  c = ' ' || c = '\t' || c = '\n' || c = Char.ofNat 11 || c = Char.ofNat 12 || c = '\r'

/-- C `isdigit`, for the character codes 0 to 127; the source passes it plain `char`
values, and no other code counts as a digit here. -/
def isdigit (c : Char) : Bool := decide ('0' ≤ c) && decide (c ≤ '9')

/-- C `isxdigit`. -/
def isxdigit (c : Char) : Bool :=
  isdigit c || (decide ('a' ≤ c) && decide (c ≤ 'f')) || (decide ('A' ≤ c) && decide (c ≤ 'F'))

/-- C `isalnum` extended by the underscore: the n-char set of `NAN(n-char-sequence)`. -/
def isNChar (c : Char) : Bool :=
  isdigit c || (decide ('a' ≤ c) && decide (c ≤ 'z')) || (decide ('A' ≤ c) && decide (c ≤ 'Z'))
    || c = '_'

/-! ## `std::stod` -/

/-- C++ exceptions thrown by the compiler. -/
inductive Exn where
  | runtime_error (what : Str)
  | invalid_argument (what : Str)
  | out_of_range (what : Str)
  deriving DecidableEq, Repr

/-- The exact value denoted by the subject sequence that `strtod` converts. `finite neg
hex m e` is `±m·10^e` for a decimal sequence and `±m·2^e` for a hexadecimal one. -/
inductive StodValue where
  | finite (neg : Bool) (hex : Bool) (mant : Nat) (exp : Int)
  | inf (neg : Bool)
  | nan (neg : Bool)
  deriving DecidableEq, Repr

/-- Value of a decimal digit string. -/
def decVal (ds : Str) : Nat := ds.foldl (fun n c => 10 * n + (c.toNat - 48)) 0

/-- Value of one hexadecimal digit. -/
def hexDigitVal (c : Char) : Nat :=
  if isdigit c then c.toNat - 48
  else if decide ('a' ≤ c) && decide (c ≤ 'f') then c.toNat - 87
  else c.toNat - 55

/-- Value of a hexadecimal digit string. -/
def hexVal (ds : Str) : Nat := ds.foldl (fun n c => 16 * n + hexDigitVal c) 0

/-- Case-insensitive test that `s` starts with the lower-case pattern `pat`. -/
def startsWithCI (pat : Str) (s : Str) : Bool :=
  match pat, s with
  | [], _ => true
  | _ :: _, [] => false
  | p :: ps, c :: cs => c.toLower = p && startsWithCI ps cs

/-- An optional sign: whether it is `-`, and how many characters it takes. -/
def signOf (s : Str) : Bool × Nat :=
  match s with
  | '-' :: _ => (true, 1)
  | '+' :: _ => (false, 1)
  | _ => (false, 0)

/-- Optional exponent part introduced by one of the two `marks`: an optional sign and
a non-empty digit string. Gives the exponent and the number of characters taken; a
malformed exponent is not part of the subject sequence (`(0, 0)`). -/
def exponentPart (marks : Char × Char) (s : Str) : Int × Nat :=
  match s with
  | [] => (0, 0)
  | c :: rest =>
    if c = marks.1 ∨ c = marks.2 then
      let sg := signOf rest
      let ds := (rest.drop sg.2).takeWhile isdigit
      if ds = [] then (0, 0)
      else ((if sg.1 then -(decVal ds : Int) else (decVal ds : Int)), 1 + sg.2 + ds.length)
    else (0, 0)

/-- Decimal subject sequence (after the sign): a non-empty digit string that may hold
one radix character, then an optional exponent part. -/
def parseDecimal (neg : Bool) (s : Str) : Option (StodValue × Nat) :=
  let ip := s.takeWhile isdigit
  let r1 := s.drop ip.length
  let dot : Bool := r1.head? = some '.'
  let fp := if dot then (r1.drop 1).takeWhile isdigit else []
  let n := ip.length + (if dot then 1 + fp.length else 0)
  if ip = [] ∧ fp = [] then none
  else
    let ex := exponentPart ('e', 'E') (s.drop n)
    some (StodValue.finite neg false (decVal (ip ++ fp)) (ex.1 - (fp.length : Int)), n + ex.2)

/-- Hexadecimal subject sequence (after the sign): `0x` or `0X`, a non-empty
hexadecimal digit string that may hold one radix character, then an optional binary
exponent part. -/
def parseHex (neg : Bool) (s : Str) : Option (StodValue × Nat) :=
  match s with
  | '0' :: x :: body =>
    if x = 'x' ∨ x = 'X' then
      let ip := body.takeWhile isxdigit
      let r1 := body.drop ip.length
      let dot : Bool := r1.head? = some '.'
      let fp := if dot then (r1.drop 1).takeWhile isxdigit else []
      let n := ip.length + (if dot then 1 + fp.length else 0)
      if ip = [] ∧ fp = [] then none
      else
        let ex := exponentPart ('p', 'P') (body.drop n)
        some (StodValue.finite neg true (hexVal (ip ++ fp)) (ex.1 - 4 * (fp.length : Int)),
          2 + n + ex.2)
    else none
  | _ => none

/-- The forms `NAN` and `NAN(n-char-sequence)` (after the sign), case-insensitive. -/
def parseNan (neg : Bool) (s : Str) : Option (StodValue × Nat) :=
  if startsWithCI ['n', 'a', 'n'] s then
    match s.drop 3 with
    | '(' :: rest =>
      let cs := rest.takeWhile isNChar
      if (rest.drop cs.length).head? = some ')' then some (StodValue.nan neg, 3 + 1 + cs.length + 1)
      else some (StodValue.nan neg, 3)
    | _ => some (StodValue.nan neg, 3)
  else none

/-- The forms `INF` and `INFINITY` (after the sign), case-insensitive. -/
def parseInf (neg : Bool) (s : Str) : Option (StodValue × Nat) :=
  if startsWithCI ['i', 'n', 'f', 'i', 'n', 'i', 't', 'y'] s then some (StodValue.inf neg, 8)
  else if startsWithCI ['i', 'n', 'f'] s then some (StodValue.inf neg, 3)
  else none

/-- Overflow: the value rounds (to nearest, ties to even) to an infinite double,
which is so from `2^1024 - 2^970` on. -/
def StodValue.overflows : StodValue → Bool
  | .finite _ false m e =>
    if 0 ≤ e then decide (2 ^ 1024 - 2 ^ 970 ≤ m * 10 ^ e.toNat)
    else decide ((2 ^ 1024 - 2 ^ 970) * 10 ^ (-e).toNat ≤ m)
  | .finite _ true m e =>
    if 0 ≤ e then decide (2 ^ 1024 - 2 ^ 970 ≤ m * 2 ^ e.toNat)
    else decide ((2 ^ 1024 - 2 ^ 970) * 2 ^ (-e).toNat ≤ m)
  | _ => false

/-- Underflow range: the value is not zero and lies below the least normal double
`2^-1022`. -/
def StodValue.tiny : StodValue → Bool
  | .finite _ false m e => decide (m ≠ 0) && decide (e < 0) && decide (m * 2 ^ 1022 < 10 ^ (-e).toNat)
  | .finite _ true m e => decide (m ≠ 0) && decide (e < 0) && decide (m * 2 ^ 1022 < 2 ^ (-e).toNat)
  | _ => false

/-- The function `std::stod(str, &pos)`: leading white space and an optional sign are
skipped, the longest subject sequence is converted, and the number of characters
processed is stored in `pos`. Throws `std::invalid_argument` when no conversion can be
performed and `std::out_of_range` when `strtod` reports `ERANGE`. `uf` tells whether
the C library reports `ERANGE` for a value in the underflow range. -/
def stod (uf : StodValue → Bool) (str : Str) : Except Exn (StodValue × Nat) :=
  let ws := (str.takeWhile isspace).length
  let s1 := str.drop ws
  let sg := signOf s1
  let s2 := s1.drop sg.2
  let parsed :=
    (parseInf sg.1 s2).orElse fun _ =>
    (parseNan sg.1 s2).orElse fun _ =>
    (parseHex sg.1 s2).orElse fun _ =>
    parseDecimal sg.1 s2
  match parsed with
  | none => .error (.invalid_argument "stod".toList)
  | some (v, n) =>
    if v.overflows || (v.tiny && uf v) then .error (.out_of_range "stod".toList)
    else .ok (v, ws + sg.2 + n)

/-! ## Tokens and the compiler object (`compiler.h`) -/

/-- The enumeration `Token::Type`. -/
inductive TokenType where
  | NUMBER
  | OPERATOR
  | FUNCTION
  | CONSTANT
  | STACK_OP
  deriving DecidableEq, Repr

/-- The class `Token`. `numValue` is `none` while the member is not initialised (the
constructor assigns it only for `NUMBER`); otherwise it holds the value that `stod`
converted, of which the member is the nearest double. -/
structure Token where
  type : TokenType
  strValue : Str
  numValue : Option StodValue
  deriving DecidableEq, Repr

/-- The constructor `Token::Token(type, value)`: for `NUMBER` it calls
`std::stod(value)`, whose exceptions leave the constructor. -/
def Token.new (uf : StodValue → Bool) (type : TokenType) (value : Str) : Except Exn Token :=
  if type = TokenType.NUMBER then
    match stod uf value with
    | .error e => .error e
    | .ok (v, _) => .ok { type := type, strValue := value, numValue := some v }
  else .ok { type := type, strValue := value, numValue := none }

/-- The data members of class `Compiler`. -/
structure Compiler where
  operatorArities : StrMap Int
  constants : StrMap StodValue
  deriving DecidableEq, Repr

/-- The macro `M_PI`, `3.14159265358979323846`. -/
def M_PI : StodValue := .finite false false 314159265358979323846 (-20)

/-- The macro `M_E`, `2.71828182845904523536`. -/
def M_E : StodValue := .finite false false 271828182845904523536 (-20)

/-- The constructor `Compiler::Compiler()`. -/
def Compiler.new : Compiler where
  operatorArities :=
    [("+".toList, 2), ("-".toList, 2), ("*".toList, 2), ("/".toList, 2), ("^".toList, 2),
     ("%".toList, 2), ("!".toList, 1), ("abs".toList, 1), ("sin".toList, 1),
     ("cos".toList, 1), ("tan".toList, 1), ("sqrt".toList, 1), ("swap".toList, 2),
     ("dup".toList, 1)]
  constants := [("pi".toList, M_PI), ("e".toList, M_E)]

/-! ## `Compiler::tokenize` -/

/-- Matches the tail `([eE][-+]?[0-9]+)?$` of the regular expression. -/
def regexExponentTail (s : Str) : Bool :=
  match s with
  | [] => true
  | c :: rest =>
    (c = 'e' || c = 'E') &&
      (match rest with
       | '-' :: ds => !ds.isEmpty && ds.all isdigit
       | '+' :: ds => !ds.isEmpty && ds.all isdigit
       | ds => !ds.isEmpty && ds.all isdigit)

/-- Matches `[0-9]*\.?[0-9]+([eE][-+]?[0-9]+)?$`, the regular expression after its
optional sign. -/
def regexMantissaTail (s : Str) : Bool :=
  let ip := s.takeWhile isdigit
  match s.drop ip.length with
  | '.' :: r2 =>
    let fp := r2.takeWhile isdigit
    !fp.isEmpty && regexExponentTail (r2.drop fp.length)
  | r1 => !ip.isEmpty && regexExponentTail r1

/-- The call `std::regex_match(token, scientificNotationRegex)` for the pattern
`^[-+]?[0-9]*\.?[0-9]+([eE][-+]?[0-9]+)?$`. -/
def scientificNotationRegexMatch (token : Str) : Bool :=
  match token with
  | '-' :: r => regexMantissaTail r
  | '+' :: r => regexMantissaTail r
  | r => regexMantissaTail r

/-- The value of the local `isNumber` after the `try` block of `tokenize`: `stod`
must consume the whole word, or else the regular expression must match it; any
exception of `stod` leaves it `false`. -/
def isNumber (uf : StodValue → Bool) (token : Str) : Bool :=
  match stod uf token with
  | .ok (_, pos) => if pos = token.length then true else scientificNotationRegexMatch token
  | .error _ => false

/-- The body of the `while` loop of `tokenize`: the token pushed for one word, or the
exception thrown. -/
def classify (uf : StodValue → Bool) (C : Compiler) (token : Str) : Except Exn Token :=
  if isNumber uf token then Token.new uf .NUMBER token
  else if (C.constants.find token).isSome then Token.new uf .CONSTANT token
  else if token = "swap".toList ∨ token = "dup".toList then Token.new uf .STACK_OP token
  else if token = "abs".toList ∨ token = "sin".toList ∨ token = "cos".toList ∨
      token = "tan".toList ∨ token = "sqrt".toList then Token.new uf .FUNCTION token
  else if token = "+".toList ∨ token = "-".toList ∨ token = "*".toList ∨
      token = "/".toList ∨ token = "^".toList ∨ token = "%".toList ∨ token = "!".toList then
    Token.new uf .OPERATOR token
  else .error (.runtime_error ("Unknown token: ".toList ++ token))

/-- The loop `while (iss >> token) { ... }` read character by character: `input` is
what is left in the stream, `token` the word that the running extraction has collected
so far, `tokens` the vector. An extraction skips white space, collects characters up to
the next white space or the end of the stream, and fails (ending the loop) when it
collects nothing. -/
def tokenizeFrom (uf : StodValue → Bool) (C : Compiler) :
    (input : Str) → (token : Str) → (tokens : List Token) → Except Exn (List Token)
  | [], token, tokens =>
    if token = [] then .ok tokens
    else
      match classify uf C token with
      | .error e => .error e
      | .ok t => .ok (tokens ++ [t])
  | c :: rest, token, tokens =>
    if isspace c then
      if token = [] then tokenizeFrom uf C rest [] tokens
      else
        match classify uf C token with
        | .error e => .error e
        | .ok t => tokenizeFrom uf C rest [] (tokens ++ [t])
    else tokenizeFrom uf C rest (token ++ [c]) tokens

/-- The function `Compiler::tokenize`. -/
def tokenize (uf : StodValue → Bool) (C : Compiler) (expression : Str) :
    Except Exn (List Token) :=
  tokenizeFrom uf C expression [] []

/-! ### The tokenizer's contract in the words of the specification -/

/-- The whitespace-delimited words of an expression. -/
def wordsOf (expression : Str) : List Str :=
  (expression.splitOnP isspace).filter fun w => !w.isEmpty

/-- The known constants. -/
def knownConstants : List Str := ["pi".toList, "e".toList]

/-- The known stack operations. -/
def knownStackOps : List Str := ["swap".toList, "dup".toList]

/-- The known functions. -/
def knownFunctions : List Str :=
  ["abs".toList, "sin".toList, "cos".toList, "tan".toList, "sqrt".toList]

/-- The known operators. -/
def knownOperators : List Str :=
  ["+".toList, "-".toList, "*".toList, "/".toList, "^".toList, "%".toList, "!".toList]

/-- The first category that matches a word when the categories are tried in the
order Number, Constant, StackOp, Function, Operator; `none` when no category matches.
`number` is the test for the category Number. -/
def firstMatchingCategory (number : Str → Bool) (w : Str) : Option TokenType :=
  if number w then some .NUMBER
  else if w ∈ knownConstants then some .CONSTANT
  else if w ∈ knownStackOps then some .STACK_OP
  else if w ∈ knownFunctions then some .FUNCTION
  else if w ∈ knownOperators then some .OPERATOR
  else none

/-- Runs the loop body of `tokenize` over a list of words in order, stopping at the first
exception. -/
def classifyAll (uf : StodValue → Bool) (C : Compiler) :
    List Str → List Token → Except Exn (List Token)
  | [], tokens => .ok tokens
  | w :: ws, tokens =>
    match classify uf C w with
    | .error e => .error e
    | .ok t => classifyAll uf C ws (tokens ++ [t])

/-! ## `Compiler::generateAssembly` and `Compiler::compileToString`

The text written to the stream is kept as the list of its lines; every insertion
statement of the source ends its text with a line feed, so the stream's content is
`unlines` of that list. `operator<<(double)` depends on the stream's format flags
and on the double; it is the parameter `showDouble`. The counter `labelCounter` is
an `int` of the source and an unbounded integer here. -/

/-- Undefined behaviour that the embedded functions can reach. -/
inductive UB where
  | top_of_empty_stack
  | uninitialized_read
  deriving DecidableEq, Repr

/-- How a call of the compiler can fail. -/
inductive Failure where
  | thrown (e : Exn)
  | undefined (u : UB)
  deriving DecidableEq, Repr

/-- The format flags of the output stream that `operator<<(double)` reads. -/
structure StreamFmt where
  fixed : Bool
  precision : Nat
  deriving DecidableEq, Repr

/-- The flags of a fresh stream. -/
def StreamFmt.initial : StreamFmt := { fixed := false, precision := 6 }

/-- The text that `operator<<(int)` writes. -/
def showInt (n : Int) : Str := (toString n).toList

/-- The content of a stream to which the lines were written, each with its line feed. -/
def unlines (ls : List Str) : Str := (ls.map fun l => l ++ ['\n']).flatten

/-- Lines 116-123: the banner and the head of the data section. -/
def dataSectionHead : List Str :=
  ["; Math compiler output".toList,
   "; Generated assembly for x86-64".toList,
   [],
   "section .data".toList,
   "    format db \x22%lf\x22, 10, 0  ; Format for printf".toList,
   "    div_zero_msg db \x22Error: Division by zero\x22, 10, 0".toList,
   "    stack_underflow_msg db \x22Error: Stack underflow\x22, 10, 0".toList]

/-- Lines 133-146: the head of the text section and the entry routine `main`. -/
def textSectionHead : List Str :=
  [[],
   "section .text".toList,
   "    global main".toList,
   "    extern printf".toList,
   "    extern exit".toList,
   [],
   "main:".toList,
   "    ; Set up stack frame".toList,
   "    push rbp".toList,
   "    mov rbp, rsp".toList,
   "    sub rsp, 16*32  ; Reserve space for 32 doubles on the stack".toList,
   [],
   "    ; Initialize stack pointer".toList,
   "    mov r12, 0  ; r12 = stack pointer (number of items on stack)".toList,
   []]

/-- Lines 165-167, the `CONSTANT` case. -/
def constantLines (token : Token) : List Str :=
  ["    ; Push constant onto stack".toList,
   "    movsd xmm0, [rel ".toList ++ token.strValue ++ "]".toList,
   "    call push_stack".toList]

/-- Lines 174-176 (and 371-373, 417-419): the depth check of an operator, function or
stack operation. -/
def depthCheck (arity : Int) : List Str :=
  ["    ; Check if we have enough operands".toList,
   "    cmp r12, ".toList ++ showInt arity,
   "    jl stack_underflow".toList,
   []]

/-- Lines 179-184, the operator `+`. -/
def addLines : List Str :=
  ["    ; Addition".toList,
   "    call pop_stack  ; Get first operand into xmm0".toList,
   "    movsd xmm1, xmm0".toList,
   "    call pop_stack  ; Get second operand into xmm0".toList,
   "    addsd xmm0, xmm1".toList,
   "    call push_stack".toList]

/-- Lines 187-192, the operator `-`. -/
def subLines : List Str :=
  ["    ; Subtraction".toList,
   "    call pop_stack  ; Get first operand into xmm0".toList,
   "    movsd xmm1, xmm0".toList,
   "    call pop_stack  ; Get second operand into xmm0".toList,
   "    subsd xmm0, xmm1".toList,
   "    call push_stack".toList]

/-- Lines 195-200, the operator `*`. -/
def mulLines : List Str :=
  ["    ; Multiplication".toList,
   "    call pop_stack  ; Get first operand into xmm0".toList,
   "    movsd xmm1, xmm0".toList,
   "    call pop_stack  ; Get second operand into xmm0".toList,
   "    mulsd xmm0, xmm1".toList,
   "    call push_stack".toList]

/-- Lines 203-212, the operator `/`. -/
def divLines : List Str :=
  ["    ; Division".toList,
   "    call pop_stack  ; Get divisor into xmm0".toList,
   "    ; Check if divisor is zero".toList,
   "    xorpd xmm1, xmm1".toList,
   "    ucomisd xmm0, xmm1".toList,
   "    je division_by_zero".toList,
   "    movsd xmm1, xmm0".toList,
   "    call pop_stack  ; Get dividend into xmm0".toList,
   "    divsd xmm0, xmm1".toList,
   "    call push_stack".toList]

/-- Lines 217-272, the operator `^`, with the label suffix already incremented. -/
def powLines (labelCounter : Int) : List Str :=
  ["    ; Power (x^y)".toList,
   "    call pop_stack  ; Get exponent into xmm0".toList,
   "    movsd xmm1, xmm0".toList,
   "    call pop_stack  ; Get base into xmm0".toList,
   "    ; Check if exponent is an integer".toList,
   "    cvttsd2si rax, xmm1  ; Convert to integer truncating".toList,
   "    cvtsi2sd xmm2, rax   ; Convert back to double".toList,
   "    ucomisd xmm1, xmm2   ; Compare original and converted value".toList,
   "    jne power_general_".toList ++ showInt labelCounter,
   "    ; Integer power implementation".toList,
   "    movsd xmm2, __float64__(1.0)  ; Result accumulator".toList,
   "    test rax, rax".toList,
   "    jz power_done_".toList ++ showInt labelCounter ++ "  ; x^0 = 1".toList,
   "    js power_general_".toList ++ showInt labelCounter ++ "  ; Negative exponent needs general case".toList,
   "power_loop_".toList ++ showInt labelCounter ++ ":".toList,
   "    test rax, 1".toList,
   "    jz power_skip_".toList ++ showInt labelCounter,
   "    mulsd xmm2, xmm0  ; Multiply result by x".toList,
   "power_skip_".toList ++ showInt labelCounter ++ ":".toList,
   "    mulsd xmm0, xmm0  ; Square x".toList,
   "    shr rax, 1        ; Divide exponent by 2".toList,
   "    jnz power_loop_".toList ++ showInt labelCounter,
   "    movsd xmm0, xmm2".toList,
   "    jmp power_done_".toList ++ showInt labelCounter,
   "power_general_".toList ++ showInt labelCounter ++ ":".toList,
   "    ; x^y = exp(y * ln(x))".toList,
   "    ; Check if x > 0 for log".toList,
   "    xorpd xmm2, xmm2".toList,
   "    ucomisd xmm0, xmm2".toList,
   "    jbe power_error_".toList ++ showInt labelCounter ++ "  ; If x <= 0, can't take log".toList,
   "    sub rsp, 8  ; Align stack".toList,
   "    movq [rsp], xmm0  ; Save x".toList,
   "    movq [rsp-8], xmm1  ; Save y".toList,
   "    call log  ; Get ln(x) in xmm0".toList,
   "    movsd xmm1, [rsp-8]  ; Restore y to xmm1".toList,
   "    mulsd xmm0, xmm1  ; y * ln(x)".toList,
   "    call exp  ; exp(y * ln(x))".toList,
   "    add rsp, 8  ; Restore stack".toList,
   "    jmp power_done_".toList ++ showInt labelCounter,
   "power_error_".toList ++ showInt labelCounter ++ ":".toList,
   "    ; Handle error case (probably not ideal but simple)".toList,
   "    movsd xmm0, __float64__(0.0)".toList,
   "power_done_".toList ++ showInt labelCounter ++ ":".toList,
   "    call push_stack".toList]

/-- Lines 275-301, the operator `%`. -/
def modLines : List Str :=
  ["    ; Modulus".toList,
   "    call pop_stack  ; Get second operand into xmm0".toList,
   "    ; Check if divisor is zero".toList,
   "    xorpd xmm1, xmm1".toList,
   "    ucomisd xmm0, xmm1".toList,
   "    je division_by_zero".toList,
   "    movsd xmm1, xmm0".toList,
   "    call pop_stack  ; Get first operand into xmm0".toList,
   "    ; Floating-point modulus: x % y = x - y * floor(x/y)".toList,
   "    movsd xmm2, xmm0  ; Save x".toList,
   "    divsd xmm0, xmm1  ; x / y".toList,
   "    sub rsp, 8  ; Align stack".toList,
   "    movq [rsp], xmm1  ; Save y".toList,
   "    call floor  ; Get floor(x/y)".toList,
   "    movsd xmm1, [rsp]  ; Restore y from stack".toList,
   "    add rsp, 8  ; Restore stack".toList,
   "    mulsd xmm0, xmm1  ; y * floor(x/y)".toList,
   "    movsd xmm1, xmm2  ; Restore x".toList,
   "    subsd xmm1, xmm0  ; x - y * floor(x/y)".toList,
   "    movsd xmm0, xmm1".toList,
   "    call push_stack".toList]

/-- Lines 304-363, the operator `!`, with the label suffix already incremented. -/
def factorialLines (labelCounter : Int) : List Str :=
  ["    ; Factorial".toList,
   "    call pop_stack  ; Get operand into xmm0".toList,
   "    ; Convert to integer".toList,
   "    cvttsd2si rax, xmm0".toList,
   "    cvtsi2sd xmm1, rax".toList,
   "    ucomisd xmm0, xmm1".toList,
   "    jne factorial_error_".toList ++ showInt labelCounter,
   "    ; Check if n < 0".toList,
   "    test rax, rax".toList,
   "    js factorial_error_".toList ++ showInt labelCounter,
   "    ; Check for potential overflow (n > 20 will overflow 64-bit)".toList,
   "    cmp rax, 20".toList,
   "    jg factorial_overflow_".toList ++ showInt labelCounter,
   "    ; Compute factorial".toList,
   "    mov rcx, 1  ; Result".toList,
   "    test rax, rax".toList,
   "    jz factorial_done_".toList ++ showInt labelCounter ++ "  ; 0! = 1".toList,
   "factorial_loop_".toList ++ showInt labelCounter ++ ":".toList,
   "    imul rcx, rax  ; result *= n".toList,
   "    jo factorial_overflow_".toList ++ showInt labelCounter ++ "  ; Jump if overflow occurred".toList,
   "    dec rax        ; n--".toList,
   "    jnz factorial_loop_".toList ++ showInt labelCounter,
   "factorial_done_".toList ++ showInt labelCounter ++ ":".toList,
   "    cvtsi2sd xmm0, rcx  ; Convert result to double".toList,
   "    jmp factorial_end_".toList ++ showInt labelCounter,
   "factorial_overflow_".toList ++ showInt labelCounter ++ ":".toList,
   "    ; Handle overflow - calculate using floating-point for large values".toList,
   "    ; Simple implementation - convert back to double to avoid overflow".toList,
   "    cvtsi2sd xmm0, rax  ; Convert n to double".toList,
   "    movsd xmm2, __float64__(1.0)  ; Result".toList,
   "factorial_fp_loop_".toList ++ showInt labelCounter ++ ":".toList,
   "    mulsd xmm2, xmm0  ; result *= n".toList,
   "    subsd xmm0, __float64__(1.0)  ; n--".toList,
   "    movsd xmm3, __float64__(0.0)  ; For comparison".toList,
   "    ucomisd xmm0, xmm3".toList,
   "    ja factorial_fp_loop_".toList ++ showInt labelCounter,
   "    movsd xmm0, xmm2  ; Move result to xmm0".toList,
   "    jmp factorial_end_".toList ++ showInt labelCounter,
   "factorial_error_".toList ++ showInt labelCounter ++ ":".toList,
   "    ; Factorial not defined for this input (not a non-negative integer)".toList,
   "    movsd xmm0, __float64__(0.0)  ; Return 0 as error value".toList,
   "factorial_end_".toList ++ showInt labelCounter ++ ":".toList,
   "    call push_stack".toList]

/-- Lines 376-379, the function `abs`. -/
def absLines : List Str :=
  ["    ; Absolute value".toList,
   "    call pop_stack  ; Get operand into xmm0".toList,
   "    andpd xmm0, [rel __m128d_abs_mask]".toList,
   "    call push_stack".toList]

/-- Lines 382-387, the function `sin`. -/
def sinLines : List Str :=
  ["    ; Sine function".toList,
   "    call pop_stack  ; Get operand into xmm0".toList,
   "    sub rsp, 8  ; Align stack".toList,
   "    call sin".toList,
   "    add rsp, 8  ; Restore stack".toList,
   "    call push_stack".toList]

/-- Lines 390-395, the function `cos`. -/
def cosLines : List Str :=
  ["    ; Cosine function".toList,
   "    call pop_stack  ; Get operand into xmm0".toList,
   "    sub rsp, 8  ; Align stack".toList,
   "    call cos".toList,
   "    add rsp, 8  ; Restore stack".toList,
   "    call push_stack".toList]

/-- Lines 398-403, the function `tan`. -/
def tanLines : List Str :=
  ["    ; Tangent function".toList,
   "    call pop_stack  ; Get operand into xmm0".toList,
   "    sub rsp, 8  ; Align stack".toList,
   "    call tan".toList,
   "    add rsp, 8  ; Restore stack".toList,
   "    call push_stack".toList]

/-- Lines 406-409, the function `sqrt`. -/
def sqrtLines : List Str :=
  ["    ; Square root".toList,
   "    call pop_stack  ; Get operand into xmm0".toList,
   "    sqrtsd xmm0, xmm0".toList,
   "    call push_stack".toList]

/-- Lines 422-430, the stack operation `swap`. -/
def swapLines : List Str :=
  ["    ; Swap top two stack elements".toList,
   "    mov rax, r12".toList,
   "    dec rax".toList,
   "    movsd xmm0, [rbp + 8*rax]".toList,
   "    mov rbx, rax".toList,
   "    dec rbx".toList,
   "    movsd xmm1, [rbp + 8*rbx]".toList,
   "    movsd [rbp + 8*rax], xmm1".toList,
   "    movsd [rbp + 8*rbx], xmm0".toList]

/-- Lines 433-436, the stack operation `dup`. -/
def dupLines : List Str :=
  ["    ; Duplicate top stack element".toList,
   "    call pop_stack".toList,
   "    call push_stack".toList,
   "    call push_stack".toList]

/-- Lines 446-499: the final print block, the exit, the helper routines, the error
handlers and the read-only data. -/
def programTail : List Str :=
  ["    ; Print the final result".toList,
   "    call pop_stack".toList,
   "    lea rdi, [rel format]".toList,
   "    mov rax, 1  ; One floating point argument".toList,
   "    call printf".toList,
   [],
   "    ; Exit program".toList,
   "    xor rdi, rdi".toList,
   "    call exit".toList,
   [],
   "push_stack:".toList,
   "    ; Push value in xmm0 to stack".toList,
   "    mov rax, r12".toList,
   "    movsd [rbp + 8*rax], xmm0".toList,
   "    inc r12".toList,
   "    ret".toList,
   [],
   "pop_stack:".toList,
   "    ; Pop value from stack to xmm0".toList,
   "    dec r12".toList,
   "    mov rax, r12".toList,
   "    movsd xmm0, [rbp + 8*rax]".toList,
   "    ret".toList,
   [],
   "division_by_zero:".toList,
   "    ; Handle division by zero error".toList,
   "    lea rdi, [rel div_zero_msg]".toList,
   "    xor rax, rax".toList,
   "    call printf".toList,
   "    mov rdi, 1  ; Exit code 1".toList,
   "    call exit".toList,
   [],
   "stack_underflow:".toList,
   "    ; Handle stack underflow error".toList,
   "    lea rdi, [rel stack_underflow_msg]".toList,
   "    xor rax, rax".toList,
   "    call printf".toList,
   "    mov rdi, 2  ; Exit code 2".toList,
   "    call exit".toList,
   [],
   "section .rodata".toList,
   "    __m128d_abs_mask dq 0x7FFFFFFFFFFFFFFF, 0x7FFFFFFFFFFFFFFF".toList,
   "    extern floor".toList,
   "    extern log".toList,
   "    extern exp".toList,
   "    extern sin".toList,
   "    extern cos".toList,
   "    extern tan".toList]

/-- Lines 158-160, the `NUMBER` case; `shown` is the text written for `numValue`. -/
def numberLines (shown : Str) : List Str :=
  ["    ; Push number onto stack".toList,
   "    movsd xmm0, __float64__(".toList ++ shown ++ ")".toList,
   "    call push_stack".toList]

/-- The first loop of `generateAssembly` (lines 126-131): one declaration line for each
`CONSTANT` token met. The manipulators `std::fixed` and `std::setprecision(17)` stay in
force on the stream afterwards, and `constants[...]` is the inserting `operator[]`. -/
def declareConstants (showDouble : StreamFmt → StodValue → Str) :
    List Token → StrMap StodValue → StreamFmt → List Str × StrMap StodValue × StreamFmt
  | [], constants, fmt => ([], constants, fmt)
  | token :: rest, constants, fmt =>
    if token.type = .CONSTANT then
      let fmt1 : StreamFmt := { fixed := true, precision := 17 }
      let r := StrMap.index (StodValue.finite false false 0 0) constants token.strValue
      let line := "    ".toList ++ token.strValue ++ " dq ".toList ++ showDouble fmt1 r.1
      let tail := declareConstants showDouble rest r.2 fmt1
      (line :: tail.1, tail.2)
    else declareConstants showDouble rest constants fmt

/-- The `if`/`else if` chain of the `OPERATOR` case (lines 178-364): the lines written
and the label counter afterwards. -/
def operatorBody (strValue : Str) (labelCounter : Int) : List Str × Int :=
  if strValue = "+".toList then (addLines, labelCounter)
  else if strValue = "-".toList then (subLines, labelCounter)
  else if strValue = "*".toList then (mulLines, labelCounter)
  else if strValue = "/".toList then (divLines, labelCounter)
  else if strValue = "^".toList then (powLines (labelCounter + 1), labelCounter + 1)
  else if strValue = "%".toList then (modLines, labelCounter + 1)
  else if strValue = "!".toList then (factorialLines (labelCounter + 1), labelCounter + 1)
  else ([], labelCounter)

/-- The `if`/`else if` chain of the `FUNCTION` case (lines 375-410). -/
def functionBody (strValue : Str) : List Str :=
  if strValue = "abs".toList then absLines
  else if strValue = "sin".toList then sinLines
  else if strValue = "cos".toList then cosLines
  else if strValue = "tan".toList then tanLines
  else if strValue = "sqrt".toList then sqrtLines
  else []

/-- The `if`/`else if` chain of the `STACK_OP` case (lines 421-437). -/
def stackOpBody (strValue : Str) : List Str :=
  if strValue = "swap".toList then swapLines
  else if strValue = "dup".toList then dupLines
  else []

/-- One iteration of the token loop (lines 152-442): the lines written, the map
`operatorArities` and the label counter afterwards. Reading `numValue` of a token that
never assigned it is undefined. -/
def emitToken (showDouble : StreamFmt → StodValue → Str) (fmt : StreamFmt) (token : Token)
    (operatorArities : StrMap Int) (labelCounter : Int) :
    Except UB (List Str × StrMap Int × Int) :=
  let head : Str := "    ; Process token: ".toList ++ token.strValue
  match token.type with
  | .NUMBER =>
    match token.numValue with
    | none => .error .uninitialized_read
    | some v => .ok (head :: numberLines (showDouble fmt v) ++ [[]], operatorArities, labelCounter)
  | .CONSTANT => .ok (head :: constantLines token ++ [[]], operatorArities, labelCounter)
  | .OPERATOR =>
    let r := StrMap.index 0 operatorArities token.strValue
    let b := operatorBody token.strValue labelCounter
    .ok (head :: depthCheck r.1 ++ b.1 ++ [[]], r.2, b.2)
  | .FUNCTION =>
    let r := StrMap.index 0 operatorArities token.strValue
    .ok (head :: depthCheck r.1 ++ functionBody token.strValue ++ [[]], r.2, labelCounter)
  | .STACK_OP =>
    let r := StrMap.index 0 operatorArities token.strValue
    .ok (head :: depthCheck r.1 ++ stackOpBody token.strValue ++ [[]], r.2, labelCounter)

/-- The token loop of `generateAssembly` (lines 151-443). -/
def emitTokens (showDouble : StreamFmt → StodValue → Str) (fmt : StreamFmt) :
    List Token → StrMap Int → Int → Except UB (List Str × StrMap Int × Int)
  | [], operatorArities, labelCounter => .ok ([], operatorArities, labelCounter)
  | token :: rest, operatorArities, labelCounter =>
    match emitToken showDouble fmt token operatorArities labelCounter with
    | .error u => .error u
    | .ok (ls, arities1, counter1) =>
      match emitTokens showDouble fmt rest arities1 counter1 with
      | .error u => .error u
      | .ok (ls2, arities2, counter2) => .ok (ls ++ ls2, arities2, counter2)

/-- The function `Compiler::generateAssembly`: the text written to `out` and the data
members afterwards. -/
def generateAssembly (showDouble : StreamFmt → StodValue → Str) (C : Compiler)
    (tokens : List Token) : Except UB (Str × Compiler) :=
  let d := declareConstants showDouble tokens C.constants StreamFmt.initial
  match emitTokens showDouble d.2.2 tokens C.operatorArities 0 with
  | .error u => .error u
  | .ok (blocks, arities, _) =>
    .ok (unlines (dataSectionHead ++ d.1 ++ textSectionHead ++ blocks ++ programTail),
      { operatorArities := arities, constants := d.2.1 })

/-- The function `Compiler::compileToString`: the string returned and the data members
afterwards. -/
def compileToString (uf : StodValue → Bool) (showDouble : StreamFmt → StodValue → Str)
    (C : Compiler) (expression : Str) : Except Failure (Str × Compiler) :=
  match tokenize uf C expression with
  | .error e => .error (.thrown e)
  | .ok tokens =>
    match generateAssembly showDouble C tokens with
    | .error u => .error (.undefined u)
    | .ok r => .ok r

/-! ## `NaturalLanguageProcessor` (`natural_language.cpp`) -/

/-- The entries that the constructor stores in `wordToNumber` (lines 9-42). -/
def wordToNumberInit : StrMap Str :=
  [("zero".toList, "0".toList), ("one".toList, "1".toList), ("two".toList, "2".toList),
   ("three".toList, "3".toList), ("four".toList, "4".toList), ("five".toList, "5".toList),
   ("six".toList, "6".toList), ("seven".toList, "7".toList), ("eight".toList, "8".toList),
   ("nine".toList, "9".toList), ("ten".toList, "10".toList), ("eleven".toList, "11".toList),
   ("twelve".toList, "12".toList), ("thirteen".toList, "13".toList),
   ("fourteen".toList, "14".toList), ("fifteen".toList, "15".toList),
   ("sixteen".toList, "16".toList), ("seventeen".toList, "17".toList),
   ("eighteen".toList, "18".toList), ("nineteen".toList, "19".toList),
   ("twenty".toList, "20".toList), ("thirty".toList, "30".toList),
   ("forty".toList, "40".toList), ("fifty".toList, "50".toList), ("sixty".toList, "60".toList),
   ("seventy".toList, "70".toList), ("eighty".toList, "80".toList),
   ("ninety".toList, "90".toList), ("hundred".toList, "100".toList),
   ("thousand".toList, "1000".toList), ("million".toList, "1000000".toList),
   ("billion".toList, "1000000000".toList), ("pi".toList, "pi".toList),
   ("e".toList, "e".toList)]

/-- The entries that the constructor stores in `wordToOperator` (lines 45-88). -/
def wordToOperatorInit : StrMap Str :=
  [("plus".toList, "+".toList), ("add".toList, "+".toList), ("added".toList, "+".toList),
   ("addition".toList, "+".toList), ("sum".toList, "+".toList), ("minus".toList, "-".toList),
   ("subtract".toList, "-".toList), ("subtracted".toList, "-".toList),
   ("subtraction".toList, "-".toList), ("difference".toList, "-".toList),
   ("times".toList, "*".toList), ("multiply".toList, "*".toList),
   ("multiplied".toList, "*".toList), ("multiplication".toList, "*".toList),
   ("product".toList, "*".toList), ("divided".toList, "/".toList),
   ("divide".toList, "/".toList), ("division".toList, "/".toList),
   ("quotient".toList, "/".toList), ("over".toList, "/".toList), ("power".toList, "^".toList),
   ("exponent".toList, "^".toList), ("raised".toList, "^".toList),
   ("to the power of".toList, "^".toList), ("modulo".toList, "%".toList),
   ("mod".toList, "%".toList), ("remainder".toList, "%".toList),
   ("factorial".toList, "!".toList), ("sin".toList, "sin".toList),
   ("sine".toList, "sin".toList), ("cos".toList, "cos".toList),
   ("cosine".toList, "cos".toList), ("tan".toList, "tan".toList),
   ("tangent".toList, "tan".toList), ("sqrt".toList, "sqrt".toList),
   ("square root".toList, "sqrt".toList), ("square root of".toList, "sqrt".toList)]

/-- The entries that the constructor stores in `operatorPrecedence` (lines 91-101). -/
def operatorPrecedenceInit : StrMap Int :=
  [("+".toList, 1), ("-".toList, 1), ("*".toList, 2), ("/".toList, 2), ("%".toList, 2),
   ("^".toList, 3), ("!".toList, 4), ("sin".toList, 4), ("cos".toList, 4), ("tan".toList, 4),
   ("sqrt".toList, 4)]

/-- The entry that the constructor stores in `rightAssociative` (line 104). -/
def rightAssociativeInit : StrMap Bool :=
  [("^".toList, true)]

/-- The data members of class `NaturalLanguageProcessor`. -/
structure NaturalLanguageProcessor where
  wordToNumber : StrMap Str
  wordToOperator : StrMap Str
  operatorPrecedence : StrMap Int
  rightAssociative : StrMap Bool
  deriving DecidableEq, Repr

/-- The constructor `NaturalLanguageProcessor::NaturalLanguageProcessor()`. -/
def NaturalLanguageProcessor.new : NaturalLanguageProcessor where
  wordToNumber := wordToNumberInit
  wordToOperator := wordToOperatorInit
  operatorPrecedence := operatorPrecedenceInit
  rightAssociative := rightAssociativeInit

/-! ## `NaturalLanguageProcessor::infixToRPN` -/

/-- The expression `token[i]` under the guard the source has for it: `token[0]` of an
empty string is the terminating null character. -/
def charAt (token : Str) (i : Nat) : Char := token.getD i (Char.ofNat 0)

/-- The condition of the first `if` (lines 197-198): the token is written to the output
directly. -/
def isOperandToken (token : Str) : Bool :=
  isdigit (charAt token 0) ||
    (charAt token 0 = '-' && decide (token.length > 1) && isdigit (charAt token 1)) ||
    token = "pi".toList || token = "e".toList

/-- The condition of the second `if` (line 202): the token is pushed on the stack. -/
def isPushedToken (token : Str) : Bool :=
  token = "(".toList || token = "sin".toList || token = "cos".toList ||
    token = "tan".toList || token = "sqrt".toList

/-- The condition of the fourth `if` (lines 216-217): the token is an operator. -/
def isOperatorToken (token : Str) : Bool :=
  token = "+".toList || token = "-".toList || token = "*".toList || token = "/".toList ||
    token = "^".toList || token = "%".toList || token = "!".toList

/-- The call `operatorStack.top()`: undefined on an empty stack. -/
def stackTop (operatorStack : List Str) : Except UB Str :=
  match operatorStack with
  | [] => .error .top_of_empty_stack
  | top :: _ => .ok top

/-- The comparison `operatorPrecedence[operatorStack.top()] ⋈ operatorPrecedence[token]`
where `cmp` is `>=` or `>`: both operands are the inserting `operator[]`, and `top()` is
called whatever the stack holds. -/
def comparePrecedence (cmp : Int → Int → Bool) (token : Str) (operatorStack : List Str)
    (P : NaturalLanguageProcessor) : Except UB (Bool × NaturalLanguageProcessor) :=
  match stackTop operatorStack with
  | .error u => .error u
  | .ok top =>
    let a := StrMap.index 0 P.operatorPrecedence top
    let b := StrMap.index 0 a.2 token
    .ok (cmp a.1 b.1, { P with operatorPrecedence := b.2 })

/-- The subexpression `rightAssociative.find(token) != rightAssociative.end() &&
rightAssociative[token]` (line 221); line 219 holds its negation. -/
def isRightAssociative (token : Str) (P : NaturalLanguageProcessor) :
    Bool × NaturalLanguageProcessor :=
  if (P.rightAssociative.find token).isSome then
    let r := StrMap.index false P.rightAssociative token
    (r.1, { P with rightAssociative := r.2 })
  else (false, P)

/-- The condition of the `while` at lines 218-222. Since `&&` binds tighter than `||`
it reads `(A && B && C) || D` with
`A = !operatorStack.empty()`, `B = operatorStack.top() != "("`,
`C = (token not right-associative) && prec[top] >= prec[token]` and
`D = (token right-associative) && prec[top] > prec[token]`;
`D` is evaluated whenever `A && B && C` is false, also on an empty stack. -/
def operatorLoopCond (token : Str) (operatorStack : List Str) (P : NaturalLanguageProcessor) :
    Except UB (Bool × NaturalLanguageProcessor) :=
  let abc : Except UB (Bool × NaturalLanguageProcessor) :=
    if operatorStack.isEmpty then .ok (false, P)
    else
      match stackTop operatorStack with
      | .error u => .error u
      | .ok top =>
        if top = "(".toList then .ok (false, P)
        else
          let r := isRightAssociative token P
          if r.1 then .ok (false, r.2)
          else comparePrecedence (fun a b => decide (a ≥ b)) token operatorStack r.2
  match abc with
  | .error u => .error u
  | .ok (true, P1) => .ok (true, P1)
  | .ok (false, P1) =>
    let r := isRightAssociative token P1
    if r.1 then comparePrecedence (fun a b => decide (a > b)) token operatorStack r.2
    else .ok (false, r.2)

/-- The `while` loop at lines 218-225: pops operators to the output while the condition
holds; the body reads `top()` and pops. Gives the stack, the tables and the output
afterwards. -/
def operatorLoop (token : Str) :
    List Str → NaturalLanguageProcessor → Str → Except UB (List Str × NaturalLanguageProcessor × Str)
  | [], P, result =>
    match operatorLoopCond token [] P with
    | .error u => .error u
    | .ok (false, P1) => .ok ([], P1, result)
    | .ok (true, _) => .error .top_of_empty_stack
  | top :: rest, P, result =>
    match operatorLoopCond token (top :: rest) P with
    | .error u => .error u
    | .ok (false, P1) => .ok (top :: rest, P1, result)
    | .ok (true, P1) => operatorLoop token rest P1 (result ++ top ++ " ".toList)

/-- The `while` loop at lines 207-210: pops operators to the output down to the nearest
open parenthesis or the bottom of the stack. -/
def closeParenLoop : List Str → Str → List Str × Str
  | [], result => ([], result)
  | top :: rest, result =>
    if top ≠ "(".toList then closeParenLoop rest (result ++ top ++ " ".toList)
    else (top :: rest, result)

/-- The state of the conversion between two tokens. -/
structure RPNState where
  P : NaturalLanguageProcessor
  result : Str
  operatorStack : List Str
  deriving DecidableEq, Repr

/-- The body of the `for` loop of `infixToRPN` (lines 196-227) for one token. -/
def processToken (token : Str) (s : RPNState) : Except UB RPNState :=
  if isOperandToken token then
    .ok { s with result := s.result ++ token ++ " ".toList }
  else if isPushedToken token then
    .ok { s with operatorStack := token :: s.operatorStack }
  else if token = ")".toList then
    let r := closeParenLoop s.operatorStack s.result
    match r.1 with
    | [] => .ok { s with operatorStack := [], result := r.2 }
    | top :: rest =>
      if top = "(".toList then .ok { s with operatorStack := rest, result := r.2 }
      else .ok { s with operatorStack := top :: rest, result := r.2 }
  else if isOperatorToken token then
    match operatorLoop token s.operatorStack s.P s.result with
    | .error u => .error u
    | .ok (stack, P1, result) => .ok { P := P1, result := result, operatorStack := token :: stack }
  else .ok s

/-- The `for` loop of `infixToRPN` (lines 195-228). -/
def processTokens : List Str → RPNState → Except UB RPNState
  | [], s => .ok s
  | token :: rest, s =>
    match processToken token s with
    | .error u => .error u
    | .ok s1 => processTokens rest s1

/-- The final `while` loop (lines 231-236): pops what is left on the stack to the output,
open parentheses excepted. -/
def drainStack : List Str → Str → Str
  | [], result => result
  | top :: rest, result =>
    if top ≠ "(".toList then drainStack rest (result ++ top ++ " ".toList)
    else drainStack rest result

/-- The function `NaturalLanguageProcessor::infixToRPN`: the string returned and the data
members afterwards. -/
def infixToRPN (P : NaturalLanguageProcessor) (tokens : List Str) :
    Except UB (Str × NaturalLanguageProcessor) :=
  match processTokens tokens { P := P, result := [], operatorStack := [] } with
  | .error u => .error u
  | .ok s => .ok (drainStack s.operatorStack s.result, s.P)

/-! ## `NaturalLanguageProcessor::tokenizeNaturalLanguage` and `convertToRPN` -/

/-- C `ispunct` in the "C" locale, for the character codes 0 to 127. -/
def ispunct (c : Char) : Bool :=
  (decide (33 ≤ c.toNat) && decide (c.toNat ≤ 47)) ||
    (decide (58 ≤ c.toNat) && decide (c.toNat ≤ 64)) ||
    (decide (91 ≤ c.toNat) && decide (c.toNat ≤ 96)) ||
    (decide (123 ≤ c.toNat) && decide (c.toNat ≤ 126))

/-- C `isalpha` in the "C" locale, for the character codes 0 to 127. -/
def isalpha (c : Char) : Bool :=
  (decide ('a' ≤ c) && decide (c ≤ 'z')) || (decide ('A' ≤ c) && decide (c ≤ 'Z'))

/-- The body of the first loop of `tokenizeNaturalLanguage` up to the test for an empty
word (lines 115-121): every character is lower-cased with `std::tolower`, then the
punctuation characters other than `.` are erased. -/
def cleanWord (word : Str) : Str :=
  (word.map Char.toLower).filter fun c => !(ispunct c && c ≠ '.')

/-- The first loop of `tokenizeNaturalLanguage` (lines 113-126), read character by
character like `tokenizeFrom`: `input` is what is left in the stream, `word` what the
running extraction has collected, `result` the vector. -/
def cleanWordsFrom : (input : Str) → (word : Str) → (result : List Str) → List Str
  | [], word, result =>
    if word = [] then result
    else if cleanWord word ≠ [] then result ++ [cleanWord word] else result
  | c :: rest, word, result =>
    if isspace c then
      if word = [] then cleanWordsFrom rest [] result
      else if cleanWord word ≠ [] then cleanWordsFrom rest [] (result ++ [cleanWord word])
      else cleanWordsFrom rest [] result
    else cleanWordsFrom rest (word ++ [c]) result

/-- The vector after the first loop of `tokenizeNaturalLanguage`: the cleaned words. -/
def cleanedWords (naturalExpression : Str) : List Str :=
  cleanWordsFrom naturalExpression [] []

/-- The element `to the power of`. -/
def phrasePower : Str := "to the power of".toList

/-- The element `square root of`. -/
def phraseRootOf : Str := "square root of".toList

/-- The element `square root`. -/
def phraseRoot : Str := "square root".toList

/-- The body of the second loop of `tokenizeNaturalLanguage` (lines 131-146) at index
`i`: `result[i] = phrase` followed by `result.erase` of the `k - 1` elements after it
leaves the first `i` elements, the phrase, and the elements from index `i + k` on. -/
def phraseStep (result : List Str) (i : Nat) : List Str :=
  if i + 3 < result.length ∧ result.getD i [] = "to".toList ∧
      result.getD (i + 1) [] = "the".toList ∧ result.getD (i + 2) [] = "power".toList ∧
      result.getD (i + 3) [] = "of".toList then
    result.take i ++ phrasePower :: result.drop (i + 4)
  else if i + 2 < result.length ∧ result.getD i [] = "square".toList ∧
      result.getD (i + 1) [] = "root".toList ∧ result.getD (i + 2) [] = "of".toList then
    result.take i ++ phraseRootOf :: result.drop (i + 3)
  else if i + 1 < result.length ∧ result.getD i [] = "square".toList ∧
      result.getD (i + 1) [] = "root".toList then
    result.take i ++ phraseRoot :: result.drop (i + 2)
  else result

/-- The second loop of `tokenizeNaturalLanguage` (lines 129-147),
`for (i = 0; i < result.size(); ++i)`, from index `i` on. Every iteration increases `i`
and never lengthens the vector, so `fuel` iterations suffice when `fuel` is at least the
number of elements from `i` on. -/
def phraseLoop : (fuel : Nat) → (result : List Str) → (i : Nat) → List Str
  | 0, result, _ => result
  | fuel + 1, result, i =>
    if i < result.length then phraseLoop fuel (phraseStep result i) (i + 1) else result

/-- The function `NaturalLanguageProcessor::tokenizeNaturalLanguage`. -/
def tokenizeNaturalLanguage (naturalExpression : Str) : List Str :=
  phraseLoop (cleanedWords naturalExpression).length (cleanedWords naturalExpression) 0

/-- The condition of the third branch of the mapping loop (lines 169-172): the token
already looks like a number or a symbol. -/
def looksLikeSymbol (token : Str) : Bool :=
  isdigit (charAt token 0) || charAt token 0 = '.' || charAt token 0 = '-' ||
    charAt token 0 = '+' || charAt token 0 = '*' || charAt token 0 = '/' ||
    charAt token 0 = '^' || charAt token 0 = '%' || charAt token 0 = '!' ||
    token = "(".toList || token = ")".toList

/-- The condition of the fourth branch of the mapping loop (lines 176-178): a filler
word. -/
def isFillerWord (token : Str) : Bool :=
  token = "and".toList || token = "by".toList || token = "with".toList ||
    token = "then".toList || token = "to".toList || token = "equals".toList ||
    token = "is".toList || token = "the".toList || token = "of".toList

/-- The mapping loop of `convertToRPN` (lines 159-185): the vector `processedTokens`
and the data members afterwards (`wordToNumber[token]` and `wordToOperator[token]` are
the inserting `operator[]`). -/
def mapWords : List Str → NaturalLanguageProcessor → List Str →
    List Str × NaturalLanguageProcessor
  | [], P, processedTokens => (processedTokens, P)
  | token :: rest, P, processedTokens =>
    if (P.wordToNumber.find token).isSome then
      let r := StrMap.index [] P.wordToNumber token
      mapWords rest { P with wordToNumber := r.2 } (processedTokens ++ [r.1])
    else if (P.wordToOperator.find token).isSome then
      let r := StrMap.index [] P.wordToOperator token
      mapWords rest { P with wordToOperator := r.2 } (processedTokens ++ [r.1])
    else if looksLikeSymbol token then mapWords rest P (processedTokens ++ [token])
    else if isFillerWord token then mapWords rest P processedTokens
    else mapWords rest P (processedTokens ++ [token])

/-- The infix token stream that `convertToRPN` hands to `infixToRPN`: the vector
`processedTokens` at line 188. -/
def infixStream (P : NaturalLanguageProcessor) (naturalExpression : Str) :
    List Str × NaturalLanguageProcessor :=
  mapWords (tokenizeNaturalLanguage naturalExpression) P []

/-- The function `NaturalLanguageProcessor::convertToRPN`: the string returned and the
data members afterwards. -/
def convertToRPN (P : NaturalLanguageProcessor) (naturalExpression : Str) :
    Except UB (Str × NaturalLanguageProcessor) :=
  let r := infixStream P naturalExpression
  infixToRPN r.2 r.1

/-! ## `isNaturalLanguage` (`main.cpp`) -/

/-- The loop of `isNaturalLanguage` (lines 38-59) from index `i` on; `suffix` is the
expression from index `i`, so that `expression.substr(i, n)` is `suffix.take n`. -/
def isNaturalLanguageFrom : (suffix : Str) → Bool
  | [] => false
  | c :: rest =>
    if c = ' ' then isNaturalLanguageFrom rest
    else if isalpha c && c ≠ 'e' && c ≠ 'E' &&
        (c :: rest).take 3 ≠ "sin".toList && (c :: rest).take 3 ≠ "cos".toList &&
        (c :: rest).take 3 ≠ "tan".toList && (c :: rest).take 4 ≠ "sqrt".toList &&
        (c :: rest).take 3 ≠ "abs".toList && (c :: rest).take 3 ≠ "dup".toList &&
        (c :: rest).take 4 ≠ "swap".toList && (c :: rest).take 2 ≠ "pi".toList &&
        (c :: rest).take 1 ≠ "e".toList then true
    else isNaturalLanguageFrom rest

/-- The function `isNaturalLanguage` of `main.cpp`. -/
def isNaturalLanguage (expression : Str) : Bool := isNaturalLanguageFrom expression

/-- The second loop of `tokenizeNaturalLanguage` run on a vector from index 0. -/
def foldAll (result : List Str) : List Str := phraseLoop result.length result 0

/-- Greedy longest-match folding, scanned from left to right: at each position the
four-word pattern is tried first, then the three-word pattern, then the two-word pattern;
a folded run is replaced by one element and the scan goes on after it. -/
def greedyFold : List Str → List Str
  | [] => []
  | w :: rest =>
    if w = "to".toList ∧ rest.take 3 = ["the".toList, "power".toList, "of".toList] then
      phrasePower :: greedyFold (rest.drop 3)
    else if w = "square".toList ∧ rest.take 2 = ["root".toList, "of".toList] then
      phraseRootOf :: greedyFold (rest.drop 2)
    else if w = "square".toList ∧ rest.take 1 = ["root".toList] then
      phraseRoot :: greedyFold (rest.drop 1)
    else w :: greedyFold rest
termination_by l => l.length
decreasing_by
  all_goals simp only [List.length_drop, List.length_cons]
  all_goals omega

/-- The lines that `generateAssembly` writes, before they are joined into the text. -/
def programLines (showDouble : StreamFmt → StodValue → Str) (C : Compiler)
    (tokens : List Token) : Except UB (List Str × Compiler) :=
  let d := declareConstants showDouble tokens C.constants StreamFmt.initial
  match emitTokens showDouble d.2.2 tokens C.operatorArities 0 with
  | .error u => .error u
  | .ok (blocks, arities, _) =>
    .ok (dataSectionHead ++ d.1 ++ textSectionHead ++ blocks ++ programTail,
      { operatorArities := arities, constants := d.2.1 })

/-- The blocks that the token loop of `generateAssembly` writes, one list of lines for
each iteration, with the map `operatorArities` and the label counter afterwards. -/
def emitBlocks (showDouble : StreamFmt → StodValue → Str) (fmt : StreamFmt) :
    List Token → StrMap Int → Int → Except UB (List (List Str) × StrMap Int × Int)
  | [], operatorArities, labelCounter => .ok ([], operatorArities, labelCounter)
  | token :: rest, operatorArities, labelCounter =>
    match emitToken showDouble fmt token operatorArities labelCounter with
    | .error u => .error u
    | .ok (ls, arities1, counter1) =>
      match emitBlocks showDouble fmt rest arities1 counter1 with
      | .error u => .error u
      | .ok (bs, arities2, counter2) => .ok (ls :: bs, arities2, counter2)

/-- The tokens that `infixToRPN` writes to its output, at once or after a stay on the
stack: operands (numbers, `pi`, `e`), the functions and the operators. -/
def isKeptToken (token : Str) : Bool :=
  isOperandToken token || (isPushedToken token && token ≠ "(".toList) ||
    (token ≠ ")".toList && isOperatorToken token)

/-- The text of the output buffer after the words were written to it, each followed by
one space. -/
def spaced (ws : List Str) : Str := (ws.map fun w => w ++ " ".toList).flatten

/-- The operators of precedence 1. -/
def additiveOperators : List Str := ["+".toList, "-".toList]

/-- The operators of precedence 2. -/
def multiplicativeOperators : List Str := ["*".toList, "/".toList, "%".toList]

/-- The binary operators that are left-associative: `+ - * / %`. -/
def leftBinaryOperators : List Str := additiveOperators ++ multiplicativeOperators

/-- The rank that the constructor gives a binary operator in `operatorPrecedence`. -/
def rankOf (p : Str) : Int :=
  if p ∈ additiveOperators then 1 else if p ∈ multiplicativeOperators then 2 else 3

/-- The strings that `infixToRPN` pushes on its operator stack: the open parenthesis,
the functions and the operators. -/
def stackAlphabet : List Str :=
  ["(".toList, "sin".toList, "cos".toList, "tan".toList, "sqrt".toList, "+".toList,
   "-".toList, "*".toList, "/".toList, "^".toList, "%".toList, "!".toList]

/-- What `infixToRPN` can make of the tables of a processor as constructed:
`rightAssociative` is not changed, and `operatorPrecedence` can only gain the entry
`"(" -> 0`, inserted by `operatorPrecedence[operatorStack.top()]`. -/
def tablesKept (P : NaturalLanguageProcessor) : Prop :=
  P.rightAssociative = rightAssociativeInit ∧
    (P.operatorPrecedence = operatorPrecedenceInit ∨
      P.operatorPrecedence = operatorPrecedenceInit ++ [("(".toList, 0)])

/-- The entries of the operator stack that the final loop writes: all but the open
parentheses. -/
def pendingOutput (operatorStack : List Str) : List Str :=
  operatorStack.filter fun x => x ≠ "(".toList

/-- The cleaned words of a sentence in the words of the specification: the
whitespace-delimited words, lower-cased, without their punctuation other than `.`, the
empty ones dropped. -/
def cleanedWordsSpec (sentence : Str) : List Str :=
  ((wordsOf sentence).map cleanWord).filter fun w => !w.isEmpty

/-- The lines of a text, read character by character: `line` is the line collected so
far; a line feed ends it. Characters after the last line feed make a last line. -/
def linesFrom : (text : Str) → (line : Str) → List Str
  | [], line => if line = [] then [] else [line]
  | c :: rest, line =>
    if c = '\n' then line :: linesFrom rest [] else linesFrom rest (line ++ [c])

/-- The lines of a text. -/
def linesOf (text : Str) : List Str := linesFrom text []

/-- The comment that opens the block of a token, up to the token's text (line 155). -/
def processTokenComment : Str := "    ; Process token: ".toList

/-- Whether a line has the form `; Process token: <text>`, indented as the token loop
writes it. -/
def isProcessLine (line : Str) : Bool := processTokenComment.isPrefixOf line

/-- Whether a written line holds no line feed and is not of the form
`; Process token: <text>`. -/
def isPlainLine (line : Str) : Bool := !isProcessLine line && !line.contains '\n'

/-- Whether the first characters of a line already tell it from a line of the form
`; Process token: <text>`, and hold no line feed. -/
def startsPlain (start : Str) : Bool :=
  (start.zip processTokenComment).any (fun p => p.1 != p.2) && !start.contains '\n'

/-- The names of arity two in the words of the specification. -/
def binaryNames : List Str :=
  ["+".toList, "-".toList, "*".toList, "/".toList, "^".toList, "%".toList, "swap".toList]

/-- The names of arity one in the words of the specification. -/
def unaryNames : List Str :=
  ["!".toList, "abs".toList, "sin".toList, "cos".toList, "tan".toList, "sqrt".toList,
   "dup".toList]

/-- Whether a line belongs to a depth check: a comparison of the depth register `r12`
or the jump to the underflow handler. -/
def isDepthCheckLine (line : Str) : Bool :=
  "    cmp r12, ".toList.isPrefixOf line || line == "    jl stack_underflow".toList

/-- What the specification says of the block of a token: the block of an Operator,
Function or StackOp token opens with its two comment lines, then `cmp r12, k` with the
arity `k` of the token's name, then `jl stack_underflow`, before anything else; the block
of a Number or Constant token holds no line of a depth check. -/
def depthCheckedBlock (t : Token) (block : List Str) : Prop :=
  ((t.type = .OPERATOR ∨ t.type = .FUNCTION ∨ t.type = .STACK_OP) →
    ∃ rest,
      (t.strValue ∈ binaryNames ∧
        block = [processTokenComment ++ t.strValue,
          "    ; Check if we have enough operands".toList,
          "    cmp r12, 2".toList, "    jl stack_underflow".toList] ++ rest) ∨
      (t.strValue ∈ unaryNames ∧
        block = [processTokenComment ++ t.strValue,
          "    ; Check if we have enough operands".toList,
          "    cmp r12, 1".toList, "    jl stack_underflow".toList] ++ rest)) ∧
  ((t.type = .NUMBER ∨ t.type = .CONSTANT) → ∀ l ∈ block, isDepthCheckLine l = false)

/-- Whether a word is free of white space, not empty, left as it is by the cleaning of
`tokenizeNaturalLanguage`, and opens none of the phrases. -/
def isPlainWord (w : Str) : Bool :=
  !w.isEmpty && w.all (fun c => !isspace c) && cleanWord w == w &&
    w != "to".toList && w != "square".toList

/-- The sentence of three words, each followed by one space but the last. -/
def sentence3 (a w b : Str) : Str := a ++ ' ' :: (w ++ ' ' :: b)

/-! ## The integer path of the factorial block

The factorial block (lines 304-363) writes a loop over the 64-bit registers `rcx`
(the result) and `rax` (the counter). The loop is read here as the instructions it
consists of: `imul rcx, rax` multiplies and sets the overflow flag when the signed product
does not fit 64 bits, `jo` then leaves for the floating-point path, `dec rax` counts down
and `jnz` repeats while the counter is not zero. -/

/-- How the integer path of the factorial block ends. -/
inductive IntegerPath where
  | done (rcx : Int)
  | overflow
  | unfinished
  deriving DecidableEq, Repr

/-- The loop at the label `factorial_loop_N` (lines 331-336), run for at most `fuel`
rounds: `imul rcx, rax`, `jo factorial_overflow_N`, `dec rax`, `jnz factorial_loop_N`. -/
def factorialIntegerLoop : (fuel : Nat) → (rcx rax : Int) → IntegerPath
  | 0, _, _ => .unfinished
  | fuel + 1, rcx, rax =>
    if rcx * rax < -(2 ^ 63) ∨ 2 ^ 63 ≤ rcx * rax then .overflow
    else if rax - 1 = 0 then .done (rcx * rax)
    else factorialIntegerLoop fuel (rcx * rax) (rax - 1)

/-- The integer path from the line `mov rcx, 1` on (lines 327-336), entered with the
operand `n` in `rax` when `0 <= n <= 20`: `test rax, rax` and `jz factorial_done_N` skip
the loop when the operand is zero. -/
def factorialIntegerPath (n : Int) : IntegerPath :=
  if n = 0 then .done 1 else factorialIntegerLoop n.toNat 1 n

/-! ## Reading the lines of the generated program -/

/-- The first word of a line after its indentation: the mnemonic of an instruction
line. -/
def mnemonicOf (line : Str) : Str := (line.dropWhile (· = ' ')).takeWhile (· ≠ ' ')

/-- The first operand of an instruction line: the word after the mnemonic, up to the
next space or comma. -/
def operandOf (line : Str) : Str :=
  (((line.dropWhile (· = ' ')).dropWhile (· ≠ ' ')).dropWhile (· = ' ')).takeWhile
    fun c => c ≠ ' ' && c ≠ ','

/-- Whether a line is an indented instruction line with the given mnemonic. -/
def hasMnemonic (m : Str) (line : Str) : Bool :=
  line.head? = some ' ' && mnemonicOf line = m

/-- Whether a line is a jump instruction: an indented line whose mnemonic starts with
`j`. -/
def isJumpLine (line : Str) : Bool :=
  line.head? = some ' ' && (mnemonicOf line).head? = some 'j'

/-! ## The stack machine that the blocks of the binary operators drive

The generated instructions keep the operands in an array of doubles at `rbp`, with the
number of operands in `r12`; `pop_stack` loads the topmost one into `xmm0` and
`push_stack` stores `xmm0` on top (lines 458-470 write both routines). The arithmetic on
doubles is left abstract: only the order of the operands is followed. -/

/-- The operations of the instructions `addsd`, `subsd`, `mulsd`, `divsd`, the value
that `xorpd` of a register with itself leaves, and the test of `ucomisd` that `je`
reads. -/
structure DoubleOps (α : Type) where
  add : α → α → α
  sub : α → α → α
  mul : α → α → α
  div : α → α → α
  zero : α
  equal : α → α → Bool

/-- The operand stack (topmost first), the registers `xmm0` and `xmm1`, and the zero
flag. -/
structure Machine (α : Type) where
  stack : List α
  xmm0 : α
  xmm1 : α
  zf : Bool

/-- Why a run of instruction lines stops early. -/
inductive Halt where
  | division_by_zero
  | empty_stack
  | unknown_instruction
  deriving DecidableEq, Repr

/-- The instruction of a line: the line without its indentation, without the comment
that a `;` starts and without the spaces before that comment. -/
def instructionText (line : Str) : Str :=
  (((line.dropWhile (· = ' ')).takeWhile (· ≠ ';')).reverse.dropWhile (· = ' ')).reverse

/-- One instruction line run on the machine; a line that holds only a comment does
nothing. -/
def execLine {α : Type} (ops : DoubleOps α) (line : Str) (m : Machine α) :
    Except Halt (Machine α) :=
  let i := instructionText line
  if i = [] then .ok m
  else if i = "call pop_stack".toList then
    match m.stack with
    | [] => .error .empty_stack
    | v :: rest => .ok { m with stack := rest, xmm0 := v }
  else if i = "call push_stack".toList then .ok { m with stack := m.xmm0 :: m.stack }
  else if i = "movsd xmm1, xmm0".toList then .ok { m with xmm1 := m.xmm0 }
  else if i = "addsd xmm0, xmm1".toList then .ok { m with xmm0 := ops.add m.xmm0 m.xmm1 }
  else if i = "subsd xmm0, xmm1".toList then .ok { m with xmm0 := ops.sub m.xmm0 m.xmm1 }
  else if i = "mulsd xmm0, xmm1".toList then .ok { m with xmm0 := ops.mul m.xmm0 m.xmm1 }
  else if i = "divsd xmm0, xmm1".toList then .ok { m with xmm0 := ops.div m.xmm0 m.xmm1 }
  else if i = "xorpd xmm1, xmm1".toList then .ok { m with xmm1 := ops.zero }
  else if i = "ucomisd xmm0, xmm1".toList then .ok { m with zf := ops.equal m.xmm0 m.xmm1 }
  else if i = "je division_by_zero".toList then
    if m.zf then .error .division_by_zero else .ok m
  else .error .unknown_instruction

/-- The instruction lines run in order. -/
def runLines {α : Type} (ops : DoubleOps α) : List Str → Machine α → Except Halt (Machine α)
  | [], m => .ok m
  | line :: rest, m =>
    match execLine ops line m with
    | .error h => .error h
    | .ok m1 => runLines ops rest m1

/-- The number of lines of a block that call a helper routine. -/
def countCalls (routine : Str) (block : List Str) : Nat :=
  (block.filter fun l => hasMnemonic "call".toList l && operandOf l = routine).length

/-- Whether an instruction line writes the depth counter `r12`: its first operand is
`r12` and its mnemonic is not one that only reads its operands. -/
def writesDepthCounter (line : Str) : Bool :=
  line.head? = some ' ' && operandOf line = "r12".toList &&
    mnemonicOf line ≠ "cmp".toList && mnemonicOf line ≠ "test".toList &&
    mnemonicOf line ≠ "push".toList

/-- The net stack effect of a token in the words of the specification. -/
def netStackEffect (t : Token) : Int :=
  if t.type = .NUMBER ∨ t.type = .CONSTANT then 1
  else if t.strValue ∈ ["+".toList, "-".toList, "*".toList, "/".toList, "^".toList,
      "%".toList] then -1
  else if t.strValue = "dup".toList then 1
  else 0

/-- What the specification says of the block of a division: the divisor is popped, compared
with zero (`xorpd xmm1, xmm1` clears `xmm1`, `ucomisd xmm0, xmm1` compares), and
`je division_by_zero` follows directly; the one `divsd` of the block comes after it. -/
def guardedDivision (block : List Str) : Prop :=
  ∃ pre pop mid dv post,
    block = pre ++ [pop, "    ; Check if divisor is zero".toList, "    xorpd xmm1, xmm1".toList,
      "    ucomisd xmm0, xmm1".toList, "    je division_by_zero".toList] ++ mid ++ [dv] ++
      post ∧
    hasMnemonic "call".toList pop = true ∧ operandOf pop = "pop_stack".toList ∧
    hasMnemonic "divsd".toList dv = true ∧
    ∀ l ∈ pre ++ mid ++ post, hasMnemonic "divsd".toList l = false

/-- Whether a token is one of the two dividing operators. -/
def isDivisionToken (t : Token) : Prop :=
  t.type = .OPERATOR ∧ (t.strValue = "/".toList ∨ t.strValue = "%".toList)

/-- The label that a line defines: a line that is not indented and ends in a colon
defines the label before the colon. -/
def labelOf (line : Str) : Option Str :=
  match line with
  | [] => none
  | c :: rest =>
    if c = ' ' then none
    else if (c :: rest).getLast? = some ':' then some (c :: rest).dropLast
    else none

/-- The labels that the lines of a program define, in order. -/
def definedLabels (lines : List Str) : List Str := lines.filterMap labelOf

/-- The names that the lines of a program declare external. -/
def externNames (lines : List Str) : List Str :=
  lines.filterMap fun l => if hasMnemonic "extern".toList l then some (operandOf l) else none

/-- The labels of the block of `^`, without their suffix, in the order of lines 236-271. -/
def powPrefixes : List Str :=
  ["power_loop_".toList, "power_skip_".toList, "power_general_".toList,
   "power_error_".toList, "power_done_".toList]

/-- The labels of the block of `!`, without their suffix, in the order of lines
331-362. -/
def factorialPrefixes : List Str :=
  ["factorial_loop_".toList, "factorial_done_".toList, "factorial_overflow_".toList,
   "factorial_fp_loop_".toList, "factorial_error_".toList, "factorial_end_".toList]

/-- The labels of the entry routine, the helper routines and the error handlers. -/
def fixedLabels : List Str :=
  ["main".toList, "push_stack".toList, "pop_stack".toList, "division_by_zero".toList,
   "stack_underflow".toList]

/-- The library functions that the program calls. -/
def libraryFunctions : List Str :=
  ["printf".toList, "exit".toList, "floor".toList, "log".toList, "exp".toList,
   "sin".toList, "cos".toList, "tan".toList]

/-- Whether a token is an operator whose block defines labels. -/
def isLabelledToken (t : Token) : Prop :=
  t.type = .OPERATOR ∧ (t.strValue = "^".toList ∨ t.strValue = "!".toList)

/-- The block of a `^` or `!` token written with the label suffix `N`. -/
def usesSuffix (t : Token) (N : Int) (block : List Str) : Prop :=
  ∃ k : Int,
    (t.strValue = "^".toList ∧
      block = (processTokenComment ++ t.strValue) :: depthCheck k ++ powLines N ++ [[]]) ∨
    (t.strValue = "!".toList ∧
      block = (processTokenComment ++ t.strValue) :: depthCheck k ++ factorialLines N ++ [[]])

/-- The first operands of the jump instructions of a program, in order. -/
def jumpTargets (lines : List Str) : List Str := (lines.filter isJumpLine).map operandOf

/-- The first operands of the `call` instructions of a program, in order. -/
def callTargets (lines : List Str) : List Str :=
  (lines.filter (hasMnemonic "call".toList)).map operandOf

/-- A label made of a stem and the label counter, as in
`out << "power_loop_" << labelCounter`. -/
def suffixedLabel (p : Str × Int) : Str := p.1 ++ showInt p.2

/-- What the specification says of the label suffixes of two blocks of which the first
is written before the second: when both tokens are `^` or `!`, the suffix of the first
block is less than the suffix of the second. -/
def suffixBefore (tb1 tb2 : Token × List Str) : Prop :=
  isLabelledToken tb1.1 → isLabelledToken tb2.1 →
    ∃ N1 N2 : Int, usesSuffix tb1.1 N1 tb1.2 ∧ usesSuffix tb2.1 N2 tb2.2 ∧ N1 < N2

/-- Lines 446-450: the final print block, the first six lines of the tail, up to the
empty line after `call printf`. -/
def printBlock : List Str := programTail.take 6

/-- A block that holds the depth check `cmp r12, k` and `jl stack_underflow`, with no
`call pop_stack` before it. -/
def checkedBlock (k : Int) (block : List Str) : Prop :=
  ∃ pre post,
    block = pre ++ ["    cmp r12, ".toList ++ showInt k, "    jl stack_underflow".toList] ++
      post ∧
    countCalls "pop_stack".toList pre = 0

/-- What the specification says of the pops of a block: every `call pop_stack` of the
block is preceded within the block by a depth check `cmp r12, k` and
`jl stack_underflow` with `k` at least the number of `call pop_stack` lines of the
block. -/
def popsGuarded (block : List Str) : Prop :=
  countCalls "pop_stack".toList block = 0 ∨
    ∃ k : Int, checkedBlock k block ∧ (countCalls "pop_stack".toList block : Int) ≤ k

/-- A block after which at least one operand is on the stack when its depth check has
passed, by the count of its pushes and pops: either it has no depth check and no pop and
pushes once, or its check asks for `k` operands and `k` plus its pushes minus its pops is
at least one. -/
def leavesOperand (block : List Str) : Prop :=
  (countCalls "pop_stack".toList block = 0 ∧ countCalls "push_stack".toList block = 1 ∧
      ∀ l ∈ block, isDepthCheckLine l = false) ∨
    ∃ k : Int, checkedBlock k block ∧
      1 ≤ k + countCalls "push_stack".toList block - countCalls "pop_stack".toList block

/-- What the parsers of `stod` ask of the first character of a decimal sequence. -/
def plainStart (c : Char) : Prop :=
  isspace c = false ∧ c ≠ '-' ∧ c ≠ '+' ∧ c.toLower ≠ 'i' ∧ c.toLower ≠ 'n'

/-- Every `NUMBER` token has its `numValue` assigned. -/
def Token.initialized (t : Token) : Prop := t.type = .NUMBER → t.numValue.isSome = true

/-- Decidable equality of results, to evaluate the embedded functions on inputs. -/
instance instDecidableEqExcept {ε α : Type} [DecidableEq ε] [DecidableEq α] :
    DecidableEq (Except ε α) := fun a b =>
  match a, b with
  | .ok x, .ok y =>
    if h : x = y then isTrue (by rw [h]) else isFalse (fun e => h (by cases e; rfl))
  | .error x, .error y =>
    if h : x = y then isTrue (by rw [h]) else isFalse (fun e => h (by cases e; rfl))
  | .ok _, .error _ => isFalse (fun e => by cases e)
  | .error _, .ok _ => isFalse (fun e => by cases e)

/-! # Theorems -/

/-! ### `tokenize` -/

theorem constants_find_new (w : Str) :
    (Compiler.new.constants.find w).isSome = decide (w ∈ knownConstants) := by
  simp only [Compiler.new, StrMap.find, knownConstants]
  split_ifs with h1 h2
  · subst h1; simp
  · subst h2; simp
  · have h1' : ¬ w = "pi".toList := fun h => h1 h.symm
    have h2' : ¬ w = "e".toList := fun h => h2 h.symm
    simp only [List.mem_cons, h1', h2', List.mem_nil_iff, or_self, decide_False]
    rfl

theorem Token.new_number_ok (uf : StodValue → Bool) (w : Str) (h : isNumber uf w = true) :
    ∃ v, Token.new uf .NUMBER w = .ok ⟨.NUMBER, w, some v⟩ := by
  unfold isNumber at h
  unfold Token.new
  cases hs : stod uf w with
  | error e => rw [hs] at h; simp at h
  | ok r => obtain ⟨v, n⟩ := r; exact ⟨v, by simp⟩

theorem classify_spec (uf : StodValue → Bool) (w : Str) :
    (∃ t, classify uf Compiler.new w = .ok t ∧ t.strValue = w ∧
        firstMatchingCategory (isNumber uf) w = some t.type) ∨
    (classify uf Compiler.new w = .error (.runtime_error ("Unknown token: ".toList ++ w)) ∧
        firstMatchingCategory (isNumber uf) w = none) := by
  unfold classify firstMatchingCategory
  by_cases hn : isNumber uf w = true
  · obtain ⟨v, hv⟩ := Token.new_number_ok uf w hn
    left; exact ⟨⟨.NUMBER, w, some v⟩, by simp only [hn, if_true, hv], rfl, by simp only [hn, if_true]⟩
  · simp only [hn, constants_find_new, decide_eq_true_eq, Bool.false_eq_true, if_false]
    by_cases hc : w ∈ knownConstants
    · left; exact ⟨⟨.CONSTANT, w, none⟩, by simp only [hc, if_true]; rfl, rfl, by simp only [hc, if_true]⟩
    · simp only [hc, if_false]
      have e1 : (w = "swap".toList ∨ w = "dup".toList) ↔ w ∈ knownStackOps := by
        simp [knownStackOps]
      have e2 : (w = "abs".toList ∨ w = "sin".toList ∨ w = "cos".toList ∨
         w = "tan".toList ∨ w = "sqrt".toList) ↔ w ∈ knownFunctions := by
        simp [knownFunctions]
      have e3 : (w = "+".toList ∨ w = "-".toList ∨ w = "*".toList ∨
        w = "/".toList ∨ w = "^".toList ∨ w = "%".toList ∨ w = "!".toList) ↔ w ∈ knownOperators := by
        simp [knownOperators]
      simp only [e1, e2, e3]
      by_cases hs : w ∈ knownStackOps
      · left; exact ⟨⟨.STACK_OP, w, none⟩, by simp only [hs, if_true]; rfl, rfl, by simp only [hs, if_true]⟩
      · simp only [hs, if_false]
        by_cases hf : w ∈ knownFunctions
        · left; exact ⟨⟨.FUNCTION, w, none⟩, by simp only [hf, if_true]; rfl, rfl, by simp only [hf, if_true]⟩
        · simp only [hf, if_false]
          by_cases ho : w ∈ knownOperators
          · left; exact ⟨⟨.OPERATOR, w, none⟩, by simp only [ho, if_true]; rfl, rfl, by simp only [ho, if_true]⟩
          · right; simp only [ho, if_false, and_self]

theorem tokenizeFrom_eq (uf : StodValue → Bool) (C : Compiler) (input token : Str)
    (tokens : List Token) :
    tokenizeFrom uf C input token tokens =
      classifyAll uf C
        (((input.splitOnP isspace).modifyHead (token ++ ·)).filter fun w => !w.isEmpty)
        tokens := by
  induction input generalizing token tokens with
  | nil =>
    cases token with
    | nil => simp [tokenizeFrom, classifyAll]
    | cons c cs =>
      simp only [tokenizeFrom, List.splitOnP_nil, List.modifyHead_cons, List.append_nil]
      simp only [List.filter, List.isEmpty_cons, Bool.not_false, classifyAll]
      cases classify uf C (c :: cs) <;> simp
  | cons a rest ih =>
    rw [List.splitOnP_cons]
    by_cases ha : isspace a = true
    · simp only [tokenizeFrom, ha, if_true, List.modifyHead_cons, List.append_nil]
      have h0 := ih [] tokens
      have hid : (List.splitOnP isspace rest).modifyHead (([] : Str) ++ ·) =
          List.splitOnP isspace rest := by
        cases List.splitOnP isspace rest <;> simp
      cases token with
      | nil => rw [h0, hid]; simp [List.filter]
      | cons c cs =>
        simp only [List.filter, List.isEmpty_cons, Bool.not_false, classifyAll, reduceCtorEq, if_false]
        cases classify uf C (c :: cs) with
        | error e => rfl
        | ok t => simp only []; rw [ih [] (tokens ++ [t]), hid]
    · simp only [tokenizeFrom, ha, if_false, Bool.false_eq_true]
      rw [ih (token ++ [a]) tokens, List.modifyHead_modifyHead]
      congr 3
      funext h
      simp

theorem first_failure {α : Type} (p : α → Prop) (l : List α) :
    (∀ x ∈ l, p x) ∨ ∃ pre w post, l = pre ++ w :: post ∧ (∀ u ∈ pre, p u) ∧ ¬ p w := by
  induction l with
  | nil => left; simp
  | cons a l ih =>
    by_cases ha : p a
    · rcases ih with h | ⟨pre, w, post, h1, h2, h3⟩
      · left; intro x hx
        rcases List.mem_cons.mp hx with rfl | hx
        · exact ha
        · exact h x hx
      · right; refine ⟨a :: pre, w, post, by rw [h1]; rfl, ?_, h3⟩
        intro u hu
        rcases List.mem_cons.mp hu with rfl | hu
        · exact ha
        · exact h2 u hu
    · right; exact ⟨[], a, l, rfl, by simp, ha⟩

theorem classifyAll_all (uf : StodValue → Bool) (ws : List Str) (acc : List Token)
    (h : ∀ w ∈ ws, firstMatchingCategory (isNumber uf) w ≠ none) :
    ∃ nw, classifyAll uf Compiler.new ws acc = .ok (acc ++ nw) ∧
      nw.map (fun t => (t.strValue, some t.type)) =
        ws.map (fun w => (w, firstMatchingCategory (isNumber uf) w)) := by
  induction ws generalizing acc with
  | nil => exact ⟨[], by simp [classifyAll], rfl⟩
  | cons w ws ih =>
    rcases classify_spec uf w with ⟨t, h1, h2, h3⟩ | ⟨_, h2⟩
    · obtain ⟨nw, e1, e2⟩ := ih (acc ++ [t]) (fun u hu => h u (List.mem_cons_of_mem _ hu))
      refine ⟨t :: nw, ?_, ?_⟩
      · simp only [classifyAll, h1, e1, List.append_assoc, List.singleton_append]
      · simp only [List.map_cons, e2, h2, h3]
    · exact absurd h2 (h w (List.mem_cons_self _ _))

theorem classifyAll_first (uf : StodValue → Bool) (pre : List Str) (w : Str) (post : List Str)
    (acc : List Token)
    (h : ∀ u ∈ pre, firstMatchingCategory (isNumber uf) u ≠ none)
    (hw : firstMatchingCategory (isNumber uf) w = none) :
    classifyAll uf Compiler.new (pre ++ w :: post) acc =
      .error (.runtime_error ("Unknown token: ".toList ++ w)) := by
  induction pre generalizing acc with
  | nil =>
    rcases classify_spec uf w with ⟨t, _, _, h3⟩ | ⟨h1, _⟩
    · rw [hw] at h3; cases h3
    · simp only [List.nil_append, classifyAll, h1]
  | cons u pre ih =>
    rcases classify_spec uf u with ⟨t, h1, _, _⟩ | ⟨_, h2⟩
    · simp only [List.cons_append, classifyAll, h1]
      exact ih _ (fun x hx => h x (List.mem_cons_of_mem _ hx))
    · exact absurd h2 (h u (List.mem_cons_self _ _))

theorem tokenize_eq (uf : StodValue → Bool) (C : Compiler) (expression : Str) :
    tokenize uf C expression = classifyAll uf C (wordsOf expression) [] := by
  unfold tokenize wordsOf
  rw [tokenizeFrom_eq]
  congr 2
  cases List.splitOnP isspace expression <;> simp

/-- C1: when `tokenize` succeeds there is exactly one token per whitespace-delimited
word, in the same order; the text of the i-th token is the i-th word and its kind is the
first category that matches the word in the order Number, Constant, StackOp, Function,
Operator, where Number matches when the tokenizer's test `isNumber` holds. `3 4 +` gives
`[Number 3, Number 4, Operator +]`, the word `e` is a Constant, the words `-` and `+` are
Operators. -/
theorem tokenize_one_token_per_word (uf : StodValue → Bool) :
    (∀ (expression : Str) (tokens : List Token),
      tokenize uf Compiler.new expression = .ok tokens →
        tokens.length = (wordsOf expression).length ∧
        tokens.map (fun t => (t.strValue, some t.type)) =
          (wordsOf expression).map (fun w => (w, firstMatchingCategory (isNumber uf) w))) ∧
    tokenize uf Compiler.new "3 4 +".toList =
      .ok [⟨.NUMBER, "3".toList, some (.finite false false 3 0)⟩,
           ⟨.NUMBER, "4".toList, some (.finite false false 4 0)⟩,
           ⟨.OPERATOR, "+".toList, none⟩] ∧
    tokenize uf Compiler.new "e".toList = .ok [⟨.CONSTANT, "e".toList, none⟩] ∧
    tokenize uf Compiler.new "-".toList = .ok [⟨.OPERATOR, "-".toList, none⟩] ∧
    tokenize uf Compiler.new "+".toList = .ok [⟨.OPERATOR, "+".toList, none⟩] := by
  refine ⟨?_, rfl, rfl, rfl, rfl⟩
  intro expression tokens h
  rw [tokenize_eq] at h
  rcases first_failure (fun w => firstMatchingCategory (isNumber uf) w ≠ none)
      (wordsOf expression) with hall | ⟨pre, w, post, e, h1, h2⟩
  · obtain ⟨nw, e1, e2⟩ := classifyAll_all uf (wordsOf expression) [] hall
    rw [e1] at h
    cases h
    refine ⟨?_, by simpa using e2⟩
    have := congrArg List.length e2
    simpa using this
  · rw [e, classifyAll_first uf pre w post [] h1 (by simpa using h2)] at h
    cases h

/-- C1 at the expression `3 4 +` with its three tokens. -/
theorem tokenize_one_token_per_word_witness :
    [⟨.NUMBER, "3".toList, some (.finite false false 3 0)⟩,
      ⟨.NUMBER, "4".toList, some (.finite false false 4 0)⟩,
      (⟨.OPERATOR, "+".toList, none⟩ : Token)].length = (wordsOf "3 4 +".toList).length ∧
    [⟨.NUMBER, "3".toList, some (.finite false false 3 0)⟩,
      ⟨.NUMBER, "4".toList, some (.finite false false 4 0)⟩,
      (⟨.OPERATOR, "+".toList, none⟩ : Token)].map (fun t => (t.strValue, some t.type)) =
      (wordsOf "3 4 +".toList).map
        (fun w => (w, firstMatchingCategory (isNumber (fun _ => true)) w)) :=
  (tokenize_one_token_per_word (fun _ => true)).1 "3 4 +".toList _ rfl

/-- C2: `tokenize` fails exactly when some whitespace-delimited word is in none of the
five categories (a numeric literal being a word for which the tokenizer's test `isNumber`
holds); the exception then carries the first such word after the text `Unknown token: `;
`1x` fails with `Unknown token: 1x`; an expression of white space alone gives the empty
token sequence. -/
theorem tokenize_fails_iff_unknown_word (uf : StodValue → Bool) :
    (∀ expression : Str,
      (∃ e, tokenize uf Compiler.new expression = .error e) ↔
        ∃ w ∈ wordsOf expression, firstMatchingCategory (isNumber uf) w = none) ∧
    (∀ (expression : Str) (e : Exn), tokenize uf Compiler.new expression = .error e →
      ∃ pre w post, wordsOf expression = pre ++ w :: post ∧
        (∀ u ∈ pre, firstMatchingCategory (isNumber uf) u ≠ none) ∧
        firstMatchingCategory (isNumber uf) w = none ∧
        e = .runtime_error ("Unknown token: ".toList ++ w)) ∧
    tokenize uf Compiler.new "1x".toList =
      .error (.runtime_error "Unknown token: 1x".toList) ∧
    (∀ expression : Str, (∀ c ∈ expression, isspace c = true) →
      tokenize uf Compiler.new expression = .ok []) := by
  have key : ∀ (expression : Str) (e : Exn), tokenize uf Compiler.new expression = .error e →
      ∃ pre w post, wordsOf expression = pre ++ w :: post ∧
        (∀ u ∈ pre, firstMatchingCategory (isNumber uf) u ≠ none) ∧
        firstMatchingCategory (isNumber uf) w = none ∧
        e = .runtime_error ("Unknown token: ".toList ++ w) := by
    intro expression e h
    rw [tokenize_eq] at h
    rcases first_failure (fun w => firstMatchingCategory (isNumber uf) w ≠ none)
        (wordsOf expression) with hall | ⟨pre, w, post, e', h1, h2⟩
    · obtain ⟨nw, e1, _⟩ := classifyAll_all uf (wordsOf expression) [] hall
      rw [e1] at h; cases h
    · have hw : firstMatchingCategory (isNumber uf) w = none := by simpa using h2
      rw [e', classifyAll_first uf pre w post [] h1 hw] at h
      cases h
      exact ⟨pre, w, post, e', h1, hw, rfl⟩
  refine ⟨?_, key, rfl, ?_⟩
  · intro expression
    constructor
    · rintro ⟨e, h⟩
      obtain ⟨pre, w, post, e1, _, hw, _⟩ := key expression e h
      exact ⟨w, by rw [e1]; simp, hw⟩
    · rintro ⟨w, hw, hn⟩
      rw [tokenize_eq]
      rcases first_failure (fun w => firstMatchingCategory (isNumber uf) w ≠ none)
          (wordsOf expression) with hall | ⟨pre, w', post, e', h1, h2⟩
      · exact absurd hn (hall w hw)
      · exact ⟨_, by rw [e']; exact classifyAll_first uf pre w' post [] h1 (by simpa using h2)⟩
  · intro expression hsp
    rw [tokenize_eq]
    have : wordsOf expression = [] := by
      unfold wordsOf
      induction expression with
      | nil => rfl
      | cons a l ih =>
        rw [List.splitOnP_cons, if_pos (hsp a (List.mem_cons_self _ _))]
        simp only [List.filter, List.isEmpty_nil, Bool.not_true]
        exact ih (fun c hc => hsp c (List.mem_cons_of_mem _ hc))
    rw [this]; rfl

/-- C2 at the expression `3 foo 1x`, whose first unknown word is `foo`. -/
theorem tokenize_fails_iff_unknown_word_witness :
    ∃ pre w post, wordsOf "3 foo 1x".toList = pre ++ w :: post ∧
      (∀ u ∈ pre, firstMatchingCategory (isNumber (fun _ => true)) u ≠ none) ∧
      firstMatchingCategory (isNumber (fun _ => true)) w = none ∧
      Exn.runtime_error "Unknown token: foo".toList =
        .runtime_error ("Unknown token: ".toList ++ w) :=
  (tokenize_fails_iff_unknown_word (fun _ => true)).2.1 "3 foo 1x".toList
    (.runtime_error "Unknown token: foo".toList) rfl

/-! ### The regular expression of `tokenize` never decides -/

theorem isdigit_cases (c : Char) (h : isdigit c = true) :
    c ∈ ['0', '1', '2', '3', '4', '5', '6', '7', '8', '9'] := by
  simp only [isdigit, Bool.and_eq_true, decide_eq_true_eq] at h
  obtain ⟨h1, h2⟩ := h
  have h1' : 48 ≤ c.toNat := h1
  have h2' : c.toNat ≤ 57 := h2
  have hc : c = Char.ofNat c.toNat := (Char.ofNat_toNat c).symm
  generalize c.toNat = n at h1' h2' hc
  subst hc
  interval_cases n <;> decide

theorem plainStart_of_isdigit (c : Char) (h : isdigit c = true) : plainStart c := by
  have := isdigit_cases c h
  simp only [List.mem_cons, List.mem_singleton, List.mem_nil_iff, or_false] at this
  rcases this with rfl | rfl | rfl | rfl | rfl | rfl | rfl | rfl | rfl | rfl <;>
    exact ⟨by decide, by decide, by decide, by decide, by decide⟩

theorem plainStart_dot : plainStart '.' :=
  ⟨by decide, by decide, by decide, by decide, by decide⟩

theorem drop_length_takeWhile {α : Type} (p : α → Bool) (l : List α) :
    l.drop (l.takeWhile p).length = l.dropWhile p := by
  induction l with
  | nil => rfl
  | cons a l ih =>
    by_cases h : p a = true
    · simp [List.takeWhile, List.dropWhile, h, ih]
    · simp [List.takeWhile, List.dropWhile, h]

theorem length_takeWhile_add {α : Type} (p : α → Bool) (l : List α) :
    (l.takeWhile p).length + (l.dropWhile p).length = l.length := by
  rw [← List.length_append, List.takeWhile_append_dropWhile]

theorem exponentPart_of_regexExponentTail (t : Str) (h : regexExponentTail t = true) :
    (exponentPart ('e', 'E') t).2 = t.length := by
  cases t with
  | nil => rfl
  | cons c rest =>
    simp only [regexExponentTail, Bool.and_eq_true, Bool.or_eq_true, decide_eq_true_eq] at h
    obtain ⟨hc, hr⟩ := h
    have fin : ∀ (sgn : Bool) (k : Nat) (ds : Str), signOf rest = (sgn, k) →
        rest.drop k = ds → k + ds.length = rest.length →
        (!ds.isEmpty && ds.all isdigit) = true →
        (exponentPart ('e', 'E') (c :: rest)).2 = (c :: rest).length := by
      intro sgn k ds hs hd hl hds
      simp only [Bool.and_eq_true, Bool.not_eq_true', List.isEmpty_eq_false_iff_exists_mem,
        List.all_eq_true] at hds
      obtain ⟨⟨x, hx⟩, hall⟩ := hds
      have htw : ds.takeWhile isdigit = ds := List.takeWhile_eq_self_iff.mpr hall
      have hne : ds ≠ [] := List.ne_nil_of_mem hx
      simp only [exponentPart, hc, if_true, hs, hd, htw, hne, if_false, List.length_cons]
      omega
    cases rest with
    | nil => simp at hr
    | cons d ds =>
      by_cases hm : d = '-'
      · subst hm
        exact fin true 1 ds rfl rfl (by simp; omega) hr
      · by_cases hp : d = '+'
        · subst hp
          exact fin false 1 ds rfl rfl (by simp; omega) hr
        · have hs : signOf (d :: ds) = (false, 0) := by
            unfold signOf
            split
            · rename_i heq; cases heq; exact absurd rfl hm
            · rename_i heq; cases heq; exact absurd rfl hp
            · rfl
          have hr' : (!(d :: ds).isEmpty && (d :: ds).all isdigit) = true := by
            revert hr
            split
            · rename_i heq; cases heq; exact absurd rfl hm
            · rename_i heq; cases heq; exact absurd rfl hp
            · rename_i heq _ _; intro hr; exact hr
          exact fin false 0 (d :: ds) hs rfl (by simp) hr'

theorem regexMantissaTail_head (s : Str) (h : regexMantissaTail s = true) :
    ∃ c rest, s = c :: rest ∧ (isdigit c = true ∨ c = '.') := by
  cases s with
  | nil => simp [regexMantissaTail, regexExponentTail] at h
  | cons c rest =>
    refine ⟨c, rest, rfl, ?_⟩
    by_cases hd : isdigit c = true
    · exact Or.inl hd
    · right
      by_contra hc
      have htw : (c :: rest).takeWhile isdigit = [] := by simp [List.takeWhile, hd]
      unfold regexMantissaTail at h
      simp only [htw, List.length_nil, List.drop_zero, List.isEmpty_nil, Bool.not_true,
        Bool.false_and] at h
      revert h
      split
      · rename_i heq; cases heq; exact absurd rfl hc
      · intro h; cases h

theorem parseDecimal_of_regexMantissaTail (neg : Bool) (s : Str)
    (h : regexMantissaTail s = true) :
    ∃ v, parseDecimal neg s = some (v, s.length) := by
  have hlen := length_takeWhile_add isdigit s
  have hdrop := drop_length_takeWhile isdigit s
  unfold regexMantissaTail at h
  simp only [hdrop] at h
  unfold parseDecimal
  simp only [hdrop]
  cases hr : s.dropWhile isdigit with
  | nil =>
    rw [hr] at h hlen
    simp only [Bool.and_eq_true, Bool.not_eq_true', List.isEmpty_eq_false_iff_exists_mem] at h
    obtain ⟨⟨x, hx⟩, _⟩ := h
    have hne : s.takeWhile isdigit ≠ [] := List.ne_nil_of_mem hx
    have hd : s.drop (s.takeWhile isdigit).length = [] := by rw [hdrop, hr]
    simp [hne, hd, exponentPart]
    simpa using hlen
  | cons d r2 =>
    rw [hr] at h hlen
    by_cases hdot : d = '.'
    · subst hdot
      simp only [Bool.and_eq_true, Bool.not_eq_true', List.isEmpty_eq_false_iff_exists_mem] at h
      obtain ⟨⟨x, hx⟩, hex⟩ := h
      have hne : r2.takeWhile isdigit ≠ [] := List.ne_nil_of_mem hx
      have hlen2 := length_takeWhile_add isdigit r2
      have hex' := exponentPart_of_regexExponentTail _ hex
      rw [drop_length_takeWhile] at hex'
      have hd : s.drop ((s.takeWhile isdigit).length + (1 + (r2.takeWhile isdigit).length)) =
          r2.dropWhile isdigit := by
        rw [← List.drop_drop, hdrop, hr, Nat.add_comm 1, ← List.drop_drop]
        simp [drop_length_takeWhile]
      simp only [List.head?_cons, decide_True, if_true, List.drop_succ_cons, List.drop_zero,
        hne, and_false, if_false, hd, hex']
      simp only [List.length_cons] at hlen
      simp only [Option.some.injEq, Prod.mk.injEq, exists_eq_left']
      omega
    · have hsplit : (match (d :: r2 : Str) with
          | '.' :: r2' =>
            (!(r2'.takeWhile isdigit).isEmpty &&
              regexExponentTail (r2'.drop (r2'.takeWhile isdigit).length))
          | r1 => (!(s.takeWhile isdigit).isEmpty && regexExponentTail r1)) =
          (!(s.takeWhile isdigit).isEmpty && regexExponentTail (d :: r2)) := by
        split
        · rename_i heq; cases heq; exact absurd rfl hdot
        · rfl
      rw [hsplit] at h
      simp only [Bool.and_eq_true, Bool.not_eq_true', List.isEmpty_eq_false_iff_exists_mem] at h
      obtain ⟨⟨x, hx⟩, hex⟩ := h
      have hne : s.takeWhile isdigit ≠ [] := List.ne_nil_of_mem hx
      have hex' := exponentPart_of_regexExponentTail _ hex
      have hhead : ((d :: r2 : Str).head? = some '.') ↔ False := by
        simp only [List.head?_cons, Option.some.injEq, iff_false]; exact hdot
      have hd : s.drop ((s.takeWhile isdigit).length + 0) = d :: r2 := by
        rw [Nat.add_zero, hdrop, hr]
      simp only [hhead, decide_False, Bool.false_eq_true, if_false, hne, false_and, hd, hex']
      simp only [Option.some.injEq, Prod.mk.injEq, exists_eq_left']
      omega

theorem parseHex_of_regexMantissaTail (neg : Bool) (s : Str)
    (h : regexMantissaTail s = true) : parseHex neg s = none := by
  unfold parseHex
  split
  · rename_i x body
    by_cases hx : x = 'x' ∨ x = 'X'
    · exfalso
      have hx1 : isdigit x = false := by rcases hx with rfl | rfl <;> decide
      have hx2 : x ≠ '.' := by rcases hx with rfl | rfl <;> decide
      have hx3 : ¬ (x = 'e' ∨ x = 'E') := by rcases hx with rfl | rfl <;> decide
      have h0 : isdigit '0' = true := by decide
      have htw : ('0' :: x :: body).takeWhile isdigit = ['0'] := by
        simp [List.takeWhile, h0, hx1]
      unfold regexMantissaTail at h
      simp only [htw, List.length_singleton, List.drop_succ_cons, List.drop_zero] at h
      revert h
      split
      · rename_i heq; cases heq; exact absurd rfl hx2
      · simp only [regexExponentTail, Bool.and_eq_true, Bool.or_eq_true, decide_eq_true_eq]
        rintro ⟨_, h, _⟩
        exact hx3 h
    · simp only [hx, if_false]
  · rfl

theorem parseInf_none (neg : Bool) (c : Char) (rest : Str) (h : c.toLower ≠ 'i') :
    parseInf neg (c :: rest) = none := by
  simp [parseInf, startsWithCI, h]

theorem parseNan_none (neg : Bool) (c : Char) (rest : Str) (h : c.toLower ≠ 'n') :
    parseNan neg (c :: rest) = none := by
  simp [parseNan, startsWithCI, h]

theorem stod_sequence (neg : Bool) (c : Char) (rest : Str)
    (hc : plainStart c) (h : regexMantissaTail (c :: rest) = true) :
    ∃ v, (parseInf neg (c :: rest)).orElse (fun _ =>
      (parseNan neg (c :: rest)).orElse fun _ =>
      (parseHex neg (c :: rest)).orElse fun _ => parseDecimal neg (c :: rest)) =
        some (v, (c :: rest).length) := by
  obtain ⟨v, hv⟩ := parseDecimal_of_regexMantissaTail neg _ h
  refine ⟨v, ?_⟩
  rw [parseInf_none neg c rest hc.2.2.2.1, parseNan_none neg c rest hc.2.2.2.2,
    parseHex_of_regexMantissaTail neg _ h, hv]
  rfl

theorem plainStart_of_regexMantissaTail (c : Char) (rest : Str)
    (h : regexMantissaTail (c :: rest) = true) : plainStart c := by
  obtain ⟨c', rest', heq, hc⟩ := regexMantissaTail_head _ h
  cases heq
  rcases hc with hc | rfl
  · exact plainStart_of_isdigit c hc
  · exact plainStart_dot

theorem signOf_plain (c : Char) (rest : Str) (h1 : c ≠ '-') (h2 : c ≠ '+') :
    signOf (c :: rest) = (false, 0) := by
  unfold signOf
  split
  · rename_i heq; cases heq; exact absurd rfl h1
  · rename_i heq; cases heq; exact absurd rfl h2
  · rfl

theorem stod_signed (uf : StodValue → Bool) (sgn : Char) (neg : Bool) (r : Str)
    (hsp : isspace sgn = false) (hsg : signOf (sgn :: r) = (neg, 1))
    (h : regexMantissaTail r = true) :
    ∃ v, stod uf (sgn :: r) =
      if (v.overflows || (v.tiny && uf v)) = true then .error (.out_of_range "stod".toList)
      else .ok (v, (sgn :: r).length) := by
  obtain ⟨c, rest, rfl, _⟩ := regexMantissaTail_head _ h
  obtain ⟨v, hv⟩ := stod_sequence neg c rest (plainStart_of_regexMantissaTail c rest h) h
  refine ⟨v, ?_⟩
  have htw : (sgn :: c :: rest).takeWhile isspace = [] := by simp [List.takeWhile, hsp]
  unfold stod
  simp only [htw, List.length_nil, List.drop_zero, hsg, List.drop_succ_cons, hv]
  simp only [List.length_cons]
  split_ifs
  · rfl
  · congr 2; omega

theorem stod_unsigned (uf : StodValue → Bool) (c : Char) (rest : Str)
    (h1 : c ≠ '-') (h2 : c ≠ '+') (h : regexMantissaTail (c :: rest) = true) :
    ∃ v, stod uf (c :: rest) =
      if (v.overflows || (v.tiny && uf v)) = true then .error (.out_of_range "stod".toList)
      else .ok (v, (c :: rest).length) := by
  have hc := plainStart_of_regexMantissaTail c rest h
  obtain ⟨v, hv⟩ := stod_sequence false c rest hc h
  refine ⟨v, ?_⟩
  have htw : (c :: rest).takeWhile isspace = [] := by simp [List.takeWhile, hc.1]
  unfold stod
  simp only [htw, List.length_nil, List.drop_zero, signOf_plain c rest h1 h2, hv]
  simp only [List.length_cons]
  split_ifs
  · rfl
  · congr 2; omega

/-- A word that the regular expression of `tokenize` matches is a decimal sequence that
`stod` converts in full, unless its value is out of range. -/
theorem stod_of_regexMatch (uf : StodValue → Bool) (token : Str)
    (h : scientificNotationRegexMatch token = true) :
    ∃ v, stod uf token =
      if (v.overflows || (v.tiny && uf v)) = true then .error (.out_of_range "stod".toList)
      else .ok (v, token.length) := by
  cases token with
  | nil => simp [scientificNotationRegexMatch, regexMantissaTail, regexExponentTail] at h
  | cons c r =>
    by_cases hm : c = '-'
    · subst hm
      exact stod_signed uf '-' true r (by decide) rfl h
    · by_cases hp : c = '+'
      · subst hp
        exact stod_signed uf '+' false r (by decide) rfl h
      · have h' : regexMantissaTail (c :: r) = true := by
          revert h
          unfold scientificNotationRegexMatch
          split
          · rename_i heq; cases heq; exact absurd rfl hm
          · rename_i heq; cases heq; exact absurd rfl hp
          · exact id
        exact stod_unsigned uf c r hm hp h'

/-- The local `isNumber` of `tokenize` is true exactly when `stod` converts the whole
word without throwing: the regular expression never decides. -/
theorem isNumber_iff (uf : StodValue → Bool) (token : Str) :
    isNumber uf token = true ↔ ∃ v, stod uf token = .ok (v, token.length) := by
  unfold isNumber
  constructor
  · intro h
    cases hs : stod uf token with
    | error e => rw [hs] at h; cases h
    | ok r =>
      obtain ⟨v, pos⟩ := r
      rw [hs] at h
      simp only at h
      by_cases hp : pos = token.length
      · exact ⟨v, by rw [hp]⟩
      · rw [if_neg hp] at h
        obtain ⟨v', hv'⟩ := stod_of_regexMatch uf token h
        rw [hs] at hv'
        split_ifs at hv'
        cases hv'
        exact absurd rfl hp
  · rintro ⟨v, hv⟩
    rw [hv]
    simp

theorem Token.new_type (uf : StodValue → Bool) (type : TokenType) (value : Str) (t : Token)
    (h : Token.new uf type value = .ok t) : t.type = type := by
  unfold Token.new at h
  split_ifs at h
  · cases hs : stod uf value with
    | error e => rw [hs] at h; cases h
    | ok r => obtain ⟨v, n⟩ := r; rw [hs] at h; cases h; rfl
  · cases h; rfl

theorem classify_number_iff (uf : StodValue → Bool) (C : Compiler) (w : Str) :
    (∃ t, classify uf C w = .ok t ∧ t.type = .NUMBER) ↔ isNumber uf w = true := by
  constructor
  · rintro ⟨t, ht, hty⟩
    by_contra hn
    unfold classify at ht
    rw [if_neg hn] at ht
    split_ifs at ht
    all_goals
      have := Token.new_type uf _ _ t ht
      rw [hty] at this
      cases this
  · intro h
    obtain ⟨v, hv⟩ := Token.new_number_ok uf w h
    exact ⟨_, by unfold classify; rw [if_pos h]; exact hv, rfl⟩

/-- C3 as stated fails: `1e999` matches the grammar (the regular expression of the
source) in full, yet `stod` throws `out_of_range` for it and `tokenize` rejects it as an
unknown token; `inf`, `nan` and `0x10` are outside the grammar, yet `tokenize` makes them
`NUMBER` tokens. -/
theorem tokenize_number_not_the_grammar :
    (scientificNotationRegexMatch "1e999".toList = true ∧
      (∀ uf, stod uf "1e999".toList = .error (.out_of_range "stod".toList)) ∧
      ∀ uf, tokenize uf Compiler.new "1e999".toList =
        .error (.runtime_error "Unknown token: 1e999".toList)) ∧
    (scientificNotationRegexMatch "inf".toList = false ∧
      ∀ uf, tokenize uf Compiler.new "inf".toList =
        .ok [⟨.NUMBER, "inf".toList, some (.inf false)⟩]) ∧
    (scientificNotationRegexMatch "nan".toList = false ∧
      ∀ uf, tokenize uf Compiler.new "nan".toList =
        .ok [⟨.NUMBER, "nan".toList, some (.nan false)⟩]) ∧
    (scientificNotationRegexMatch "0x10".toList = false ∧
      ∀ uf, tokenize uf Compiler.new "0x10".toList =
        .ok [⟨.NUMBER, "0x10".toList, some (.finite false true 16 0)⟩]) :=
  ⟨⟨rfl, fun _ => rfl, fun _ => rfl⟩, ⟨rfl, fun _ => rfl⟩, ⟨rfl, fun _ => rfl⟩,
    ⟨rfl, fun _ => rfl⟩⟩

/-- C3 amended: `tokenize` makes a word a `NUMBER` token exactly when `std::stod`
converts the whole word without throwing. A word that matches the grammar in full becomes
a `NUMBER` token unless `stod` throws `out_of_range` for it; the words `inf`, `nan` and
`0x10`, which `stod` converts in full, are `NUMBER` tokens; `1x`, of which `stod`
converts one character only, is not a number. -/
theorem tokenize_number_iff_stod (uf : StodValue → Bool) (C : Compiler) (w : Str) :
    ((∃ t, classify uf C w = .ok t ∧ t.type = .NUMBER) ↔
      ∃ v, stod uf w = .ok (v, w.length)) ∧
    (scientificNotationRegexMatch w = true →
      (∃ t, classify uf C w = .ok t ∧ t.type = .NUMBER) ∨
        stod uf w = .error (.out_of_range "stod".toList)) ∧
    (∃ v, stod uf "inf".toList = .ok (v, "inf".toList.length)) ∧
    (∃ v, stod uf "nan".toList = .ok (v, "nan".toList.length)) ∧
    (∃ v, stod uf "0x10".toList = .ok (v, "0x10".toList.length)) ∧
    (∃ v, stod uf "1x".toList = .ok (v, 1)) ∧ isNumber uf "1x".toList = false := by
  refine ⟨?_, ?_, ⟨_, rfl⟩, ⟨_, rfl⟩, ⟨_, rfl⟩, ⟨_, rfl⟩, rfl⟩
  · rw [classify_number_iff, isNumber_iff]
  · intro h
    obtain ⟨v, hv⟩ := stod_of_regexMatch uf w h
    by_cases ho : (v.overflows || (v.tiny && uf v)) = true
    · right; rw [hv, if_pos ho]
    · left
      rw [classify_number_iff, isNumber_iff]
      exact ⟨v, by rw [hv, if_neg ho]⟩

/-- C3 amended, at the word `1.5e3`, which matches the grammar and is in range. -/
theorem tokenize_number_iff_stod_witness :
    (∃ t, classify (fun _ => true) Compiler.new "1.5e3".toList = .ok t ∧ t.type = .NUMBER) ∨
      stod (fun _ => true) "1.5e3".toList = .error (.out_of_range "stod".toList) :=
  (tokenize_number_iff_stod (fun _ => true) Compiler.new "1.5e3".toList).2.1 rfl

/-! ### `compileToString` -/

theorem Token.new_initialized (uf : StodValue → Bool) (type : TokenType) (value : Str)
    (t : Token) (h : Token.new uf type value = .ok t) : t.initialized := by
  unfold Token.new at h
  by_cases ht : type = .NUMBER
  · rw [if_pos ht] at h
    cases hs : stod uf value with
    | error e => rw [hs] at h; cases h
    | ok r =>
      obtain ⟨v, n⟩ := r
      rw [hs] at h
      cases h
      intro _; rfl
  · rw [if_neg ht] at h
    cases h
    intro h'; exact absurd h' ht

theorem classify_initialized (uf : StodValue → Bool) (C : Compiler) (w : Str) (t : Token)
    (h : classify uf C w = .ok t) : t.initialized := by
  unfold classify at h
  split_ifs at h
  all_goals exact Token.new_initialized uf _ _ t h

theorem classifyAll_initialized (uf : StodValue → Bool) (C : Compiler) (ws : List Str)
    (acc tokens : List Token) (hacc : ∀ t ∈ acc, t.initialized)
    (h : classifyAll uf C ws acc = .ok tokens) : ∀ t ∈ tokens, t.initialized := by
  induction ws generalizing acc with
  | nil => simp only [classifyAll] at h; cases h; exact hacc
  | cons w ws ih =>
    simp only [classifyAll] at h
    cases hc : classify uf C w with
    | error e => rw [hc] at h; cases h
    | ok t =>
      rw [hc] at h
      refine ih (acc ++ [t]) ?_ h
      intro u hu
      rcases List.mem_append.mp hu with hu | hu
      · exact hacc u hu
      · rw [List.mem_singleton] at hu
        rw [hu]; exact classify_initialized uf C w t hc

theorem emitToken_ok (showDouble : StreamFmt → StodValue → Str) (fmt : StreamFmt) (t : Token)
    (arities : StrMap Int) (n : Int) (ht : t.initialized) :
    ∃ r, emitToken showDouble fmt t arities n = .ok r := by
  unfold emitToken
  cases hty : t.type with
  | NUMBER =>
    have := ht hty
    cases hv : t.numValue with
    | none => rw [hv] at this; cases this
    | some v => exact ⟨_, rfl⟩
  | CONSTANT => exact ⟨_, rfl⟩
  | OPERATOR => exact ⟨_, rfl⟩
  | FUNCTION => exact ⟨_, rfl⟩
  | STACK_OP => exact ⟨_, rfl⟩

theorem emitTokens_ok (showDouble : StreamFmt → StodValue → Str) (fmt : StreamFmt)
    (tokens : List Token) (arities : StrMap Int) (n : Int)
    (h : ∀ t ∈ tokens, t.initialized) :
    ∃ r, emitTokens showDouble fmt tokens arities n = .ok r := by
  induction tokens generalizing arities n with
  | nil => exact ⟨_, rfl⟩
  | cons t rest ih =>
    obtain ⟨⟨ls, a1, c1⟩, h1⟩ :=
      emitToken_ok showDouble fmt t arities n (h t (List.mem_cons_self _ _))
    obtain ⟨⟨ls2, a2, c2⟩, h2⟩ := ih a1 c1 (fun u hu => h u (List.mem_cons_of_mem _ hu))
    exact ⟨(ls ++ ls2, a2, c2), by simp only [emitTokens, h1, h2]⟩

theorem generateAssembly_ok (showDouble : StreamFmt → StodValue → Str) (C : Compiler)
    (tokens : List Token) (h : ∀ t ∈ tokens, t.initialized) :
    ∃ r, generateAssembly showDouble C tokens = .ok r := by
  obtain ⟨⟨ls, a, c⟩, h1⟩ := emitTokens_ok showDouble
    (declareConstants showDouble tokens C.constants StreamFmt.initial).2.2 tokens
    C.operatorArities 0 h
  refine ⟨(unlines (dataSectionHead ++
      (declareConstants showDouble tokens C.constants StreamFmt.initial).1 ++ textSectionHead ++
      ls ++ programTail), ⟨a,
      (declareConstants showDouble tokens C.constants StreamFmt.initial).2.1⟩), ?_⟩
  simp only [generateAssembly, h1]

/-- C4: `compileToString` throws exactly when `tokenize` throws, and throws the same
exception; when `tokenize` returns tokens, `generateAssembly` does not fail on them
and `compileToString` returns exactly the text that it writes. -/
theorem compileToString_fails_iff_tokenize_fails (uf : StodValue → Bool)
    (showDouble : StreamFmt → StodValue → Str) (C : Compiler) (expression : Str) :
    ((∃ f, compileToString uf showDouble C expression = .error f) ↔
      ∃ e, tokenize uf C expression = .error e) ∧
    (∀ e, tokenize uf C expression = .error e ↔
      compileToString uf showDouble C expression = .error (.thrown e)) ∧
    (∀ u, compileToString uf showDouble C expression ≠ .error (.undefined u)) ∧
    (∀ tokens, tokenize uf C expression = .ok tokens →
      ∃ r, generateAssembly showDouble C tokens = .ok r ∧
        compileToString uf showDouble C expression = .ok r) := by
  unfold compileToString
  cases ht : tokenize uf C expression with
  | error e =>
    refine ⟨⟨fun _ => ⟨e, rfl⟩, fun _ => ⟨_, rfl⟩⟩, ?_, ?_, ?_⟩
    · intro e'
      constructor
      · intro h; cases h; rfl
      · intro h; cases h; rfl
    · intro u h; cases h
    · intro tokens h; cases h
  | ok tokens =>
    have hinit : ∀ t ∈ tokens, t.initialized := by
      rw [tokenize_eq] at ht
      exact classifyAll_initialized uf C _ [] tokens (by simp) ht
    obtain ⟨r, hr⟩ := generateAssembly_ok showDouble C tokens hinit
    simp only [hr]
    refine ⟨⟨?_, ?_⟩, ?_, ?_, ?_⟩
    · rintro ⟨f, h⟩; cases h
    · rintro ⟨e, h⟩; cases h
    · intro e
      constructor
      · intro h; cases h
      · intro h; cases h
    · intro u h; cases h
    · intro tokens' h
      cases h
      exact ⟨r, hr, rfl⟩

/-! ### `infixToRPN` -/

theorem spaced_nil : spaced [] = [] := rfl

theorem spaced_cons (w : Str) (ws : List Str) : spaced (w :: ws) = w ++ " ".toList ++ spaced ws := by
  simp [spaced]

theorem spaced_append (xs ys : List Str) : spaced (xs ++ ys) = spaced xs ++ spaced ys := by
  simp [spaced]

theorem spaced_singleton (w : Str) : spaced [w] = w ++ " ".toList := by
  simp [spaced]

theorem processToken_operand (a : Str) (s : RPNState) (h : isOperandToken a = true) :
    processToken a s = .ok { s with result := s.result ++ a ++ " ".toList } := by
  simp only [processToken, h, if_true]

/-- A left-associative operator of one of the two levels, met with an empty stack or with
an operator of its own level on the stack, pops what is there and is pushed. -/
theorem processToken_same_level (level : List Str)
    (hl : level = additiveOperators ∨ level = multiplicativeOperators)
    (p : Str) (hp : p ∈ level) (stack : List Str)
    (hs : stack = [] ∨ ∃ q ∈ level, stack = [q]) (out : Str) :
    processToken p ⟨NaturalLanguageProcessor.new, out, stack⟩ =
      .ok ⟨NaturalLanguageProcessor.new, out ++ spaced stack, [p]⟩ := by
  have e0 : ∀ o : Str, o ++ spaced [] = o := by intro o; simp [spaced]
  have e1 : ∀ o q : Str, o ++ spaced [q] = o ++ q ++ " ".toList := by intro o q; simp [spaced]
  rcases hl with rfl | rfl
  · simp only [additiveOperators, List.mem_cons, List.mem_singleton, List.mem_nil_iff, or_false] at hp hs
    rcases hp with rfl | rfl <;> rcases hs with rfl | ⟨q, (rfl | rfl), rfl⟩ <;>
      first
        | (rw [e0]; rfl)
        | (rw [e1]; rfl)
  · simp only [multiplicativeOperators, List.mem_cons, List.mem_singleton, List.mem_nil_iff, or_false] at hp hs
    rcases hp with rfl | rfl | rfl <;> rcases hs with rfl | ⟨q, (rfl | rfl | rfl), rfl⟩ <;>
      first
        | (rw [e0]; rfl)
        | (rw [e1]; rfl)

/-- Chain of operators of one level: invariant of the token loop. -/
theorem processTokens_same_level (level : List Str)
    (hl : level = additiveOperators ∨ level = multiplicativeOperators)
    (rest : List (Str × Str))
    (hr : ∀ pa ∈ rest, pa.1 ∈ level ∧ isOperandToken pa.2 = true)
    (stack : List Str) (hs : stack = [] ∨ ∃ q ∈ level, stack = [q]) (out : Str) :
    ∃ s, processTokens (rest.flatMap fun pa => [pa.1, pa.2])
        ⟨NaturalLanguageProcessor.new, out, stack⟩ = .ok s ∧
      s.P = NaturalLanguageProcessor.new ∧
      drainStack s.operatorStack s.result =
        out ++ spaced (stack ++ rest.flatMap fun pa => [pa.2, pa.1]) := by
  induction rest generalizing stack out with
  | nil =>
    refine ⟨⟨NaturalLanguageProcessor.new, out, stack⟩, rfl, rfl, ?_⟩
    rcases hs with rfl | ⟨q, hq, rfl⟩
    · simp [drainStack, spaced]
    · have hne : q ≠ "(".toList := by
        rcases hl with rfl | rfl
        · simp only [additiveOperators, List.mem_cons, List.mem_singleton, List.mem_nil_iff,
            or_false] at hq
          rcases hq with rfl | rfl <;> decide
        · simp only [multiplicativeOperators, List.mem_cons, List.mem_singleton,
            List.mem_nil_iff, or_false] at hq
          rcases hq with rfl | rfl | rfl <;> decide
      have hne2 : ¬ q = ['('] := hne
      simp [drainStack, spaced, hne2]
  | cons pa rest ih =>
    obtain ⟨p, a⟩ := pa
    have hpa := hr (p, a) (List.mem_cons_self _ _)
    obtain ⟨s, h1, h2, h3⟩ := ih (fun x hx => hr x (List.mem_cons_of_mem _ hx)) [p]
      (Or.inr ⟨p, hpa.1, rfl⟩) (out ++ spaced stack ++ a ++ " ".toList)
    refine ⟨s, ?_, h2, ?_⟩
    · simp only [List.flatMap_cons, List.cons_append, List.nil_append, processTokens,
        processToken_same_level level hl p hpa.1 stack hs out,
        processToken_operand a _ hpa.2]
      exact h1
    · rw [h3]
      simp [spaced]

/-- C7: left-associative chaining. For every `n`, numbers `a0 .. an` and operators
`p1 .. pn` that all belong to one precedence level (`+ -`, or `* / %`), the tokens
`a0 p1 a1 p2 a2 .. pn an` give `a0 a1 p1 a2 p2 .. an pn`, every word followed by one
space; `2 - 3 - 1` gives `2 3 - 1 - `. The tables are left as constructed. -/
theorem infixToRPN_left_associative_chain (level : List Str)
    (hl : level = additiveOperators ∨ level = multiplicativeOperators)
    (a0 : Str) (h0 : isOperandToken a0 = true) (rest : List (Str × Str))
    (hr : ∀ pa ∈ rest, pa.1 ∈ level ∧ isOperandToken pa.2 = true) :
    infixToRPN NaturalLanguageProcessor.new (a0 :: rest.flatMap fun pa => [pa.1, pa.2]) =
      .ok (spaced (a0 :: rest.flatMap fun pa => [pa.2, pa.1]), NaturalLanguageProcessor.new) := by
  obtain ⟨s, h1, h2, h3⟩ := processTokens_same_level level hl rest hr [] (Or.inl rfl)
    (a0 ++ " ".toList)
  simp only [infixToRPN, processTokens, processToken_operand a0 _ h0, List.nil_append, h1]
  rw [h3, h2, spaced_cons]
  simp

/-- C7 at the tokens `2 - 3 - 1`. -/
theorem infixToRPN_left_associative_chain_witness :
    infixToRPN NaturalLanguageProcessor.new
        ["2".toList, "-".toList, "3".toList, "-".toList, "1".toList] =
      .ok ("2 3 - 1 - ".toList, NaturalLanguageProcessor.new) :=
  infixToRPN_left_associative_chain additiveOperators (Or.inl rfl) "2".toList (by decide)
    [("-".toList, "3".toList), ("-".toList, "1".toList)] (by decide)

theorem closeParenLoop_to_open (ops : List Str) (h : ∀ o ∈ ops, o ≠ "(".toList)
    (rest : List Str) (result : Str) :
    closeParenLoop (ops ++ "(".toList :: rest) result =
      ("(".toList :: rest, result ++ spaced ops) := by
  induction ops generalizing result with
  | nil => simp [closeParenLoop, spaced]
  | cons o ops ih =>
    have ho : o ≠ "(".toList := h o (List.mem_cons_self _ _)
    have e : (o :: ops) ++ "(".toList :: rest = o :: (ops ++ "(".toList :: rest) := rfl
    rw [e]
    simp only [closeParenLoop, ne_eq, ho, not_false_eq_true, if_true]
    rw [ih (fun x hx => h x (List.mem_cons_of_mem _ hx))]
    simp [spaced]

theorem closeParenLoop_no_open (ops : List Str) (h : ∀ o ∈ ops, o ≠ "(".toList)
    (result : Str) :
    closeParenLoop ops result = ([], result ++ spaced ops) := by
  induction ops generalizing result with
  | nil => simp [closeParenLoop, spaced]
  | cons o ops ih =>
    have ho : o ≠ "(".toList := h o (List.mem_cons_self _ _)
    simp only [closeParenLoop, ne_eq, ho, not_false_eq_true, if_true]
    rw [ih (fun x hx => h x (List.mem_cons_of_mem _ hx))]
    simp [spaced]

theorem processToken_close_paren (P : NaturalLanguageProcessor) (result : Str)
    (ops rest : List Str) (h : ∀ o ∈ ops, o ≠ "(".toList) :
    processToken ")".toList ⟨P, result, ops ++ "(".toList :: rest⟩ =
      .ok ⟨P, result ++ spaced ops, rest⟩ := by
  have h1 : isOperandToken ")".toList = false := by decide
  have h2 : isPushedToken ")".toList = false := by decide
  simp only [processToken, h1, h2, Bool.false_eq_true, if_false, if_true,
    closeParenLoop_to_open ops h rest result]

theorem processToken_open_paren (s : RPNState) :
    processToken "(".toList s = .ok { s with operatorStack := "(".toList :: s.operatorStack } :=
  rfl

theorem mem_leftBinaryOperators (p : Str) (h : p ∈ leftBinaryOperators) :
    p = "+".toList ∨ p = "-".toList ∨ p = "*".toList ∨ p = "/".toList ∨ p = "%".toList := by
  simpa [leftBinaryOperators, additiveOperators, multiplicativeOperators] using h

theorem processToken_left_on_open (p : Str) (hp : p ∈ leftBinaryOperators) (out : Str)
    (rest : List Str) :
    processToken p ⟨NaturalLanguageProcessor.new, out, "(".toList :: rest⟩ =
      .ok ⟨NaturalLanguageProcessor.new, out, p :: "(".toList :: rest⟩ := by
  rcases mem_leftBinaryOperators p hp with rfl | rfl | rfl | rfl | rfl <;> rfl

theorem processToken_left_on_empty (p : Str) (hp : p ∈ leftBinaryOperators) (out : Str) :
    processToken p ⟨NaturalLanguageProcessor.new, out, []⟩ =
      .ok ⟨NaturalLanguageProcessor.new, out, [p]⟩ := by
  rcases mem_leftBinaryOperators p hp with rfl | rfl | rfl | rfl | rfl <;> rfl

theorem leftBinaryOperators_ne_open (p : Str) (hp : p ∈ leftBinaryOperators) :
    p ≠ "(".toList := by
  rcases mem_leftBinaryOperators p hp with rfl | rfl | rfl | rfl | rfl <;> decide

/-- C9: parenthesised grouping. For numbers `a b c` and operators `p q` among
`+ - * / %`, the tokens `( a p b ) q c` give `a b p c q` (every word followed by one
space) whatever the precedences of `p` and `q`. A close parenthesis pops the operators
above the nearest open parenthesis to the output and discards that parenthesis, and an
operator that arrives while an open parenthesis is on top of the stack is pushed above
it without popping it. -/
theorem infixToRPN_parenthesised_group :
    (∀ a b c p q : Str, isOperandToken a = true → isOperandToken b = true →
      isOperandToken c = true → p ∈ leftBinaryOperators → q ∈ leftBinaryOperators →
      infixToRPN NaturalLanguageProcessor.new ["(".toList, a, p, b, ")".toList, q, c] =
        .ok (spaced [a, b, p, c, q], NaturalLanguageProcessor.new)) ∧
    (∀ (P : NaturalLanguageProcessor) (result : Str) (ops rest : List Str),
      (∀ o ∈ ops, o ≠ "(".toList) →
      processToken ")".toList ⟨P, result, ops ++ "(".toList :: rest⟩ =
        .ok ⟨P, result ++ spaced ops, rest⟩) ∧
    (∀ (token result : Str) (rest : List Str), isOperatorToken token = true →
      ∃ P1, processToken token ⟨NaturalLanguageProcessor.new, result, "(".toList :: rest⟩ =
        .ok ⟨P1, result, token :: "(".toList :: rest⟩) := by
  refine ⟨?_, processToken_close_paren, ?_⟩
  · intro a b c p q ha hb hc hp hq
    have hcl := processToken_close_paren NaturalLanguageProcessor.new (([] : Str) ++ a ++ " ".toList ++ b ++ " ".toList)
      [p] [] (by
        intro o ho
        rw [List.mem_singleton] at ho
        rw [ho]; exact leftBinaryOperators_ne_open p hp)
    simp only [List.singleton_append] at hcl
    have hq1 : q ≠ "(".toList := leftBinaryOperators_ne_open q hq
    have hq2 : ¬ q = ['('] := hq1
    simp only [infixToRPN, processTokens, processToken_open_paren,
      processToken_operand a _ ha, processToken_left_on_open p hp,
      processToken_operand b _ hb, hcl, processToken_left_on_empty q hq,
      processToken_operand c _ hc, drainStack]
    simp [spaced, hq2]
  · intro token result rest ht
    have : token = "+".toList ∨ token = "-".toList ∨ token = "*".toList ∨
        token = "/".toList ∨ token = "^".toList ∨ token = "%".toList ∨
        token = "!".toList := by
      simpa [isOperatorToken, or_assoc] using ht
    rcases this with rfl | rfl | rfl | rfl | rfl | rfl | rfl <;> exact ⟨_, rfl⟩

/-- C9 at the tokens `( 1 + 2 ) * 3`. -/
theorem infixToRPN_parenthesised_group_witness :
    infixToRPN NaturalLanguageProcessor.new
        ["(".toList, "1".toList, "+".toList, "2".toList, ")".toList, "*".toList, "3".toList] =
      .ok ("1 2 + 3 * ".toList, NaturalLanguageProcessor.new) :=
  infixToRPN_parenthesised_group.1 "1".toList "2".toList "3".toList "+".toList "*".toList
    (by decide) (by decide) (by decide) (by decide) (by decide)

/-- C10 as stated fails: with `+` on the stack and no open parenthesis there, the token
`)` pops the `+` to the output and empties the stack, so that `1 + 2 ) * 3` gives
`1 2 + 3 * ` where `1 + 2 * 3` gives `1 2 3 * + `. -/
theorem unmatched_close_paren_changes_state :
    "(".toList ∉ ["+".toList] ∧
    processToken ")".toList ⟨NaturalLanguageProcessor.new, "1 2 ".toList, ["+".toList]⟩ =
      .ok ⟨NaturalLanguageProcessor.new, "1 2 + ".toList, []⟩ ∧
    processToken ")".toList ⟨NaturalLanguageProcessor.new, "1 2 ".toList, ["+".toList]⟩ ≠
      .ok ⟨NaturalLanguageProcessor.new, "1 2 ".toList, ["+".toList]⟩ ∧
    infixToRPN NaturalLanguageProcessor.new
        ["1".toList, "+".toList, "2".toList, ")".toList, "*".toList, "3".toList] =
      .ok ("1 2 + 3 * ".toList, NaturalLanguageProcessor.new) ∧
    infixToRPN NaturalLanguageProcessor.new
        ["1".toList, "+".toList, "2".toList, "*".toList, "3".toList] =
      .ok ("1 2 3 * + ".toList, NaturalLanguageProcessor.new) ∧
    infixToRPN NaturalLanguageProcessor.new
        ["1".toList, "+".toList, "2".toList, ")".toList, "*".toList, "3".toList] ≠
      infixToRPN NaturalLanguageProcessor.new
        ["1".toList, "+".toList, "2".toList, "*".toList, "3".toList] := by
  decide

/-- C10 amended: when `)` is met while the operator stack holds no open parenthesis,
every entry of the stack is popped to the output, top first and each followed by one
space, and the stack is left empty; the tables are not touched. -/
theorem processToken_unmatched_close_paren (s : RPNState)
    (h : "(".toList ∉ s.operatorStack) :
    processToken ")".toList s =
      .ok { s with operatorStack := [], result := s.result ++ spaced s.operatorStack } := by
  have h1 : isOperandToken ")".toList = false := by decide
  have h2 : isPushedToken ")".toList = false := by decide
  have h3 : ∀ o ∈ s.operatorStack, o ≠ "(".toList := by
    intro o ho e
    exact h (e ▸ ho)
  simp only [processToken, h1, h2, Bool.false_eq_true, if_false, if_true,
    closeParenLoop_no_open s.operatorStack h3 s.result]

/-- C10 amended, at the stack `* +` with the output `1 2 3 `. -/
theorem processToken_unmatched_close_paren_witness :
    processToken ")".toList
        ⟨NaturalLanguageProcessor.new, "1 2 3 ".toList, ["*".toList, "+".toList]⟩ =
      .ok ⟨NaturalLanguageProcessor.new,
        "1 2 3 ".toList ++ spaced ["*".toList, "+".toList], []⟩ :=
  processToken_unmatched_close_paren
    ⟨NaturalLanguageProcessor.new, "1 2 3 ".toList, ["*".toList, "+".toList]⟩ (by decide)

/-- C5 fails on the code: when `^` is met while the operator stack is empty, the loop
condition calls `top()` on the empty stack, which is undefined; `2 ^ 3` is such an
input. -/
theorem infixToRPN_caret_reads_empty_stack :
    infixToRPN NaturalLanguageProcessor.new ["2".toList, "^".toList, "3".toList] =
      .error .top_of_empty_stack ∧
    operatorLoopCond "^".toList [] NaturalLanguageProcessor.new = .error .top_of_empty_stack ∧
    ∀ result : Str, processToken "^".toList ⟨NaturalLanguageProcessor.new, result, []⟩ =
      .error .top_of_empty_stack :=
  ⟨rfl, rfl, fun _ => rfl⟩

/-- C6 on the code: `2 ^ 3 ^ 2` reaches the undefined `top()` of the empty stack at its
first `^` and returns nothing. The tie-break itself is as the claim says when the stack
is not empty: a `^` on top of the stack is not popped by an incoming `^`, and
`( 2 ^ 3 ^ 2 )` gives `2 3 2 ^ ^ `. -/
theorem infixToRPN_caret_chain_undefined :
    infixToRPN NaturalLanguageProcessor.new
        ["2".toList, "^".toList, "3".toList, "^".toList, "2".toList] =
      .error .top_of_empty_stack ∧
    (∀ (out : Str) (rest : List Str),
      processToken "^".toList ⟨NaturalLanguageProcessor.new, out, "^".toList :: rest⟩ =
        .ok ⟨NaturalLanguageProcessor.new, out, "^".toList :: "^".toList :: rest⟩) ∧
    (infixToRPN NaturalLanguageProcessor.new
        ["(".toList, "2".toList, "^".toList, "3".toList, "^".toList, "2".toList,
          ")".toList]).map Prod.fst = .ok "2 3 2 ^ ^ ".toList :=
  ⟨rfl, fun _ _ => rfl, rfl⟩

theorem mem_binaryOperators (q : Str) (h : q ∈ leftBinaryOperators ∨ q = "^".toList) :
    q = "+".toList ∨ q = "-".toList ∨ q = "*".toList ∨ q = "/".toList ∨ q = "%".toList ∨
      q = "^".toList := by
  rcases h with h | h
  · rcases mem_leftBinaryOperators q h with h | h | h | h | h <;> simp [h]
  · simp [h]

theorem processToken_on_left_operator (p q : Str) (hp : p ∈ leftBinaryOperators)
    (hq : q ∈ leftBinaryOperators ∨ q = "^".toList) (out : Str) :
    processToken q ⟨NaturalLanguageProcessor.new, out, [p]⟩ =
      if rankOf p < rankOf q then .ok ⟨NaturalLanguageProcessor.new, out, [q, p]⟩
      else .ok ⟨NaturalLanguageProcessor.new, out ++ p ++ " ".toList, [q]⟩ := by
  rcases mem_leftBinaryOperators p hp with rfl | rfl | rfl | rfl | rfl <;>
    rcases mem_binaryOperators q hq with rfl | rfl | rfl | rfl | rfl | rfl <;> rfl

/-- Two operators: with a left-associative first operator `p` among `+ - * / %` and a
second operator `q` among `+ - * / % ^`, the tokens `a p b q c` give `a b c q p` when `q`
ranks strictly higher than `p` and `a b p c q` otherwise. -/
theorem infixToRPN_two_operators (a b c p q : Str) (ha : isOperandToken a = true)
    (hb : isOperandToken b = true) (hc : isOperandToken c = true)
    (hp : p ∈ leftBinaryOperators) (hq : q ∈ leftBinaryOperators ∨ q = "^".toList) :
    infixToRPN NaturalLanguageProcessor.new [a, p, b, q, c] =
      .ok (if rankOf p < rankOf q then spaced [a, b, c, q, p] else spaced [a, b, p, c, q],
        NaturalLanguageProcessor.new) := by
  have hp1 : ¬ p = ['('] := leftBinaryOperators_ne_open p hp
  have hq1 : ¬ q = ['('] := by
    rcases mem_binaryOperators q hq with rfl | rfl | rfl | rfl | rfl | rfl <;> decide
  simp only [infixToRPN, processTokens, processToken_operand a _ ha,
    processToken_left_on_empty p hp, processToken_operand b _ hb,
    processToken_on_left_operator p q hp hq]
  by_cases h : rankOf p < rankOf q
  · simp only [h, if_true, processToken_operand c _ hc, drainStack]
    simp [spaced, hp1, hq1]
  · simp only [h, if_false, processToken_operand c _ hc, drainStack]
    simp [spaced, hq1]

/-- C8 on the code: with `^` as the first operator the stack is empty when it is met, and
the loop condition reads `top()` of the empty stack, which is undefined: `2 ^ 3 + 4` and
`2 ^ 3 ^ 4` return nothing. -/
theorem infixToRPN_caret_first_undefined :
    infixToRPN NaturalLanguageProcessor.new
        ["2".toList, "^".toList, "3".toList, "+".toList, "4".toList] =
      .error .top_of_empty_stack ∧
    infixToRPN NaturalLanguageProcessor.new
        ["2".toList, "^".toList, "3".toList, "^".toList, "4".toList] =
      .error .top_of_empty_stack ∧
    infixToRPN NaturalLanguageProcessor.new
        ["2".toList, "+".toList, "3".toList, "^".toList, "4".toList] =
      .ok ("2 3 4 ^ + ".toList, NaturalLanguageProcessor.new) ∧
    infixToRPN NaturalLanguageProcessor.new
        ["2".toList, "*".toList, "3".toList, "+".toList, "4".toList] =
      .ok ("2 3 * 4 + ".toList, NaturalLanguageProcessor.new) :=
  ⟨rfl, rfl, rfl, rfl⟩

/-- C17 on the code: `isNaturalLanguage` exempts a function or constant name only at the
index where the name starts, so the later letters of the name are taken for natural
language. The postfix expressions `pi`, `pi 2 * sin`, `2 sin`, `2 sqrt`, `1 abs`, `1 dup`
and `1 2 swap`, which `tokenize` accepts, are classified as natural language, and
`pi 2 * sin` is then rewritten to `pi 2 sin` by `convertToRPN`; `3 4 +`, which has no
letter, is classified as postfix. -/
theorem isNaturalLanguage_true_on_postfix :
    (∀ uf, ∃ tokens, tokenize uf Compiler.new "pi".toList = .ok tokens) ∧
    isNaturalLanguage "pi".toList = true ∧
    (∀ uf, ∃ tokens, tokenize uf Compiler.new "pi 2 * sin".toList = .ok tokens) ∧
    isNaturalLanguage "pi 2 * sin".toList = true ∧
    (convertToRPN NaturalLanguageProcessor.new "pi 2 * sin".toList).map Prod.fst =
      .ok "pi 2 sin ".toList ∧
    isNaturalLanguage "2 sin".toList = true ∧ isNaturalLanguage "2 sqrt".toList = true ∧
    isNaturalLanguage "1 abs".toList = true ∧ isNaturalLanguage "1 dup".toList = true ∧
    isNaturalLanguage "1 2 swap".toList = true ∧ isNaturalLanguage "3 4 +".toList = false :=
  ⟨fun _ => ⟨_, rfl⟩, rfl, fun _ => ⟨_, rfl⟩, rfl, rfl, rfl, rfl, rfl, rfl, rfl, rfl⟩

/-- C15 on the code: the word splitting of `tokenizeNaturalLanguage` erases every
punctuation character other than `.`, so a word that is an operator symbol or a
parenthesis becomes empty and is dropped before the word mapping sees it. The sentence
`three + four` gives the words `three`, `four`, the infix stream `3`, `4` and the output
`3 4`; each of the words `+ - * / ^ % ! ( )` alone gives no word at all; and
`( 2 - 3 ) * -4` gives the infix stream `2`, `3`, `4`. -/
theorem infixStream_drops_symbols :
    tokenizeNaturalLanguage "three + four".toList = ["three".toList, "four".toList] ∧
    (infixStream NaturalLanguageProcessor.new "three + four".toList).1 =
      ["3".toList, "4".toList] ∧
    (convertToRPN NaturalLanguageProcessor.new "three + four".toList).map Prod.fst =
      .ok "3 4 ".toList ∧
    (∀ w ∈ ["+", "-", "*", "/", "^", "%", "!", "(", ")"].map String.toList,
      cleanWord w = [] ∧ tokenizeNaturalLanguage w = []) ∧
    (infixStream NaturalLanguageProcessor.new "( 2 - 3 ) * -4".toList).1 =
      ["2".toList, "3".toList, "4".toList] := by
  decide

/-- C20 on the code: the declaration loop writes one line for each Constant token it
meets, not one for each distinct name: for the tokens of `pi pi +` the data section holds
the declaration line of `pi` twice. -/
theorem declareConstants_repeats (showDouble : StreamFmt → StodValue → Str) :
    (∀ uf, tokenize uf Compiler.new "pi pi +".toList =
      .ok [⟨.CONSTANT, "pi".toList, none⟩, ⟨.CONSTANT, "pi".toList, none⟩,
        ⟨.OPERATOR, "+".toList, none⟩]) ∧
    (declareConstants showDouble
      [⟨.CONSTANT, "pi".toList, none⟩, ⟨.CONSTANT, "pi".toList, none⟩,
        ⟨.OPERATOR, "+".toList, none⟩] Compiler.new.constants StreamFmt.initial).1 =
      ["    pi dq ".toList ++ showDouble ⟨true, 17⟩ M_PI,
       "    pi dq ".toList ++ showDouble ⟨true, 17⟩ M_PI] :=
  ⟨fun _ => rfl, rfl⟩

/-- C16 as stated fails: `3 4 + 5 *` is postfix text that `tokenize` accepts, and
`infixToRPN` applied to its words returns `3 4 5 * +`, a different word sequence, because
it reads the words as infix and lets `*` outrank the `+` waiting on the stack. -/
theorem infixToRPN_postfix_not_fixed :
    (∀ uf, ∃ tokens, tokenize uf Compiler.new "3 4 + 5 *".toList = .ok tokens) ∧
    infixToRPN NaturalLanguageProcessor.new (wordsOf "3 4 + 5 *".toList) =
      .ok ("3 4 5 * + ".toList, NaturalLanguageProcessor.new) ∧
    wordsOf "3 4 5 * + ".toList ≠ wordsOf "3 4 + 5 *".toList :=
  ⟨fun _ => ⟨_, rfl⟩, by decide, by decide⟩

theorem processTokens_append (xs ys : List Str) (s : RPNState) :
    processTokens (xs ++ ys) s =
      match processTokens xs s with
      | .error u => .error u
      | .ok s1 => processTokens ys s1 := by
  induction xs generalizing s with
  | nil => rfl
  | cons x xs ih =>
    simp only [List.cons_append, processTokens]
    cases processToken x s with
    | error u => rfl
    | ok s1 => exact ih s1

theorem processTokens_operands (as : List Str) (h : ∀ a ∈ as, isOperandToken a = true)
    (s : RPNState) :
    processTokens as s = .ok { s with result := s.result ++ spaced as } := by
  induction as generalizing s with
  | nil => simp [processTokens, spaced]
  | cons a as ih =>
    simp only [processTokens, processToken_operand a s (h a (List.mem_cons_self _ _))]
    rw [ih (fun x hx => h x (List.mem_cons_of_mem _ hx))]
    simp [spaced]

theorem processTokens_nonincreasing (ops : List Str)
    (hops : ∀ p ∈ ops, p ∈ leftBinaryOperators) (stack : List Str) (out : Str)
    (hs : (stack = [] ∧ List.Chain' (fun p q => rankOf q ≤ rankOf p) ops) ∨
      ∃ p ∈ leftBinaryOperators, stack = [p] ∧
        List.Chain (fun p q => rankOf q ≤ rankOf p) p ops) :
    ∃ s, processTokens ops ⟨NaturalLanguageProcessor.new, out, stack⟩ = .ok s ∧
      s.P = NaturalLanguageProcessor.new ∧
      drainStack s.operatorStack s.result = out ++ spaced (stack ++ ops) := by
  induction ops generalizing stack out with
  | nil =>
    refine ⟨_, rfl, rfl, ?_⟩
    rcases hs with ⟨rfl, _⟩ | ⟨p, hp, rfl, _⟩
    · simp [drainStack, spaced]
    · have hne : ¬ p = ['('] := leftBinaryOperators_ne_open p hp
      simp [drainStack, spaced, hne]
  | cons q ops ih =>
    have hq := hops q (List.mem_cons_self _ _)
    have hops' : ∀ p ∈ ops, p ∈ leftBinaryOperators :=
      fun x hx => hops x (List.mem_cons_of_mem _ hx)
    rcases hs with ⟨rfl, hc⟩ | ⟨p, hp, rfl, hc⟩
    · obtain ⟨s, h1, h2, h3⟩ := ih hops' [q] out
        (Or.inr ⟨q, hq, rfl, by
          cases ops with
          | nil => exact List.Chain.nil
          | cons r rs => exact List.chain'_cons.mp hc |> fun h => List.Chain.cons h.1 h.2⟩)
      refine ⟨s, ?_, h2, ?_⟩
      · simp only [processTokens, processToken_left_on_empty q hq]
        exact h1
      · rw [h3]; simp [spaced]
    · have hr : ¬ rankOf p < rankOf q := by
        have := (List.chain_cons.mp hc).1
        omega
      obtain ⟨s, h1, h2, h3⟩ := ih hops' [q] (out ++ p ++ " ".toList)
        (Or.inr ⟨q, hq, rfl, (List.chain_cons.mp hc).2⟩)
      refine ⟨s, ?_, h2, ?_⟩
      · simp only [processTokens, processToken_on_left_operator p q hp (Or.inl hq), hr,
          if_false]
        exact h1
      · rw [h3]; simp [spaced]

/-- C16 amended: postfix text is returned unchanged when it consists of operands followed
by left-associative binary operators of non-increasing precedence; every word is followed
by one space and the tables are left as constructed. -/
theorem infixToRPN_operands_then_operators (operands ops : List Str)
    (ha : ∀ a ∈ operands, isOperandToken a = true)
    (hops : ∀ p ∈ ops, p ∈ leftBinaryOperators)
    (hc : List.Chain' (fun p q => rankOf q ≤ rankOf p) ops) :
    infixToRPN NaturalLanguageProcessor.new (operands ++ ops) =
      .ok (spaced (operands ++ ops), NaturalLanguageProcessor.new) := by
  obtain ⟨s, h1, h2, h3⟩ := processTokens_nonincreasing ops hops [] (spaced operands)
    (Or.inl ⟨rfl, hc⟩)
  simp only [infixToRPN, processTokens_append, processTokens_operands operands ha,
    List.nil_append, h1]
  rw [h3, h2]
  simp [spaced]

/-- C16 amended, at the expression `1 2 3 * +`. -/
theorem infixToRPN_operands_then_operators_witness :
    infixToRPN NaturalLanguageProcessor.new
        (["1".toList, "2".toList, "3".toList] ++ ["*".toList, "+".toList]) =
      .ok (spaced (["1".toList, "2".toList, "3".toList] ++ ["*".toList, "+".toList]),
        NaturalLanguageProcessor.new) :=
  infixToRPN_operands_then_operators ["1".toList, "2".toList, "3".toList]
    ["*".toList, "+".toList] (by decide) (by decide)
    (List.Chain'.cons (by decide) (List.chain'_singleton _))

/-! ### `infixToRPN` keeps its tokens -/

theorem StrMap.index_of_find {β : Type} (dflt : β) (m : StrMap β) (k : Str) (v : β)
    (h : StrMap.find m k = some v) : StrMap.index dflt m k = (v, m) := by
  simp only [StrMap.index, h]

theorem isRightAssociative_snd (token : Str) (P : NaturalLanguageProcessor) :
    (isRightAssociative token P).2 = P := by
  unfold isRightAssociative
  cases h : P.rightAssociative.find token with
  | none => simp
  | some v => simp [StrMap.index_of_find false _ _ v h]

theorem mem_operators (token : Str) (h : isOperatorToken token = true) :
    token = "+".toList ∨ token = "-".toList ∨ token = "*".toList ∨ token = "/".toList ∨
      token = "^".toList ∨ token = "%".toList ∨ token = "!".toList := by
  simpa [isOperatorToken, or_assoc] using h

theorem operatorLoopCond_kept (token top : Str) (rest : List Str)
    (P : NaturalLanguageProcessor) (ht : isOperatorToken token = true)
    (htop : top ∈ stackAlphabet) (hP : tablesKept P) :
    ∃ b P1, operatorLoopCond token (top :: rest) P = .ok (b, P1) ∧ tablesKept P1 ∧
      (b = true → top ≠ "(".toList) := by
  obtain ⟨wn, wo, prec, ra⟩ := P
  obtain ⟨hra, hprec⟩ := hP
  simp only at hra hprec
  subst hra
  simp only [stackAlphabet, List.mem_cons, List.mem_singleton, List.mem_nil_iff,
    or_false] at htop
  rcases hprec with rfl | rfl <;>
    rcases mem_operators token ht with rfl | rfl | rfl | rfl | rfl | rfl | rfl <;>
    rcases htop with rfl | rfl | rfl | rfl | rfl | rfl | rfl | rfl | rfl | rfl | rfl | rfl <;>
    first
      | exact ⟨false, _, rfl, ⟨rfl, Or.inl rfl⟩, by decide⟩
      | exact ⟨false, _, rfl, ⟨rfl, Or.inr rfl⟩, by decide⟩
      | exact ⟨true, _, rfl, ⟨rfl, Or.inl rfl⟩, by decide⟩
      | exact ⟨true, _, rfl, ⟨rfl, Or.inr rfl⟩, by decide⟩

theorem operatorLoop_kept (token : Str) (ht : isOperatorToken token = true)
    (stack : List Str) (P : NaturalLanguageProcessor) (result : Str)
    (hstack : ∀ x ∈ stack, x ∈ stackAlphabet) (hP : tablesKept P)
    (stack1 : List Str) (P1 : NaturalLanguageProcessor) (result1 : Str)
    (h : operatorLoop token stack P result = .ok (stack1, P1, result1)) :
    ∃ popped, stack = popped ++ stack1 ∧ result1 = result ++ spaced popped ∧
      (∀ x ∈ popped, x ≠ "(".toList) ∧ tablesKept P1 := by
  induction stack generalizing P result with
  | nil =>
    unfold operatorLoop at h
    cases hc : operatorLoopCond token [] P with
    | error u => rw [hc] at h; cases h
    | ok r =>
      obtain ⟨b, P2⟩ := r
      rw [hc] at h
      cases b with
      | true => cases h
      | false =>
        cases h
        refine ⟨[], rfl, by simp [spaced], by simp, ?_⟩
        unfold operatorLoopCond at hc
        simp only [List.isEmpty_nil, if_true, isRightAssociative_snd] at hc
        split_ifs at hc
        · simp [comparePrecedence, stackTop] at hc
        · cases hc; exact hP
  | cons top rest ih =>
    obtain ⟨b, P2, hc, hP2, hb⟩ := operatorLoopCond_kept token top rest P ht
      (hstack top (List.mem_cons_self _ _)) hP
    unfold operatorLoop at h
    rw [hc] at h
    cases b with
    | false =>
      cases h
      exact ⟨[], rfl, by simp [spaced], by simp, hP2⟩
    | true =>
      simp only at h
      obtain ⟨popped, h1, h2, h3, h4⟩ := ih P2 (result ++ top ++ " ".toList)
        (fun x hx => hstack x (List.mem_cons_of_mem _ hx)) hP2 h
      refine ⟨top :: popped, by rw [h1]; rfl, by rw [h2]; simp [spaced], ?_, h4⟩
      intro x hx
      rcases List.mem_cons.mp hx with rfl | hx
      · exact hb rfl
      · exact h3 x hx

theorem closeParenLoop_split (stack : List Str) (result : Str) :
    ∃ popped rest, stack = popped ++ rest ∧
      closeParenLoop stack result = (rest, result ++ spaced popped) ∧
      (∀ x ∈ popped, x ≠ "(".toList) ∧ (rest = [] ∨ ∃ tl, rest = "(".toList :: tl) := by
  induction stack generalizing result with
  | nil => exact ⟨[], [], rfl, by simp [closeParenLoop, spaced], by simp, Or.inl rfl⟩
  | cons top tl ih =>
    by_cases htop : top = "(".toList
    · subst htop
      exact ⟨[], _, rfl, by simp [closeParenLoop, spaced], by simp, Or.inr ⟨tl, rfl⟩⟩
    · obtain ⟨popped, rest, h1, h2, h3, h4⟩ := ih (result ++ top ++ " ".toList)
      refine ⟨top :: popped, rest, by rw [h1]; rfl, ?_, ?_, h4⟩
      · simp only [closeParenLoop, ne_eq, htop, not_false_eq_true, if_true, h2]
        simp [spaced]
      · intro x hx
        rcases List.mem_cons.mp hx with rfl | hx
        · exact htop
        · exact h3 x hx

theorem pendingOutput_append (xs ys : List Str) :
    pendingOutput (xs ++ ys) = pendingOutput xs ++ pendingOutput ys := by
  simp [pendingOutput]

theorem pendingOutput_of_no_open (xs : List Str) (h : ∀ x ∈ xs, x ≠ "(".toList) :
    pendingOutput xs = xs := by
  unfold pendingOutput
  rw [List.filter_eq_self]
  intro x hx
  simpa using h x hx

theorem drainStack_eq (stack : List Str) (result : Str) :
    drainStack stack result = result ++ spaced (pendingOutput stack) := by
  induction stack generalizing result with
  | nil => simp [drainStack, spaced, pendingOutput]
  | cons top tl ih =>
    by_cases htop : top = "(".toList
    · subst htop
      simp only [drainStack, ne_eq, not_true_eq_false, if_false, ih]
      simp [pendingOutput]
    · simp only [drainStack, ne_eq, htop, not_false_eq_true, if_true, ih]
      have htop2 : ¬ top = ['('] := htop
      have : pendingOutput (top :: tl) = top :: pendingOutput tl := by
        simp [pendingOutput, List.filter_cons, htop2]
      rw [this]
      simp [spaced]

/-- The invariant of the token loop of `infixToRPN`, started on a processor as
constructed: the stack holds strings of its alphabet, the tables are kept, and the output
written so far together with the stack entries still to write is a rearrangement of the
kept tokens read so far. -/
theorem processToken_kept (token : Str) (s s1 : RPNState) (out : List Str)
    (hstack : ∀ x ∈ s.operatorStack, x ∈ stackAlphabet) (hP : tablesKept s.P)
    (hout : s.result = spaced out) (h : processToken token s = .ok s1) :
    (∀ x ∈ s1.operatorStack, x ∈ stackAlphabet) ∧ tablesKept s1.P ∧
      ∃ out1, s1.result = spaced out1 ∧
        (out1 ++ pendingOutput s1.operatorStack).Perm
          (out ++ pendingOutput s.operatorStack ++ if isKeptToken token then [token] else []) := by
  unfold processToken at h
  by_cases h1 : isOperandToken token = true
  · rw [if_pos h1] at h
    cases h
    refine ⟨hstack, hP, out ++ [token], by simp [hout, spaced], ?_⟩
    have hk : isKeptToken token = true := by simp [isKeptToken, h1]
    simp only [hk, if_true]
    rw [List.append_assoc, List.append_assoc]
    exact List.Perm.append_left _ List.perm_append_comm
  · rw [if_neg h1] at h
    by_cases h2 : isPushedToken token = true
    · rw [if_pos h2] at h
      cases h
      have hmem : token ∈ stackAlphabet := by
        have : token = "(".toList ∨ token = "sin".toList ∨ token = "cos".toList ∨
            token = "tan".toList ∨ token = "sqrt".toList := by
          simpa [isPushedToken, or_assoc] using h2
        rcases this with rfl | rfl | rfl | rfl | rfl <;> decide
      refine ⟨?_, hP, out, hout, ?_⟩
      · intro x hx
        rcases List.mem_cons.mp hx with rfl | hx
        · exact hmem
        · exact hstack x hx
      · by_cases hopen : token = "(".toList
        · subst hopen
          have hk : isKeptToken "(".toList = false := by decide
          simp only [hk, Bool.false_eq_true, if_false, List.append_nil]
          have : pendingOutput ("(".toList :: s.operatorStack) =
              pendingOutput s.operatorStack := by simp [pendingOutput]
          rw [this]
        · have hopen2 : ¬ token = ['('] := hopen
          have hk : isKeptToken token = true := by
            simp [isKeptToken, h2, hopen2]
          have : pendingOutput (token :: s.operatorStack) =
              token :: pendingOutput s.operatorStack := by
            simp [pendingOutput, List.filter_cons, hopen2]
          simp only [hk, if_true, this]
          rw [List.append_assoc]
          exact List.Perm.append_left _ (@List.perm_append_comm _ [token] _)
    · rw [if_neg h2] at h
      by_cases h3 : token = ")".toList
      · rw [if_pos h3] at h
        obtain ⟨popped, rest, e1, e2, e3, e4⟩ := closeParenLoop_split s.operatorStack s.result
        have hk : isKeptToken token = false := by subst h3; decide
        simp only [hk, Bool.false_eq_true, if_false, List.append_nil]
        have hpend : pendingOutput s.operatorStack = popped ++ pendingOutput rest := by
          rw [e1, pendingOutput_append, pendingOutput_of_no_open popped e3]
        have hrest : ∀ x ∈ rest, x ∈ stackAlphabet := by
          intro x hx
          exact hstack x (by rw [e1]; exact List.mem_append_right _ hx)
        rw [e2] at h
        rcases e4 with rfl | ⟨tl, rfl⟩
        · simp only at h
          cases h
          refine ⟨by simp, hP, out ++ popped, by simp [hout, spaced], ?_⟩
          rw [hpend]; simp [pendingOutput]
        · simp only [if_true] at h
          cases h
          refine ⟨fun x hx => hrest x (List.mem_cons_of_mem _ hx), hP, out ++ popped,
            by simp [hout, spaced], ?_⟩
          rw [hpend]
          simp [pendingOutput]
      · rw [if_neg h3] at h
        by_cases h4 : isOperatorToken token = true
        · rw [if_pos h4] at h
          cases hl : operatorLoop token s.operatorStack s.P s.result with
          | error u => rw [hl] at h; cases h
          | ok r =>
            obtain ⟨stack1, P1, result1⟩ := r
            rw [hl] at h
            cases h
            obtain ⟨popped, e1, e2, e3, e4⟩ :=
              operatorLoop_kept token h4 _ _ _ hstack hP _ _ _ hl
            have hmem : token ∈ stackAlphabet := by
              rcases mem_operators token h4 with rfl | rfl | rfl | rfl | rfl | rfl | rfl <;>
                decide
            have hne : ¬ token = ['('] := by
              rcases mem_operators token h4 with rfl | rfl | rfl | rfl | rfl | rfl | rfl <;>
                decide
            have hne3 : ¬ token = [')'] := h3
            have hk : isKeptToken token = true := by
              simp [isKeptToken, h4, hne3]
            have hpend : pendingOutput s.operatorStack = popped ++ pendingOutput stack1 := by
              rw [e1, pendingOutput_append, pendingOutput_of_no_open popped e3]
            have hpend1 : pendingOutput (token :: stack1) = token :: pendingOutput stack1 := by
              simp [pendingOutput, List.filter_cons, hne]
            refine ⟨?_, e4, out ++ popped, by simp [e2, hout, spaced], ?_⟩
            · intro x hx
              rcases List.mem_cons.mp hx with rfl | hx
              · exact hmem
              · exact hstack x (by rw [e1]; exact List.mem_append_right _ hx)
            · simp only [hk, if_true, hpend, hpend1]
              simp only [List.append_assoc]
              refine List.Perm.append_left _ (List.Perm.append_left _ ?_)
              exact (@List.perm_append_comm _ [token] _)
        · rw [if_neg h4] at h
          cases h
          have hk : isKeptToken token = false := by
            simp [isKeptToken, h1, h2, h4]
          simp only [hk, Bool.false_eq_true, if_false, List.append_nil]
          exact ⟨hstack, hP, out, hout, List.Perm.refl _⟩

theorem processTokens_kept (tokens : List Str) (s s1 : RPNState) (out : List Str)
    (hstack : ∀ x ∈ s.operatorStack, x ∈ stackAlphabet) (hP : tablesKept s.P)
    (hout : s.result = spaced out) (h : processTokens tokens s = .ok s1) :
    ∃ out1, s1.result = spaced out1 ∧
      (out1 ++ pendingOutput s1.operatorStack).Perm
        (out ++ pendingOutput s.operatorStack ++ tokens.filter isKeptToken) := by
  induction tokens generalizing s out with
  | nil =>
    cases h
    exact ⟨out, hout, by simp⟩
  | cons t rest ih =>
    simp only [processTokens] at h
    cases hp : processToken t s with
    | error u => rw [hp] at h; cases h
    | ok s2 =>
      rw [hp] at h
      obtain ⟨hs2, hP2, out2, ho2, hperm⟩ := processToken_kept t s s2 out hstack hP hout hp
      obtain ⟨out1, ho1, hperm1⟩ := ih s2 out2 hs2 hP2 ho2 h
      refine ⟨out1, ho1, hperm1.trans ?_⟩
      refine (List.Perm.append_right _ hperm).trans ?_
      by_cases hk : isKeptToken t = true
      · simp [hk, List.filter_cons]
      · simp [hk, List.filter_cons]

theorem operatorLoop_returns (token : Str) (ht : isOperatorToken token = true)
    (hc : token ≠ "^".toList) (stack : List Str) (P : NaturalLanguageProcessor)
    (result : Str) (hstack : ∀ x ∈ stack, x ∈ stackAlphabet) (hP : tablesKept P) :
    ∃ r, operatorLoop token stack P result = .ok r := by
  induction stack generalizing P result with
  | nil =>
    obtain ⟨wn, wo, prec, ra⟩ := P
    obtain ⟨hra, _⟩ := hP
    simp only at hra
    subst hra
    have hc2 : ¬ token = ['^'] := hc
    rcases mem_operators token ht with rfl | rfl | rfl | rfl | rfl | rfl | rfl <;>
      first
        | exact ⟨_, rfl⟩
        | exact absurd rfl hc2
  | cons top rest ih =>
    obtain ⟨b, P2, hcond, hP2, _⟩ := operatorLoopCond_kept token top rest P ht
      (hstack top (List.mem_cons_self _ _)) hP
    unfold operatorLoop
    rw [hcond]
    cases b with
    | false => exact ⟨_, rfl⟩
    | true => exact ih P2 _ (fun x hx => hstack x (List.mem_cons_of_mem _ hx)) hP2

theorem processToken_returns (token : Str) (hc : token ≠ "^".toList) (s : RPNState)
    (hstack : ∀ x ∈ s.operatorStack, x ∈ stackAlphabet) (hP : tablesKept s.P) :
    ∃ s1, processToken token s = .ok s1 := by
  unfold processToken
  split_ifs with h1 h2 h3 h4
  · exact ⟨_, rfl⟩
  · exact ⟨_, rfl⟩
  · simp only
    cases hcl : (closeParenLoop s.operatorStack s.result).1 with
    | nil => exact ⟨_, rfl⟩
    | cons top rest =>
      simp only
      split_ifs <;> exact ⟨_, rfl⟩
  · obtain ⟨⟨stack1, P1, result1⟩, hr⟩ :=
      operatorLoop_returns token h4 hc s.operatorStack s.P s.result hstack hP
    rw [hr]
    exact ⟨_, rfl⟩
  · exact ⟨_, rfl⟩

theorem processTokens_returns (tokens : List Str) (hc : "^".toList ∉ tokens) (s : RPNState)
    (out : List Str) (hstack : ∀ x ∈ s.operatorStack, x ∈ stackAlphabet)
    (hP : tablesKept s.P) (hout : s.result = spaced out) :
    ∃ s1, processTokens tokens s = .ok s1 := by
  induction tokens generalizing s out with
  | nil => exact ⟨s, rfl⟩
  | cons t rest ih =>
    have ht : t ≠ "^".toList := fun e => hc (e ▸ List.mem_cons_self _ _)
    obtain ⟨s2, hs2⟩ := processToken_returns t ht s hstack hP
    obtain ⟨h1, h2, out2, h3, _⟩ := processToken_kept t s s2 out hstack hP hout hs2
    obtain ⟨s1, hs1⟩ := ih (fun hm => hc (List.mem_cons_of_mem _ hm)) s2 out2 h1 h2 h3
    exact ⟨s1, by simp only [processTokens, hs2, hs1]⟩

theorem tablesKept_new : tablesKept NaturalLanguageProcessor.new := ⟨rfl, Or.inl rfl⟩

/-- C11 on the code: `2 ^ 3` reaches the undefined `top()` of the empty stack and
returns nothing. Whenever `infixToRPN` returns, and it does for every token sequence
without `^`, its output is the kept tokens (operands, functions, operators), each
followed by one space, in some order: none is lost or duplicated, and no parenthesis and
no other token is written. -/
theorem infixToRPN_keeps_tokens :
    infixToRPN NaturalLanguageProcessor.new ["2".toList, "^".toList, "3".toList] =
      .error .top_of_empty_stack ∧
    (∀ (tokens : List Str) (text : Str) (P1 : NaturalLanguageProcessor),
      infixToRPN NaturalLanguageProcessor.new tokens = .ok (text, P1) →
      ∃ out, text = spaced out ∧ out.Perm (tokens.filter isKeptToken) ∧
        "(".toList ∉ out ∧ ")".toList ∉ out) ∧
    (∀ tokens : List Str, "^".toList ∉ tokens →
      ∃ r, infixToRPN NaturalLanguageProcessor.new tokens = .ok r) := by
  refine ⟨rfl, ?_, ?_⟩
  · intro tokens text P1 h
    unfold infixToRPN at h
    cases hp : processTokens tokens ⟨NaturalLanguageProcessor.new, [], []⟩ with
    | error u => rw [hp] at h; cases h
    | ok s =>
      rw [hp] at h
      cases h
      obtain ⟨out1, ho1, hperm⟩ := processTokens_kept tokens _ s [] (by simp) tablesKept_new
        rfl hp
      have hperm' : (out1 ++ pendingOutput s.operatorStack).Perm (tokens.filter isKeptToken) := by
        simpa [pendingOutput] using hperm
      refine ⟨out1 ++ pendingOutput s.operatorStack, ?_, hperm', ?_, ?_⟩
      · rw [drainStack_eq, ho1]; simp [spaced]
      · intro hm
        have := (List.mem_filter.mp (hperm'.mem_iff.mp hm)).2
        exact absurd this (by decide)
      · intro hm
        have := (List.mem_filter.mp (hperm'.mem_iff.mp hm)).2
        exact absurd this (by decide)
  · intro tokens hc
    obtain ⟨s, hs⟩ := processTokens_returns tokens hc ⟨NaturalLanguageProcessor.new, [], []⟩ []
      (by simp) tablesKept_new rfl
    exact ⟨(drainStack s.operatorStack s.result, s.P), by simp only [infixToRPN, hs]⟩

/-- C11 at the tokens `( 1 + 2 ) * 3`. -/
theorem infixToRPN_keeps_tokens_witness :
    ∃ out, "1 2 + 3 * ".toList = spaced out ∧
      out.Perm (["(".toList, "1".toList, "+".toList, "2".toList, ")".toList, "*".toList,
        "3".toList].filter isKeptToken) ∧
      "(".toList ∉ out ∧ ")".toList ∉ out :=
  infixToRPN_keeps_tokens.2.1
    ["(".toList, "1".toList, "+".toList, "2".toList, ")".toList, "*".toList, "3".toList]
    "1 2 + 3 * ".toList NaturalLanguageProcessor.new rfl

/-! ### Phrase folding -/

theorem greedyFold_nil : greedyFold [] = [] := by
  rw [greedyFold]

theorem greedyFold_cons (w : Str) (rest : List Str) :
    greedyFold (w :: rest) =
      if w = "to".toList ∧ rest.take 3 = ["the".toList, "power".toList, "of".toList] then
        phrasePower :: greedyFold (rest.drop 3)
      else if w = "square".toList ∧ rest.take 2 = ["root".toList, "of".toList] then
        phraseRootOf :: greedyFold (rest.drop 2)
      else if w = "square".toList ∧ rest.take 1 = ["root".toList] then
        phraseRoot :: greedyFold (rest.drop 1)
      else w :: greedyFold rest := by
  rw [greedyFold]

theorem getD_append_length (pre : List Str) (w : Str) (rest : List Str) (k : Nat) :
    (pre ++ w :: rest).getD (pre.length + k) [] = (w :: rest).getD k [] := by
  induction pre with
  | nil => simp
  | cons a pre ih =>
    simp only [List.cons_append, List.length_cons]
    rw [show pre.length + 1 + k = (pre.length + k) + 1 by omega]
    simpa using ih

theorem take3_iff (rest : List Str) (a b c : Str) :
    (3 < rest.length + 1 ∧ rest.getD 0 [] = a ∧ rest.getD 1 [] = b ∧ rest.getD 2 [] = c) ↔
      rest.take 3 = [a, b, c] := by
  rcases rest with _ | ⟨x, _ | ⟨y, _ | ⟨z, r⟩⟩⟩ <;> simp

theorem take2_iff (rest : List Str) (a b : Str) :
    (2 < rest.length + 1 ∧ rest.getD 0 [] = a ∧ rest.getD 1 [] = b) ↔
      rest.take 2 = [a, b] := by
  rcases rest with _ | ⟨x, _ | ⟨y, r⟩⟩ <;> simp

theorem take1_iff (rest : List Str) (a : Str) :
    (1 < rest.length + 1 ∧ rest.getD 0 [] = a) ↔ rest.take 1 = [a] := by
  rcases rest with _ | ⟨x, r⟩ <;> simp

theorem phraseStep_append (pre : List Str) (w : Str) (rest : List Str) :
    phraseStep (pre ++ w :: rest) pre.length =
      pre ++
        (if w = "to".toList ∧ rest.take 3 = ["the".toList, "power".toList, "of".toList] then
          phrasePower :: rest.drop 3
        else if w = "square".toList ∧ rest.take 2 = ["root".toList, "of".toList] then
          phraseRootOf :: rest.drop 2
        else if w = "square".toList ∧ rest.take 1 = ["root".toList] then
          phraseRoot :: rest.drop 1
        else w :: rest) := by
  have g0 : (pre ++ w :: rest).getD pre.length [] = w := by
    simpa using getD_append_length pre w rest 0
  have g1 : (pre ++ w :: rest).getD (pre.length + 1) [] = rest.getD 0 [] := by
    simpa using getD_append_length pre w rest 1
  have g2 : (pre ++ w :: rest).getD (pre.length + 2) [] = rest.getD 1 [] := by
    simpa using getD_append_length pre w rest 2
  have g3 : (pre ++ w :: rest).getD (pre.length + 3) [] = rest.getD 2 [] := by
    simpa using getD_append_length pre w rest 3
  have c4 : (pre.length + 3 < (pre ++ w :: rest).length ∧ w = "to".toList ∧
      rest.getD 0 [] = "the".toList ∧ rest.getD 1 [] = "power".toList ∧
      rest.getD 2 [] = "of".toList) ↔
      (w = "to".toList ∧ rest.take 3 = ["the".toList, "power".toList, "of".toList]) := by
    rw [← take3_iff]
    simp only [List.length_append, List.length_cons]
    constructor
    · rintro ⟨h1, h2, h3⟩; exact ⟨h2, by omega, h3⟩
    · rintro ⟨h2, h1, h3⟩; exact ⟨by omega, h2, h3⟩
  have c3 : (pre.length + 2 < (pre ++ w :: rest).length ∧ w = "square".toList ∧
      rest.getD 0 [] = "root".toList ∧ rest.getD 1 [] = "of".toList) ↔
      (w = "square".toList ∧ rest.take 2 = ["root".toList, "of".toList]) := by
    rw [← take2_iff]
    simp only [List.length_append, List.length_cons]
    constructor
    · rintro ⟨h1, h2, h3⟩; exact ⟨h2, by omega, h3⟩
    · rintro ⟨h2, h1, h3⟩; exact ⟨by omega, h2, h3⟩
  have c2 : (pre.length + 1 < (pre ++ w :: rest).length ∧ w = "square".toList ∧
      rest.getD 0 [] = "root".toList) ↔
      (w = "square".toList ∧ rest.take 1 = ["root".toList]) := by
    rw [← take1_iff]
    simp only [List.length_append, List.length_cons]
    constructor
    · rintro ⟨h1, h2, h3⟩; exact ⟨h2, by omega, h3⟩
    · rintro ⟨h2, h1, h3⟩; exact ⟨by omega, h2, h3⟩
  have d : ∀ k, (pre ++ w :: rest).drop (pre.length + (k + 1)) = rest.drop k := by
    intro k
    rw [← List.drop_drop]
    simp
  have t : (pre ++ w :: rest).take pre.length = pre := by simp
  unfold phraseStep
  simp only [g0, g1, g2, g3, c4, c3, c2, t, d 3, d 2, d 1,
    show pre.length + 4 = pre.length + (3 + 1) by omega,
    show pre.length + 3 = pre.length + (2 + 1) by omega,
    show pre.length + 2 = pre.length + (1 + 1) by omega]
  split_ifs <;> rfl

theorem phraseLoop_eq_greedyFold (n : Nat) (pre suf : List Str) (h : suf.length ≤ n) :
    phraseLoop n (pre ++ suf) pre.length = pre ++ greedyFold suf := by
  induction n generalizing pre suf with
  | zero =>
    have : suf = [] := List.length_eq_zero.mp (Nat.le_zero.mp h)
    subst this
    simp [phraseLoop, greedyFold_nil]
  | succ n ih =>
    cases suf with
    | nil => simp [phraseLoop, greedyFold_nil]
    | cons w rest =>
      have hlt : pre.length < (pre ++ w :: rest).length := by simp
      have hlen : rest.length ≤ n := by simpa using h
      simp only [phraseLoop, hlt, if_true, phraseStep_append, greedyFold_cons]
      have step : ∀ (x : Str) (tl : List Str), tl.length ≤ n →
          phraseLoop n (pre ++ x :: tl) (pre.length + 1) = pre ++ x :: greedyFold tl := by
        intro x tl htl
        have := ih (pre ++ [x]) tl htl
        simpa using this
      split_ifs
      · exact step _ _ (by rw [List.length_drop]; omega)
      · exact step _ _ (by rw [List.length_drop]; omega)
      · exact step _ _ (by rw [List.length_drop]; omega)
      · exact step _ _ hlen

/-- The second loop of `tokenizeNaturalLanguage` is greedy longest-match folding. -/
theorem foldAll_eq_greedyFold (l : List Str) : foldAll l = greedyFold l := by
  have := phraseLoop_eq_greedyFold l.length [] l (Nat.le_refl _)
  simpa [foldAll] using this

/-- More fuel than the length of the vector changes nothing. -/
theorem phraseLoop_fuel (n : Nat) (l : List Str) (h : l.length ≤ n) :
    phraseLoop n l 0 = foldAll l := by
  have := phraseLoop_eq_greedyFold n [] l h
  rw [foldAll_eq_greedyFold]
  simpa using this

theorem tokenizeNaturalLanguage_eq (s : Str) :
    tokenizeNaturalLanguage s = greedyFold (cleanedWords s) := by
  rw [← foldAll_eq_greedyFold]; rfl

theorem greedyFold_head (l : List Str) (x : Str) (T : List Str)
    (h1 : x ≠ phrasePower) (h2 : x ≠ phraseRootOf) (h3 : x ≠ phraseRoot)
    (h : greedyFold l = x :: T) : ∃ l1, l = x :: l1 := by
  cases l with
  | nil => rw [greedyFold_nil] at h; cases h
  | cons w rest =>
    rw [greedyFold_cons] at h
    split_ifs at h
    · exact absurd (List.cons.inj h).1.symm h1
    · exact absurd (List.cons.inj h).1.symm h2
    · exact absurd (List.cons.inj h).1.symm h3
    · exact ⟨rest, by rw [(List.cons.inj h).1]⟩

theorem greedyFold_plain (x : Str) (l : List Str) (h1 : x ≠ "to".toList)
    (h2 : x ≠ "square".toList) : greedyFold (x :: l) = x :: greedyFold l := by
  rw [greedyFold_cons, if_neg (fun h => h1 h.1), if_neg (fun h => h2 h.1),
    if_neg (fun h => h2 h.1)]

/-- A plain word at the head of the folded list is at the head of the list. -/
theorem greedyFold_prefix_plain (x : Str) (pat l : List Str)
    (h1 : x ≠ phrasePower) (h2 : x ≠ phraseRootOf) (h3 : x ≠ phraseRoot)
    (h4 : x ≠ "to".toList) (h5 : x ≠ "square".toList)
    (h : x :: pat <+: greedyFold l) : ∃ l1, l = x :: l1 ∧ pat <+: greedyFold l1 := by
  obtain ⟨t, ht⟩ := h
  obtain ⟨l1, rfl⟩ := greedyFold_head l x (pat ++ t) h1 h2 h3 (by rw [← ht]; rfl)
  refine ⟨l1, rfl, ?_⟩
  rw [greedyFold_plain x l1 h4 h5] at ht
  exact ⟨t, (List.cons.inj ht).2⟩

theorem greedyFold_no_power_run (l : List Str) :
    ¬ ["to".toList, "the".toList, "power".toList, "of".toList] <:+: greedyFold l := by
  generalize hn : l.length = n
  induction n using Nat.strong_induction_on generalizing l with
  | _ n ih =>
    cases l with
    | nil => rw [greedyFold_nil]; simp
    | cons w rest =>
      have hrec : ∀ k, ¬ ["to".toList, "the".toList, "power".toList, "of".toList] <:+:
          greedyFold (rest.drop k) := by
        intro k
        exact ih (rest.drop k).length (by rw [List.length_drop, ← hn]; simp; omega) _ rfl
      have hrec0 := hrec 0
      rw [List.drop_zero] at hrec0
      rw [greedyFold_cons]
      split_ifs with c4 c3 c2
      · rw [List.infix_cons_iff]
        rintro (hp | hi)
        · exact absurd (List.cons_prefix_cons.mp hp).1 (by decide)
        · exact hrec 3 hi
      · rw [List.infix_cons_iff]
        rintro (hp | hi)
        · exact absurd (List.cons_prefix_cons.mp hp).1 (by decide)
        · exact hrec 2 hi
      · rw [List.infix_cons_iff]
        rintro (hp | hi)
        · exact absurd (List.cons_prefix_cons.mp hp).1 (by decide)
        · exact hrec 1 hi
      · rw [List.infix_cons_iff]
        rintro (hp | hi)
        · obtain ⟨hw, hp⟩ := List.cons_prefix_cons.mp hp
          obtain ⟨r1, e1, hp1⟩ := greedyFold_prefix_plain _ _ rest (by decide) (by decide)
            (by decide) (by decide) (by decide) hp
          obtain ⟨r2, e2, hp2⟩ := greedyFold_prefix_plain _ _ r1 (by decide) (by decide)
            (by decide) (by decide) (by decide) hp1
          obtain ⟨r3, e3, _⟩ := greedyFold_prefix_plain _ _ r2 (by decide) (by decide)
            (by decide) (by decide) (by decide) hp2
          exact c4 ⟨hw.symm, by rw [e1, e2, e3]; rfl⟩
        · exact hrec0 hi

theorem greedyFold_no_root_run (l : List Str) :
    ¬ ["square".toList, "root".toList] <:+: greedyFold l := by
  generalize hn : l.length = n
  induction n using Nat.strong_induction_on generalizing l with
  | _ n ih =>
    cases l with
    | nil => rw [greedyFold_nil]; simp
    | cons w rest =>
      have hrec : ∀ k, ¬ ["square".toList, "root".toList] <:+:
          greedyFold (rest.drop k) := by
        intro k
        exact ih (rest.drop k).length (by rw [List.length_drop, ← hn]; simp; omega) _ rfl
      have hrec0 := hrec 0
      rw [List.drop_zero] at hrec0
      rw [greedyFold_cons]
      split_ifs with c4 c3 c2
      · rw [List.infix_cons_iff]
        rintro (hp | hi)
        · exact absurd (List.cons_prefix_cons.mp hp).1 (by decide)
        · exact hrec 3 hi
      · rw [List.infix_cons_iff]
        rintro (hp | hi)
        · exact absurd (List.cons_prefix_cons.mp hp).1 (by decide)
        · exact hrec 2 hi
      · rw [List.infix_cons_iff]
        rintro (hp | hi)
        · exact absurd (List.cons_prefix_cons.mp hp).1 (by decide)
        · exact hrec 1 hi
      · rw [List.infix_cons_iff]
        rintro (hp | hi)
        · obtain ⟨hw, hp⟩ := List.cons_prefix_cons.mp hp
          obtain ⟨r1, e1, _⟩ := greedyFold_prefix_plain _ _ rest (by decide) (by decide)
            (by decide) (by decide) (by decide) hp
          exact c2 ⟨hw.symm, by rw [e1]; rfl⟩
        · exact hrec0 hi

theorem greedyFold_no_root_of (l : List Str) (hl : phraseRoot ∉ l) :
    ¬ [phraseRoot, "of".toList] <:+: greedyFold l := by
  generalize hn : l.length = n
  induction n using Nat.strong_induction_on generalizing l with
  | _ n ih =>
    cases l with
    | nil => rw [greedyFold_nil]; simp
    | cons w rest =>
      have hrec : ∀ k, ¬ [phraseRoot, "of".toList] <:+: greedyFold (rest.drop k) := by
        intro k
        exact ih (rest.drop k).length (by rw [List.length_drop, ← hn]; simp; omega) _
          (fun hm => hl (List.mem_cons_of_mem _ (List.mem_of_mem_drop hm))) rfl
      have hrec0 := hrec 0
      rw [List.drop_zero] at hrec0
      rw [greedyFold_cons]
      split_ifs with c4 c3 c2
      · rw [List.infix_cons_iff]
        rintro (hp | hi)
        · exact absurd (List.cons_prefix_cons.mp hp).1 (by decide)
        · exact hrec 3 hi
      · rw [List.infix_cons_iff]
        rintro (hp | hi)
        · exact absurd (List.cons_prefix_cons.mp hp).1 (by decide)
        · exact hrec 2 hi
      · rw [List.infix_cons_iff]
        rintro (hp | hi)
        · obtain ⟨_, hp⟩ := List.cons_prefix_cons.mp hp
          obtain ⟨r1, hr1, _⟩ := greedyFold_prefix_plain _ _ (rest.drop 1) (by decide)
            (by decide) (by decide) (by decide) (by decide) hp
          apply c3
          refine ⟨c2.1, ?_⟩
          have h1 := c2.2
          rcases rest with _ | ⟨a, _ | ⟨b, r⟩⟩
          · simp at h1
          · simp at hr1
          · simp only [List.take_succ_cons, List.take_zero, List.cons.injEq, and_true] at h1
            simp only [List.drop_succ_cons, List.drop_zero, List.cons.injEq] at hr1
            simp [h1, hr1.1]
        · exact hrec 1 hi
      · rw [List.infix_cons_iff]
        rintro (hp | hi)
        · exact hl (by rw [(List.cons_prefix_cons.mp hp).1]; exact List.mem_cons_self _ _)
        · exact hrec0 hi

theorem take_append_pattern (k : Nat) (pat p : List Str) (x : Str) (rest : List Str)
    (hk : pat.length = k) (hx : x ∉ pat) :
    (p ++ x :: rest).take k = pat ↔ p.take k = pat := by
  by_cases hle : k ≤ p.length
  · rw [List.take_append_of_le_length hle]
  · have hlt : p.length < k := Nat.lt_of_not_le hle
    constructor
    · intro h
      exfalso
      apply hx
      rw [← h, List.take_append_eq_append_take]
      apply List.mem_append_right
      obtain ⟨m, hm⟩ : ∃ m, k - p.length = m + 1 := ⟨k - p.length - 1, by omega⟩
      rw [hm, List.take_succ_cons]
      exact List.mem_cons_self _ _
    · intro h
      exfalso
      have := congrArg List.length h
      rw [List.length_take, hk] at this
      omega

theorem drop_append_pattern (k : Nat) (pat p : List Str) (x : Str) (rest : List Str)
    (hk : pat.length = k) (h : p.take k = pat) :
    (p ++ x :: rest).drop k = p.drop k ++ x :: rest := by
  apply List.drop_append_of_le_length
  have := congrArg List.length h
  rw [List.length_take, hk] at this
  omega

/-- A word that no pattern holds after its first place starts a fresh scan: folding a
list up to such a word does not depend on what follows. -/
theorem greedyFold_append (x : Str) (hx : x = "to".toList ∨ x = "square".toList)
    (pre rest : List Str) :
    greedyFold (pre ++ x :: rest) = greedyFold pre ++ greedyFold (x :: rest) := by
  generalize hn : pre.length = n
  induction n using Nat.strong_induction_on generalizing pre with
  | _ n ih =>
    cases pre with
    | nil => rw [greedyFold_nil]; rfl
    | cons w p =>
      have hrec : ∀ k, greedyFold (p.drop k ++ x :: rest) =
          greedyFold (p.drop k) ++ greedyFold (x :: rest) := by
        intro k
        exact ih (p.drop k).length (by rw [List.length_drop, ← hn]; simp; omega) _ rfl
      have hrec0 := hrec 0
      rw [List.drop_zero] at hrec0
      have hx3 : x ∉ ["the".toList, "power".toList, "of".toList] := by
        rcases hx with rfl | rfl <;> decide
      have hx2 : x ∉ ["root".toList, "of".toList] := by
        rcases hx with rfl | rfl <;> decide
      have hx1 : x ∉ ["root".toList] := by
        rcases hx with rfl | rfl <;> decide
      rw [List.cons_append, greedyFold_cons, greedyFold_cons w p]
      simp only [take_append_pattern 3 ["the".toList, "power".toList, "of".toList] p x rest
          rfl hx3,
        take_append_pattern 2 ["root".toList, "of".toList] p x rest rfl hx2,
        take_append_pattern 1 ["root".toList] p x rest rfl hx1]
      split_ifs with c4 c3 c2
      · rw [drop_append_pattern 3 ["the".toList, "power".toList, "of".toList] p x rest rfl
          c4.2, hrec 3]; rfl
      · rw [drop_append_pattern 2 ["root".toList, "of".toList] p x rest rfl c3.2, hrec 2]; rfl
      · rw [drop_append_pattern 1 ["root".toList] p x rest rfl c2.2, hrec 1]; rfl
      · rw [hrec0]; rfl

theorem cleanWordsFrom_eq (input word : Str) (result : List Str) :
    cleanWordsFrom input word result =
      result ++ (((((input.splitOnP isspace).modifyHead (word ++ ·)).filter
        fun w => !w.isEmpty).map cleanWord).filter fun w => !w.isEmpty) := by
  induction input generalizing word result with
  | nil =>
    cases word with
    | nil => simp [cleanWordsFrom]
    | cons c cs =>
      simp only [cleanWordsFrom, List.splitOnP_nil, List.modifyHead_cons, List.append_nil]
      by_cases h : cleanWord (c :: cs) = []
      · simp [h, List.filter]
      · have h' : (cleanWord (c :: cs)).isEmpty = false := by
          cases hcw : cleanWord (c :: cs) with
          | nil => exact absurd hcw h
          | cons _ _ => rfl
        simp [h, h', List.filter]
  | cons a rest ih =>
    rw [List.splitOnP_cons]
    by_cases ha : isspace a = true
    · simp only [cleanWordsFrom, ha, if_true, List.modifyHead_cons, List.append_nil]
      have hid : (List.splitOnP isspace rest).modifyHead (([] : Str) ++ ·) =
          List.splitOnP isspace rest := by
        cases List.splitOnP isspace rest <;> simp
      cases word with
      | nil =>
        rw [ih [] result, hid]; simp [List.filter]
      | cons c cs =>
        by_cases h : cleanWord (c :: cs) = []
        · simp only [reduceCtorEq, if_false, h, ne_eq, not_true_eq_false]
          rw [ih [] result, hid]
          simp [List.filter, h]
        · have h' : (cleanWord (c :: cs)).isEmpty = false := by
            cases hcw : cleanWord (c :: cs) with
            | nil => exact absurd hcw h
            | cons _ _ => rfl
          simp only [reduceCtorEq, if_false, h, ne_eq, not_false_eq_true, if_true]
          rw [ih [] (result ++ [cleanWord (c :: cs)]), hid]
          simp [List.filter, h']
    · simp only [cleanWordsFrom, ha, if_false, Bool.false_eq_true]
      rw [ih (word ++ [a]) result, List.modifyHead_modifyHead]
      congr 5
      funext h
      simp

/-- The first loop of `tokenizeNaturalLanguage` gives the cleaned words. -/
theorem cleanedWords_eq (sentence : Str) : cleanedWords sentence = cleanedWordsSpec sentence := by
  unfold cleanedWords cleanedWordsSpec wordsOf
  rw [cleanWordsFrom_eq]
  have hid : (List.splitOnP isspace sentence).modifyHead (([] : Str) ++ ·) =
      List.splitOnP isspace sentence := by
    cases List.splitOnP isspace sentence <;> simp
  rw [hid]; simp

theorem splitOnP_no_sep {α : Type} (p : α → Bool) (l : List α) :
    ∀ w ∈ l.splitOnP p, ∀ c ∈ w, p c = false := by
  induction l with
  | nil => simp
  | cons a l ih =>
    rw [List.splitOnP_cons]
    by_cases ha : p a = true
    · simp only [ha, if_true]
      intro w hw
      rcases List.mem_cons.mp hw with rfl | hw
      · simp
      · exact ih w hw
    · simp only [ha, if_false, Bool.false_eq_true]
      cases hs : List.splitOnP p l with
      | nil => simp
      | cons h t =>
        rw [hs] at ih
        simp only [List.modifyHead_cons]
        intro w hw
        rcases List.mem_cons.mp hw with rfl | hw
        · intro c hc
          rcases List.mem_cons.mp hc with rfl | hc
          · simpa using ha
          · exact ih h (List.mem_cons_self _ _) c hc
        · exact ih w (List.mem_cons_of_mem _ hw)

theorem toLower_eq_space (c : Char) (h : c.toLower = ' ') : c = ' ' := by
  unfold Char.toLower at h
  simp only at h
  split_ifs at h with hc
  · exfalso
    obtain ⟨h1, h2⟩ := hc
    have hc' : c = Char.ofNat c.toNat := (Char.ofNat_toNat c).symm
    generalize c.toNat = n at h1 h2 h hc'
    interval_cases n <;> revert h <;> decide
  · exact h

/-- No cleaned word holds a space. -/
theorem cleanedWords_no_space (sentence : Str) :
    ∀ w ∈ cleanedWords sentence, ' ' ∉ w := by
  rw [cleanedWords_eq]
  intro w hw hsp
  unfold cleanedWordsSpec at hw
  obtain ⟨hw, _⟩ := List.mem_filter.mp hw
  obtain ⟨raw, hraw, rfl⟩ := List.mem_map.mp hw
  unfold cleanWord at hsp
  obtain ⟨hsp, _⟩ := List.mem_filter.mp hsp
  obtain ⟨c0, hc0, hlow⟩ := List.mem_map.mp hsp
  have := toLower_eq_space c0 hlow
  subst this
  unfold wordsOf at hraw
  have := splitOnP_no_sep isspace sentence _ (List.mem_filter.mp hraw).1 ' ' hc0
  exact absurd this (by decide)

theorem phraseRoot_not_mem_cleanedWords (sentence : Str) :
    phraseRoot ∉ cleanedWords sentence := fun h =>
  cleanedWords_no_space sentence phraseRoot h (by decide)

theorem fold_power_run (l pre post : List Str)
    (h : l = pre ++ ["to".toList, "the".toList, "power".toList, "of".toList] ++ post) :
    foldAll l = foldAll pre ++ phrasePower :: foldAll post := by
  subst h
  simp only [foldAll_eq_greedyFold, List.append_assoc, List.cons_append, List.nil_append]
  rw [greedyFold_append _ (Or.inl rfl), greedyFold_cons]
  simp

theorem fold_root_of_run (l pre post : List Str)
    (h : l = pre ++ ["square".toList, "root".toList, "of".toList] ++ post) :
    foldAll l = foldAll pre ++ phraseRootOf :: foldAll post := by
  subst h
  simp only [foldAll_eq_greedyFold, List.append_assoc, List.cons_append, List.nil_append]
  rw [greedyFold_append _ (Or.inr rfl), greedyFold_cons]
  rw [if_neg (fun h => absurd h.1 (by decide))]
  simp

theorem fold_root_run (l pre post : List Str)
    (h : l = pre ++ ["square".toList, "root".toList] ++ post)
    (hpost : post.head? ≠ some "of".toList) :
    foldAll l = foldAll pre ++ phraseRoot :: foldAll post := by
  subst h
  simp only [foldAll_eq_greedyFold, List.append_assoc, List.cons_append, List.nil_append]
  rw [greedyFold_append _ (Or.inr rfl), greedyFold_cons]
  rw [if_neg (fun h => absurd h.1 (by decide))]
  have h2 : ¬ (("root".toList :: post).take 2 = ["root".toList, "of".toList]) := by
    cases post with
    | nil => simp
    | cons x r =>
      intro hh
      simp only [List.take_succ_cons, List.take_zero, List.cons.injEq, and_true, true_and] at hh
      exact hpost (by simp [hh])
  rw [if_neg (fun h => h2 h.2)]
  simp

theorem tokenizeNaturalLanguage_eq_foldAll (s : Str) :
    tokenizeNaturalLanguage s = foldAll (cleanedWords s) := by
  rw [tokenizeNaturalLanguage_eq, foldAll_eq_greedyFold]

/-- C13 on the code: the word list returned by `tokenizeNaturalLanguage` holds neither
the four consecutive elements `to`, `the`, `power`, `of` nor the two consecutive elements
`square`, `root`; every run `to the power of`, `square root of` and `square root` (the
last when no `of` follows) of the cleaned words is replaced by the one element of that
name, whatever stands before and after it, the end of the sentence included, and the
words before and after the run are folded on their own; and the sentence
`five to the power of two` gives the three elements `five`, `to the power of`, `two`. -/
theorem tokenizeNaturalLanguage_folds_every_run :
    (∀ s : Str, ¬ ["to".toList, "the".toList, "power".toList, "of".toList] <:+:
      tokenizeNaturalLanguage s) ∧
    (∀ s : Str, ¬ ["square".toList, "root".toList] <:+: tokenizeNaturalLanguage s) ∧
    (∀ (s : Str) (pre post : List Str),
      cleanedWords s = pre ++ ["to".toList, "the".toList, "power".toList, "of".toList] ++ post →
      tokenizeNaturalLanguage s = foldAll pre ++ "to the power of".toList :: foldAll post) ∧
    (∀ (s : Str) (pre post : List Str),
      cleanedWords s = pre ++ ["square".toList, "root".toList, "of".toList] ++ post →
      tokenizeNaturalLanguage s = foldAll pre ++ "square root of".toList :: foldAll post) ∧
    (∀ (s : Str) (pre post : List Str),
      cleanedWords s = pre ++ ["square".toList, "root".toList] ++ post →
      post.head? ≠ some "of".toList →
      tokenizeNaturalLanguage s = foldAll pre ++ "square root".toList :: foldAll post) ∧
    tokenizeNaturalLanguage "five to the power of two".toList =
      ["five".toList, "to the power of".toList, "two".toList] := by
  refine ⟨?_, ?_, ?_, ?_, ?_, by decide⟩
  · intro s; rw [tokenizeNaturalLanguage_eq]; exact greedyFold_no_power_run _
  · intro s; rw [tokenizeNaturalLanguage_eq]; exact greedyFold_no_root_run _
  · intro s pre post h
    rw [tokenizeNaturalLanguage_eq_foldAll]; exact fold_power_run _ pre post h
  · intro s pre post h
    rw [tokenizeNaturalLanguage_eq_foldAll]; exact fold_root_of_run _ pre post h
  · intro s pre post h hpost
    rw [tokenizeNaturalLanguage_eq_foldAll]; exact fold_root_run _ pre post h hpost

/-- The sentence `Two to the power of three` has the cleaned words `two`, `to`, `the`,
`power`, `of`, `three`, and the run is folded with `two` before it and `three` after. -/
theorem tokenizeNaturalLanguage_folds_every_run_witness :
    cleanedWords "Two to the power of three".toList =
        ["two".toList] ++ ["to".toList, "the".toList, "power".toList, "of".toList] ++
          ["three".toList] ∧
      tokenizeNaturalLanguage "Two to the power of three".toList =
        foldAll ["two".toList] ++ "to the power of".toList :: foldAll ["three".toList] :=
  ⟨by decide, tokenizeNaturalLanguage_folds_every_run.2.2.1 _ _ _ (by decide)⟩

/-- C14 on the code: the word list returned by `tokenizeNaturalLanguage` never holds the
element `square root` immediately followed by the element `of`, and whenever the cleaned
words hold `square`, `root`, `of` consecutively the three are folded into the one element
`square root of`, the words before and after them being folded on their own. -/
theorem tokenizeNaturalLanguage_longest_match :
    (∀ s : Str, ¬ ["square root".toList, "of".toList] <:+: tokenizeNaturalLanguage s) ∧
    (∀ (s : Str) (pre post : List Str),
      cleanedWords s = pre ++ ["square".toList, "root".toList, "of".toList] ++ post →
      tokenizeNaturalLanguage s = foldAll pre ++ "square root of".toList :: foldAll post) := by
  refine ⟨?_, ?_⟩
  · intro s; rw [tokenizeNaturalLanguage_eq]
    exact greedyFold_no_root_of _ (phraseRoot_not_mem_cleanedWords s)
  · intro s pre post h
    rw [tokenizeNaturalLanguage_eq_foldAll]; exact fold_root_of_run _ pre post h

/-- The sentence `the square root of nine` has the cleaned words `the`, `square`, `root`,
`of`, `nine`, and the three words are folded into `square root of`. -/
theorem tokenizeNaturalLanguage_longest_match_witness :
    cleanedWords "the square root of nine".toList =
        ["the".toList] ++ ["square".toList, "root".toList, "of".toList] ++ ["nine".toList] ∧
      tokenizeNaturalLanguage "the square root of nine".toList =
        foldAll ["the".toList] ++ "square root of".toList :: foldAll ["nine".toList] :=
  ⟨by decide, tokenizeNaturalLanguage_longest_match.2 _ _ _ (by decide)⟩

theorem digitChar_ne_newline (n : Nat) (h : n < 10) : Nat.digitChar n ≠ '\n' := by
  interval_cases n <;> decide

theorem toDigitsCore_no_newline (fuel n : Nat) (acc : List Char) (h : '\n' ∉ acc) :
    '\n' ∉ Nat.toDigitsCore 10 fuel n acc := by
  induction fuel generalizing n acc with
  | zero => simpa [Nat.toDigitsCore] using h
  | succ fuel ih =>
    have hd : '\n' ∉ Nat.digitChar (n % 10) :: acc := by
      intro hm
      rcases List.mem_cons.mp hm with e | e
      · exact digitChar_ne_newline (n % 10) (Nat.mod_lt _ (by decide)) e.symm
      · exact h e
    unfold Nat.toDigitsCore
    simp only
    split_ifs
    · exact hd
    · exact ih _ _ hd

theorem natRepr_no_newline (n : Nat) : '\n' ∉ (Nat.repr n).toList := by
  unfold Nat.repr Nat.toDigits
  exact toDigitsCore_no_newline _ _ _ (by simp)

theorem showInt_no_newline (n : Int) : '\n' ∉ showInt n := by
  unfold showInt
  cases n with
  | ofNat m => exact natRepr_no_newline m
  | negSucc m =>
    show '\n' ∉ ("-" ++ Nat.repr (m + 1)).toList
    rw [String.toList, String.data_append]
    intro h
    rcases List.mem_append.mp h with h | h
    · revert h; decide
    · exact natRepr_no_newline _ h

theorem linesFrom_line (l : Str) (rest line : Str) (h : '\n' ∉ l) :
    linesFrom (l ++ '\n' :: rest) line = (line ++ l) :: linesFrom rest [] := by
  induction l generalizing line with
  | nil => simp [linesFrom]
  | cons c l ih =>
    have hc : c ≠ '\n' := fun e => h (by simp [e])
    have hl : '\n' ∉ l := fun e => h (List.mem_cons_of_mem _ e)
    simp only [List.cons_append, linesFrom, hc, if_false]
    have := ih (line ++ [c]) hl
    simp only [List.append_assoc, List.singleton_append] at this
    exact this

/-- The lines of a text written line by line are the lines written, when none of them
holds a line feed. -/
theorem linesOf_unlines (ls : List Str) (h : ∀ l ∈ ls, '\n' ∉ l) : linesOf (unlines ls) = ls := by
  unfold linesOf
  induction ls with
  | nil => simp [unlines, linesFrom]
  | cons l ls ih =>
    have e : unlines (l :: ls) = l ++ '\n' :: unlines ls := by simp [unlines]
    rw [e, linesFrom_line l _ [] (h l (List.mem_cons_self _ _))]
    rw [ih (fun x hx => h x (List.mem_cons_of_mem _ hx))]; simp

theorem isPrefixOf_of_mismatch (p a r : Str)
    (h : (a.zip p).any (fun q => q.1 != q.2) = true) : p.isPrefixOf (a ++ r) = false := by
  induction a generalizing p with
  | nil => simp at h
  | cons x a ih =>
    cases p with
    | nil => simp at h
    | cons y p =>
      simp only [List.zip_cons_cons, List.any_cons, Bool.or_eq_true, bne_iff_ne, ne_eq] at h
      simp only [List.cons_append, List.isPrefixOf, Bool.and_eq_false_imp, beq_iff_eq]
      intro e
      rcases h with h | h
      · exact absurd e.symm h
      · exact ih p h

theorem isPlainLine_append (a r : Str) (ha : startsPlain a = true) (hr : '\n' ∉ r) :
    isPlainLine (a ++ r) = true := by
  unfold startsPlain at ha
  simp only [Bool.and_eq_true, Bool.not_eq_true', List.contains, List.elem_eq_mem,
    decide_eq_false_iff_not] at ha
  unfold isPlainLine isProcessLine
  rw [isPrefixOf_of_mismatch _ _ _ ha.1]
  simp only [Bool.not_false, Bool.true_and, Bool.not_eq_true', List.contains, List.elem_eq_mem,
    decide_eq_false_iff_not, List.mem_append, not_or]
  exact ⟨ha.2, hr⟩

theorem isPlainLine_label (a b : Str) (n : Int) (ha : startsPlain a = true)
    (hb : '\n' ∉ b) : isPlainLine (a ++ showInt n ++ b) = true := by
  rw [List.append_assoc]
  refine isPlainLine_append a _ ha ?_
  intro h
  rcases List.mem_append.mp h with h | h
  · exact showInt_no_newline n h
  · exact hb h

theorem isPlainLine_jump (a : Str) (n : Int) (ha : startsPlain a = true) :
    isPlainLine (a ++ showInt n) = true :=
  isPlainLine_append a _ ha (showInt_no_newline n)

set_option maxRecDepth 1000000 in
theorem isPlainLine_fixed :
    ∀ l ∈ dataSectionHead ++ textSectionHead ++ programTail ++ addLines ++ subLines ++
      mulLines ++ divLines ++ modLines ++ absLines ++ sinLines ++ cosLines ++ tanLines ++
      sqrtLines ++ swapLines ++ dupLines, isPlainLine l = true := by
  decide

theorem isPlainLine_powLines (n : Int) : ∀ l ∈ powLines n, isPlainLine l = true := by
  simp only [powLines, List.forall_mem_cons]
  repeat' apply And.intro
  all_goals first
    | exact isPlainLine_jump _ _ (by decide)
    | exact isPlainLine_label _ _ _ (by decide) (by decide)
    | decide

theorem isPlainLine_factorialLines (n : Int) :
    ∀ l ∈ factorialLines n, isPlainLine l = true := by
  simp only [factorialLines, List.forall_mem_cons]
  repeat' apply And.intro
  all_goals first
    | exact isPlainLine_jump _ _ (by decide)
    | exact isPlainLine_label _ _ _ (by decide) (by decide)
    | decide

theorem isPlainLine_depthCheck (k : Int) : ∀ l ∈ depthCheck k, isPlainLine l = true := by
  simp only [depthCheck, List.forall_mem_cons]
  repeat' apply And.intro
  all_goals first
    | exact isPlainLine_jump _ _ (by decide)
    | decide

theorem isPlainLine_operatorBody (s : Str) (n : Int) :
    ∀ l ∈ (operatorBody s n).1, isPlainLine l = true := by
  unfold operatorBody
  split_ifs
  · exact fun l hl => isPlainLine_fixed l (by simp [hl])
  · exact fun l hl => isPlainLine_fixed l (by simp [hl])
  · exact fun l hl => isPlainLine_fixed l (by simp [hl])
  · exact fun l hl => isPlainLine_fixed l (by simp [hl])
  · exact isPlainLine_powLines _
  · exact fun l hl => isPlainLine_fixed l (by simp [hl])
  · exact isPlainLine_factorialLines _
  · intro l hl; cases hl

theorem isPlainLine_functionBody (s : Str) :
    ∀ l ∈ functionBody s, isPlainLine l = true := by
  unfold functionBody
  split_ifs
  · exact fun l hl => isPlainLine_fixed l (by simp [hl])
  · exact fun l hl => isPlainLine_fixed l (by simp [hl])
  · exact fun l hl => isPlainLine_fixed l (by simp [hl])
  · exact fun l hl => isPlainLine_fixed l (by simp [hl])
  · exact fun l hl => isPlainLine_fixed l (by simp [hl])
  · intro l hl; cases hl

theorem isPlainLine_stackOpBody (s : Str) :
    ∀ l ∈ stackOpBody s, isPlainLine l = true := by
  unfold stackOpBody
  split_ifs
  · exact fun l hl => isPlainLine_fixed l (by simp [hl])
  · exact fun l hl => isPlainLine_fixed l (by simp [hl])
  · intro l hl; cases hl

theorem isPlainLine_numberLines (shown : Str) (h : '\n' ∉ shown) :
    ∀ l ∈ numberLines shown, isPlainLine l = true := by
  simp only [numberLines, List.forall_mem_cons]
  refine ⟨by decide, ?_, by decide, fun x hx => by cases hx⟩
  rw [List.append_assoc]
  refine isPlainLine_append _ _ (by decide) ?_
  simp only [List.mem_append, not_or]
  exact ⟨h, by decide⟩

theorem isPlainLine_constantLines (t : Token) (h : '\n' ∉ t.strValue) :
    ∀ l ∈ constantLines t, isPlainLine l = true := by
  simp only [constantLines, List.forall_mem_cons]
  refine ⟨by decide, ?_, by decide, fun x hx => by cases hx⟩
  rw [List.append_assoc]
  refine isPlainLine_append _ _ (by decide) ?_
  simp only [List.mem_append, not_or]
  exact ⟨h, by decide⟩

theorem no_newline_of_no_space (s : Str) (h : ∀ c ∈ s, isspace c = false) : '\n' ∉ s :=
  fun hm => absurd (h _ hm) (by decide)

theorem isProcessLine_comment (s : Str) : isProcessLine (processTokenComment ++ s) = true := by
  unfold isProcessLine
  rw [List.isPrefixOf_iff_prefix]
  exact List.prefix_append _ _

theorem isProcessLine_of_plain (l : Str) (h : isPlainLine l = true) : isProcessLine l = false := by
  unfold isPlainLine at h
  simp only [Bool.and_eq_true, Bool.not_eq_true'] at h
  exact h.1

theorem no_newline_of_plain (l : Str) (h : isPlainLine l = true) : '\n' ∉ l := by
  unfold isPlainLine at h
  simp only [Bool.and_eq_true, Bool.not_eq_true', List.contains, List.elem_eq_mem,
    decide_eq_false_iff_not] at h
  exact h.2

/-- One iteration of the token loop writes the comment that names the token and then
lines that are not of that form. -/
theorem emitToken_block (showDouble : StreamFmt → StodValue → Str) (fmt : StreamFmt)
    (t : Token) (arities : StrMap Int) (n : Int) (ht : t.initialized)
    (hs : '\n' ∉ t.strValue) (hd : ∀ f v, '\n' ∉ showDouble f v) :
    ∃ body a1 c1, emitToken showDouble fmt t arities n =
        .ok ((processTokenComment ++ t.strValue) :: body, a1, c1) ∧
      ∀ l ∈ body, isPlainLine l = true := by
  have hempty : isPlainLine [] = true := by decide
  unfold emitToken
  cases hty : t.type with
  | NUMBER =>
    have := ht hty
    cases hv : t.numValue with
    | none => rw [hv] at this; cases this
    | some v =>
      refine ⟨_, _, _, rfl, ?_⟩
      intro l hl
      rcases List.mem_append.mp hl with hl | hl
      · exact isPlainLine_numberLines _ (hd _ _) l hl
      · rw [List.mem_singleton] at hl; rw [hl]; exact hempty
  | CONSTANT =>
    refine ⟨_, _, _, rfl, ?_⟩
    intro l hl
    rcases List.mem_append.mp hl with hl | hl
    · exact isPlainLine_constantLines t hs l hl
    · rw [List.mem_singleton] at hl; rw [hl]; exact hempty
  | OPERATOR =>
    refine ⟨_, _, _, rfl, ?_⟩
    intro l hl
    rcases List.mem_append.mp hl with hl | hl
    · rcases List.mem_append.mp hl with hl | hl
      · exact isPlainLine_depthCheck _ l hl
      · exact isPlainLine_operatorBody _ _ l hl
    · rw [List.mem_singleton] at hl; rw [hl]; exact hempty
  | FUNCTION =>
    refine ⟨_, _, _, rfl, ?_⟩
    intro l hl
    rcases List.mem_append.mp hl with hl | hl
    · rcases List.mem_append.mp hl with hl | hl
      · exact isPlainLine_depthCheck _ l hl
      · exact isPlainLine_functionBody _ l hl
    · rw [List.mem_singleton] at hl; rw [hl]; exact hempty
  | STACK_OP =>
    refine ⟨_, _, _, rfl, ?_⟩
    intro l hl
    rcases List.mem_append.mp hl with hl | hl
    · rcases List.mem_append.mp hl with hl | hl
      · exact isPlainLine_depthCheck _ l hl
      · exact isPlainLine_stackOpBody _ l hl
    · rw [List.mem_singleton] at hl; rw [hl]; exact hempty

/-- The token loop writes one block for each token, in order, and the lines that
`emitTokens` collects are the lines of these blocks. -/
theorem emitBlocks_spec (showDouble : StreamFmt → StodValue → Str) (fmt : StreamFmt)
    (tokens : List Token) (arities : StrMap Int) (n : Int)
    (hi : ∀ t ∈ tokens, t.initialized) (hs : ∀ t ∈ tokens, '\n' ∉ t.strValue)
    (hd : ∀ f v, '\n' ∉ showDouble f v) :
    ∃ blocks a1 c1, emitBlocks showDouble fmt tokens arities n = .ok (blocks, a1, c1) ∧
      emitTokens showDouble fmt tokens arities n = .ok (blocks.flatten, a1, c1) ∧
      List.Forall₂ (fun t b => ∃ body, b = (processTokenComment ++ t.strValue) :: body ∧
        ∀ l ∈ body, isPlainLine l = true) tokens blocks := by
  induction tokens generalizing arities n with
  | nil => exact ⟨[], _, _, rfl, rfl, List.Forall₂.nil⟩
  | cons t rest ih =>
    obtain ⟨body, a1, c1, e1, hb⟩ := emitToken_block showDouble fmt t arities n
      (hi t (List.mem_cons_self _ _)) (hs t (List.mem_cons_self _ _)) hd
    obtain ⟨blocks, a2, c2, e2, e3, hf⟩ := ih a1 c1
      (fun u hu => hi u (List.mem_cons_of_mem _ hu))
      (fun u hu => hs u (List.mem_cons_of_mem _ hu))
    refine ⟨((processTokenComment ++ t.strValue) :: body) :: blocks, a2, c2, ?_, ?_, ?_⟩
    · simp only [emitBlocks, e1, e2]
    · simp only [emitTokens, e1, e3, List.flatten_cons]
    · exact List.Forall₂.cons ⟨body, rfl, hb⟩ hf

theorem filter_isProcessLine_plain (ls : List Str) (h : ∀ l ∈ ls, isPlainLine l = true) :
    ls.filter isProcessLine = [] := by
  rw [List.filter_eq_nil_iff]
  intro l hl
  rw [isProcessLine_of_plain l (h l hl)]
  exact Bool.false_ne_true

theorem filter_isProcessLine_blocks (tokens : List Token) (blocks : List (List Str))
    (h : List.Forall₂ (fun t b => ∃ body, b = (processTokenComment ++ t.strValue) :: body ∧
        ∀ l ∈ body, isPlainLine l = true) tokens blocks) :
    blocks.flatten.filter isProcessLine =
      tokens.map (fun t => processTokenComment ++ t.strValue) := by
  induction h with
  | nil => rfl
  | cons hb _ ih =>
    obtain ⟨body, rfl, hp⟩ := hb
    simp only [List.flatten_cons, List.cons_append, List.map_cons]
    rw [List.filter_cons_of_pos (isProcessLine_comment _), List.filter_append,
      filter_isProcessLine_plain body hp, ih]
    rfl

theorem no_newline_blocks (tokens : List Token) (blocks : List (List Str))
    (hs : ∀ t ∈ tokens, '\n' ∉ t.strValue)
    (h : List.Forall₂ (fun t b => ∃ body, b = (processTokenComment ++ t.strValue) :: body ∧
        ∀ l ∈ body, isPlainLine l = true) tokens blocks) :
    ∀ l ∈ blocks.flatten, '\n' ∉ l := by
  induction h with
  | nil => intro l hl; cases hl
  | @cons t b ts bs hb _ ih =>
    obtain ⟨body, rfl, hp⟩ := hb
    intro l hl
    simp only [List.flatten_cons, List.cons_append, List.mem_cons, List.mem_append] at hl
    rcases hl with rfl | hl | hl
    · intro hm
      rcases List.mem_append.mp hm with hm | hm
      · revert hm; decide
      · exact hs t (List.mem_cons_self _ _) hm
    · exact no_newline_of_plain l (hp l hl)
    · exact ih (fun u hu => hs u (List.mem_cons_of_mem _ hu)) l hl

theorem isPlainLine_declaration (name shown : Str) (hn : ∀ c ∈ name, isspace c = false)
    (hsh : '\n' ∉ shown) :
    isPlainLine ("    ".toList ++ name ++ " dq ".toList ++ shown) = true := by
  have hnl : '\n' ∉ "    ".toList ++ name ++ " dq ".toList ++ shown := by
    simp only [List.mem_append, not_or]
    exact ⟨⟨⟨by decide, no_newline_of_no_space name hn⟩, by decide⟩, hsh⟩
  have hpre : isProcessLine ("    ".toList ++ name ++ " dq ".toList ++ shown) = false := by
    unfold isProcessLine processTokenComment
    rcases name with _ | ⟨c1, _ | ⟨c2, r⟩⟩
    · simp [List.isPrefixOf]
    · simp [List.isPrefixOf]
    · have h2 : c2 ≠ ' ' := fun e => absurd (hn c2 (by simp)) (by rw [e]; decide)
      simp only [String.toList, List.cons_append, List.nil_append, List.isPrefixOf,
        Bool.and_eq_false_imp, beq_iff_eq]
      intro _ _ _ _ _ e
      exact absurd e.symm h2
  unfold isPlainLine
  rw [hpre]
  simpa [List.contains] using hnl

theorem isPlainLine_declareConstants (showDouble : StreamFmt → StodValue → Str)
    (hd : ∀ f v, '\n' ∉ showDouble f v) (tokens : List Token)
    (hs : ∀ t ∈ tokens, ∀ c ∈ t.strValue, isspace c = false)
    (constants : StrMap StodValue) (fmt : StreamFmt) :
    ∀ l ∈ (declareConstants showDouble tokens constants fmt).1, isPlainLine l = true := by
  induction tokens generalizing constants fmt with
  | nil => intro l hl; cases hl
  | cons t rest ih =>
    have hrest : ∀ u ∈ rest, ∀ c ∈ u.strValue, isspace c = false :=
      fun u hu => hs u (List.mem_cons_of_mem _ hu)
    unfold declareConstants
    split_ifs
    · intro l hl
      rcases List.mem_cons.mp hl with rfl | hl
      · exact isPlainLine_declaration _ _ (hs t (List.mem_cons_self _ _)) (hd _ _)
      · exact ih hrest _ _ l hl
    · exact ih hrest _ _

theorem Token.new_strValue (uf : StodValue → Bool) (type : TokenType) (value : Str)
    (t : Token) (h : Token.new uf type value = .ok t) : t.strValue = value := by
  unfold Token.new at h
  split_ifs at h
  · cases hs : stod uf value with
    | error e => rw [hs] at h; cases h
    | ok r => rw [hs] at h; cases h; rfl
  · cases h; rfl

theorem classify_strValue (uf : StodValue → Bool) (C : Compiler) (w : Str) (t : Token)
    (h : classify uf C w = .ok t) : t.strValue = w := by
  unfold classify at h
  split_ifs at h
  all_goals exact Token.new_strValue uf _ _ t h

theorem classifyAll_strValue (uf : StodValue → Bool) (C : Compiler) (ws : List Str)
    (acc tokens : List Token) (h : classifyAll uf C ws acc = .ok tokens) :
    tokens.map (fun t => t.strValue) = acc.map (fun t => t.strValue) ++ ws := by
  induction ws generalizing acc with
  | nil => simp only [classifyAll] at h; cases h; simp
  | cons w ws ih =>
    simp only [classifyAll] at h
    cases hc : classify uf C w with
    | error e => rw [hc] at h; cases h
    | ok t =>
      rw [hc] at h
      rw [ih (acc ++ [t]) h, List.map_append, List.map_singleton,
        classify_strValue uf C w t hc]
      simp

/-- The tokens that `tokenize` returns carry their value and a text without white
space. -/
theorem tokenize_tokens_plain (uf : StodValue → Bool) (C : Compiler) (expression : Str)
    (tokens : List Token) (h : tokenize uf C expression = .ok tokens) :
    (∀ t ∈ tokens, t.initialized) ∧ ∀ t ∈ tokens, ∀ c ∈ t.strValue, isspace c = false := by
  rw [tokenize_eq] at h
  refine ⟨classifyAll_initialized uf C _ [] tokens (fun t ht => by cases ht) h, ?_⟩
  have e := classifyAll_strValue uf C _ [] tokens h
  simp only [List.map_nil, List.nil_append] at e
  intro t ht
  have hm : t.strValue ∈ wordsOf expression := by
    rw [← e]; exact List.mem_map_of_mem _ ht
  unfold wordsOf at hm
  exact splitOnP_no_sep isspace expression _ (List.mem_filter.mp hm).1

/-- C18 as stated fails: for the one-token sequence whose token is a Constant with the
text `; Process token: x`, the declaration line of the data section has the form
`; Process token: <text>` as well, so the output holds two lines of that form for one
token (the double `0.0` of the inserted map entry is written `0.00000000000000000` under
`std::fixed` and `std::setprecision(17)`). -/
theorem generateAssembly_comment_line_in_data_section :
    ∃ text C1,
      generateAssembly (fun _ _ => "0.00000000000000000".toList) Compiler.new
          [⟨.CONSTANT, "; Process token: x".toList, none⟩] = .ok (text, C1) ∧
        (linesOf text).filter isProcessLine =
          ["    ; Process token: x dq 0.00000000000000000".toList,
           "    ; Process token: ; Process token: x".toList] ∧
        ((linesOf text).filter isProcessLine).length ≠
          [(⟨.CONSTANT, "; Process token: x".toList, none⟩ : Token)].length := by
  refine ⟨_, _, rfl, ?_, ?_⟩
  · decide
  · decide

/-- C18 on the code, for token sequences whose texts hold no white space and whose
Number tokens carry their value (every sequence that `tokenize` returns is one):
`generateAssembly` returns; the lines of its text are the head of the data section, the
declarations, the head of the text section with the set-up of the entry routine, then
one block for each token in input order, then the final print block and the helper
routines; each block opens with the line `; Process token: ` followed by its token's
text and holds no other line of that form, nor do the declarations; so the lines of that
form in the output are, in order, those naming the tokens. -/
theorem generateAssembly_one_block_per_token :
    (∀ (showDouble : StreamFmt → StodValue → Str) (C : Compiler) (tokens : List Token),
      (∀ f v, '\n' ∉ showDouble f v) →
      (∀ t ∈ tokens, t.initialized) →
      (∀ t ∈ tokens, ∀ c ∈ t.strValue, isspace c = false) →
      ∃ text C1 decls blocks,
        generateAssembly showDouble C tokens = .ok (text, C1) ∧
        linesOf text =
          dataSectionHead ++ decls ++ textSectionHead ++ blocks.flatten ++ programTail ∧
        (∀ l ∈ decls, isProcessLine l = false) ∧
        List.Forall₂ (fun t b => ∃ body, b = (processTokenComment ++ t.strValue) :: body ∧
          ∀ l ∈ body, isProcessLine l = false) tokens blocks ∧
        (linesOf text).filter isProcessLine =
          tokens.map (fun t => processTokenComment ++ t.strValue)) ∧
    (∀ (uf : StodValue → Bool) (C : Compiler) (expression : Str) (tokens : List Token),
      tokenize uf C expression = .ok tokens →
      (∀ t ∈ tokens, t.initialized) ∧ ∀ t ∈ tokens, ∀ c ∈ t.strValue, isspace c = false) := by
  refine ⟨?_, tokenize_tokens_plain⟩
  intro showDouble C tokens hd hi hs
  have hnl : ∀ t ∈ tokens, '\n' ∉ t.strValue :=
    fun t ht => no_newline_of_no_space _ (hs t ht)
  obtain ⟨blocks, a1, c1, _, e2, hf⟩ := emitBlocks_spec showDouble
    (declareConstants showDouble tokens C.constants StreamFmt.initial).2.2 tokens
    C.operatorArities 0 hi hnl hd
  have hdecl := isPlainLine_declareConstants showDouble hd tokens hs C.constants
    StreamFmt.initial
  have hlines : ∀ l ∈ dataSectionHead ++
      (declareConstants showDouble tokens C.constants StreamFmt.initial).1 ++
      textSectionHead ++ blocks.flatten ++ programTail, '\n' ∉ l := by
    intro l hl
    simp only [List.mem_append] at hl
    rcases hl with (((hl | hl) | hl) | hl) | hl
    · exact no_newline_of_plain l (isPlainLine_fixed l (by simp [hl]))
    · exact no_newline_of_plain l (hdecl l hl)
    · exact no_newline_of_plain l (isPlainLine_fixed l (by simp [hl]))
    · exact no_newline_blocks tokens blocks hnl hf l hl
    · exact no_newline_of_plain l (isPlainLine_fixed l (by simp [hl]))
  refine ⟨_, ⟨a1, (declareConstants showDouble tokens C.constants StreamFmt.initial).2.1⟩,
    (declareConstants showDouble tokens C.constants StreamFmt.initial).1, blocks,
    by simp only [generateAssembly, e2], linesOf_unlines _ hlines,
    fun l hl => isProcessLine_of_plain l (hdecl l hl), ?_, ?_⟩
  · refine List.Forall₂.imp ?_ hf
    rintro t b ⟨body, hb, hp⟩
    exact ⟨body, hb, fun l hl => isProcessLine_of_plain l (hp l hl)⟩
  · rw [linesOf_unlines _ hlines]
    simp only [List.filter_append]
    rw [filter_isProcessLine_plain dataSectionHead (fun l hl => isPlainLine_fixed l (by simp [hl])),
      filter_isProcessLine_plain _ hdecl,
      filter_isProcessLine_plain textSectionHead (fun l hl => isPlainLine_fixed l (by simp [hl])),
      filter_isProcessLine_plain programTail (fun l hl => isPlainLine_fixed l (by simp [hl])),
      filter_isProcessLine_blocks tokens blocks hf]
    simp

/-- C18 at the tokens of `pi 2 *`, the doubles written as `2`. -/
theorem generateAssembly_one_block_per_token_witness :
    ∃ text C1 decls blocks,
      generateAssembly (fun _ _ => "2".toList) Compiler.new
          [⟨.CONSTANT, "pi".toList, none⟩, ⟨.NUMBER, "2".toList, some (.finite false false 2 0)⟩,
           ⟨.OPERATOR, "*".toList, none⟩] = .ok (text, C1) ∧
        linesOf text =
          dataSectionHead ++ decls ++ textSectionHead ++ blocks.flatten ++ programTail ∧
        (∀ l ∈ decls, isProcessLine l = false) ∧
        List.Forall₂ (fun t b => ∃ body, b = (processTokenComment ++ t.strValue) :: body ∧
          ∀ l ∈ body, isProcessLine l = false)
          [⟨.CONSTANT, "pi".toList, none⟩, ⟨.NUMBER, "2".toList, some (.finite false false 2 0)⟩,
           (⟨.OPERATOR, "*".toList, none⟩ : Token)] blocks ∧
        (linesOf text).filter isProcessLine =
          [⟨.CONSTANT, "pi".toList, none⟩, ⟨.NUMBER, "2".toList, some (.finite false false 2 0)⟩,
           (⟨.OPERATOR, "*".toList, none⟩ : Token)].map
             (fun t => processTokenComment ++ t.strValue) :=
  generateAssembly_one_block_per_token.1 (fun _ _ => "2".toList) Compiler.new _
    (fun _ _ => (by decide : '\n' ∉ "2".toList)) (by simp [Token.initialized]) (by decide)

theorem index_arity_binary (name : Str) (h : name ∈ binaryNames) :
    StrMap.index 0 Compiler.new.operatorArities name = (2, Compiler.new.operatorArities) := by
  simp only [binaryNames, List.mem_cons, List.mem_singleton, List.not_mem_nil, or_false] at h
  rcases h with rfl | rfl | rfl | rfl | rfl | rfl | rfl <;> decide

theorem index_arity_unary (name : Str) (h : name ∈ unaryNames) :
    StrMap.index 0 Compiler.new.operatorArities name = (1, Compiler.new.operatorArities) := by
  simp only [unaryNames, List.mem_cons, List.mem_singleton, List.not_mem_nil, or_false] at h
  rcases h with rfl | rfl | rfl | rfl | rfl | rfl | rfl <;> decide

theorem named_of_category (number : Str → Bool) (w : Str) (ty : TokenType)
    (h : firstMatchingCategory number w = some ty)
    (hty : ty = .OPERATOR ∨ ty = .FUNCTION ∨ ty = .STACK_OP) :
    w ∈ binaryNames ∨ w ∈ unaryNames := by
  unfold firstMatchingCategory at h
  split_ifs at h with h1 h2 h3 h4 h5
  · cases h; simp at hty
  · cases h; simp at hty
  · simp only [knownStackOps, List.mem_cons, List.mem_singleton, List.not_mem_nil,
      or_false] at h3
    rcases h3 with rfl | rfl
    · left; decide
    · right; decide
  · simp only [knownFunctions, List.mem_cons, List.mem_singleton, List.not_mem_nil,
      or_false] at h4
    rcases h4 with rfl | rfl | rfl | rfl | rfl <;> (right; decide)
  · simp only [knownOperators, List.mem_cons, List.mem_singleton, List.not_mem_nil,
      or_false] at h5
    rcases h5 with rfl | rfl | rfl | rfl | rfl | rfl | rfl
    · left; decide
    · left; decide
    · left; decide
    · left; decide
    · left; decide
    · left; decide
    · right; decide

theorem isDepthCheckLine_of_start (a r : Str)
    (h1 : (a.zip "    cmp r12, ".toList).any (fun q => q.1 != q.2) = true)
    (h2 : (a.zip "    jl stack_underflow".toList).any (fun q => q.1 != q.2) = true) :
    isDepthCheckLine (a ++ r) = false := by
  unfold isDepthCheckLine
  rw [isPrefixOf_of_mismatch _ _ _ h1]
  simp only [Bool.false_or, beq_eq_false_iff_ne, ne_eq]
  intro e
  have h3 := isPrefixOf_of_mismatch _ a r h2
  rw [e] at h3
  simp [List.isPrefixOf_iff_prefix] at h3

theorem isDepthCheckLine_numberLines (shown : Str) :
    ∀ l ∈ numberLines shown, isDepthCheckLine l = false := by
  simp only [numberLines, List.forall_mem_cons]
  refine ⟨by decide, ?_, by decide, fun x hx => by cases hx⟩
  rw [List.append_assoc]
  exact isDepthCheckLine_of_start _ _ (by decide) (by decide)

theorem isDepthCheckLine_constantLines (t : Token) :
    ∀ l ∈ constantLines t, isDepthCheckLine l = false := by
  simp only [constantLines, List.forall_mem_cons]
  refine ⟨by decide, ?_, by decide, fun x hx => by cases hx⟩
  rw [List.append_assoc]
  exact isDepthCheckLine_of_start _ _ (by decide) (by decide)

theorem isDepthCheckLine_comment (s : Str) :
    isDepthCheckLine (processTokenComment ++ s) = false :=
  isDepthCheckLine_of_start _ _ (by decide) (by decide)

theorem depthCheck_two : depthCheck 2 =
    ["    ; Check if we have enough operands".toList, "    cmp r12, 2".toList,
      "    jl stack_underflow".toList, []] := by decide

theorem depthCheck_one : depthCheck 1 =
    ["    ; Check if we have enough operands".toList, "    cmp r12, 1".toList,
      "    jl stack_underflow".toList, []] := by decide

theorem depthCheckedBlock_named (t : Token) (body : List Str)
    (hty : t.type = .OPERATOR ∨ t.type = .FUNCTION ∨ t.type = .STACK_OP)
    (h : t.strValue ∈ binaryNames ∨ t.strValue ∈ unaryNames) :
    depthCheckedBlock t ((processTokenComment ++ t.strValue) ::
      depthCheck (StrMap.index 0 Compiler.new.operatorArities t.strValue).1 ++ body ++ [[]]) := by
  refine ⟨fun _ => ?_, fun h2 => ?_⟩
  · rcases h with h | h
    · rw [index_arity_binary _ h, depthCheck_two]
      exact ⟨[] :: (body ++ [[]]), Or.inl ⟨h, by simp⟩⟩
    · rw [index_arity_unary _ h, depthCheck_one]
      exact ⟨[] :: (body ++ [[]]), Or.inr ⟨h, by simp⟩⟩
  · rcases hty with e | e | e <;> rcases h2 with e2 | e2 <;> rw [e] at e2 <;> cases e2

theorem index_arity_snd (name : Str) (h : name ∈ binaryNames ∨ name ∈ unaryNames) :
    (StrMap.index 0 Compiler.new.operatorArities name).2 = Compiler.new.operatorArities := by
  rcases h with h | h
  · rw [index_arity_binary _ h]
  · rw [index_arity_unary _ h]

/-- The block written for a token that the loop body of `tokenize` made. -/
theorem emitToken_depthChecked (uf : StodValue → Bool)
    (showDouble : StreamFmt → StodValue → Str) (fmt : StreamFmt) (w : Str) (t : Token)
    (n : Int) (hc : classify uf Compiler.new w = .ok t) :
    ∃ b c1, emitToken showDouble fmt t Compiler.new.operatorArities n =
        .ok (b, Compiler.new.operatorArities, c1) ∧ depthCheckedBlock t b := by
  have hinit := classify_initialized uf Compiler.new w t hc
  rcases classify_spec uf w with ⟨t1, h1, h2, h3⟩ | ⟨h1, _⟩
  · rw [h1] at hc
    cases hc
    unfold emitToken
    cases hty : t.type with
    | NUMBER =>
      have := hinit hty
      cases hv : t.numValue with
      | none => rw [hv] at this; cases this
      | some v =>
        refine ⟨_, _, rfl, fun h => ?_, fun _ => ?_⟩
        · rcases h with e | e | e <;> rw [hty] at e <;> cases e
        · intro l hl
          rcases List.mem_cons.mp hl with rfl | hl
          · exact isDepthCheckLine_comment _
          · rcases List.mem_append.mp hl with hl | hl
            · exact isDepthCheckLine_numberLines _ l hl
            · rw [List.mem_singleton] at hl; rw [hl]; decide
    | CONSTANT =>
      refine ⟨_, _, rfl, fun h => ?_, fun _ => ?_⟩
      · rcases h with e | e | e <;> rw [hty] at e <;> cases e
      · intro l hl
        rcases List.mem_cons.mp hl with rfl | hl
        · exact isDepthCheckLine_comment _
        · rcases List.mem_append.mp hl with hl | hl
          · exact isDepthCheckLine_constantLines _ l hl
          · rw [List.mem_singleton] at hl; rw [hl]; decide
    | OPERATOR =>
      rw [hty] at h3
      have hn := named_of_category _ w _ h3 (Or.inl rfl)
      rw [← h2] at hn
      refine ⟨(processTokenComment ++ t.strValue) ::
          depthCheck (StrMap.index 0 Compiler.new.operatorArities t.strValue).1 ++
          (operatorBody t.strValue n).1 ++ [[]], (operatorBody t.strValue n).2, ?_, depthCheckedBlock_named t _ (Or.inl hty) hn⟩
      show Except.ok _ = Except.ok _
      rw [index_arity_snd _ hn]
      rfl
    | FUNCTION =>
      rw [hty] at h3
      have hn := named_of_category _ w _ h3 (Or.inr (Or.inl rfl))
      rw [← h2] at hn
      refine ⟨(processTokenComment ++ t.strValue) ::
          depthCheck (StrMap.index 0 Compiler.new.operatorArities t.strValue).1 ++
          functionBody t.strValue ++ [[]], n, ?_, depthCheckedBlock_named t _ (Or.inr (Or.inl hty)) hn⟩
      show Except.ok _ = Except.ok _
      rw [index_arity_snd _ hn]
      rfl
    | STACK_OP =>
      rw [hty] at h3
      have hn := named_of_category _ w _ h3 (Or.inr (Or.inr rfl))
      rw [← h2] at hn
      refine ⟨(processTokenComment ++ t.strValue) ::
          depthCheck (StrMap.index 0 Compiler.new.operatorArities t.strValue).1 ++
          stackOpBody t.strValue ++ [[]], n, ?_, depthCheckedBlock_named t _ (Or.inr (Or.inr hty)) hn⟩
      show Except.ok _ = Except.ok _
      rw [index_arity_snd _ hn]
      rfl
  · rw [h1] at hc; cases hc

theorem classifyAll_mem (uf : StodValue → Bool) (C : Compiler) (ws : List Str)
    (acc tokens : List Token) (h : classifyAll uf C ws acc = .ok tokens) :
    ∀ t ∈ tokens, t ∈ acc ∨ ∃ w, classify uf C w = .ok t := by
  induction ws generalizing acc with
  | nil => simp only [classifyAll] at h; cases h; exact fun t ht => Or.inl ht
  | cons w ws ih =>
    simp only [classifyAll] at h
    cases hc : classify uf C w with
    | error e => rw [hc] at h; cases h
    | ok t =>
      rw [hc] at h
      intro u hu
      rcases ih (acc ++ [t]) h u hu with hm | hm
      · rcases List.mem_append.mp hm with hm | hm
        · exact Or.inl hm
        · rw [List.mem_singleton] at hm; rw [hm]; exact Or.inr ⟨w, hc⟩
      · exact Or.inr hm

theorem emitBlocks_depthChecked (uf : StodValue → Bool)
    (showDouble : StreamFmt → StodValue → Str) (fmt : StreamFmt) (tokens : List Token)
    (n : Int) (h : ∀ t ∈ tokens, ∃ w, classify uf Compiler.new w = .ok t) :
    ∃ blocks c1, emitBlocks showDouble fmt tokens Compiler.new.operatorArities n =
        .ok (blocks, Compiler.new.operatorArities, c1) ∧
      emitTokens showDouble fmt tokens Compiler.new.operatorArities n =
        .ok (blocks.flatten, Compiler.new.operatorArities, c1) ∧
      List.Forall₂ depthCheckedBlock tokens blocks := by
  induction tokens generalizing n with
  | nil => exact ⟨[], _, rfl, rfl, List.Forall₂.nil⟩
  | cons t rest ih =>
    obtain ⟨w, hw⟩ := h t (List.mem_cons_self _ _)
    obtain ⟨b, c1, e1, hb⟩ := emitToken_depthChecked uf showDouble fmt w t n hw
    obtain ⟨blocks, c2, e2, e3, hf⟩ := ih c1 (fun u hu => h u (List.mem_cons_of_mem _ hu))
    refine ⟨b :: blocks, c2, ?_, ?_, List.Forall₂.cons hb hf⟩
    · simp only [emitBlocks, e1, e2]
    · simp only [emitTokens, e1, e3, List.flatten_cons]

/-- C19 on the code: for the tokens that `tokenize` returns, the token loop of
`generateAssembly` writes one block for each token; the block of an Operator, Function
or StackOp token opens with the comment naming the token and the comment of the check,
then `cmp r12, k` and `jl stack_underflow` before every other line, where `k` is 2 for
`+ - * / ^ % swap` and 1 for `! abs sin cos tan sqrt dup`; the block of a Number or
Constant token holds no `cmp r12, ...` line and no `jl stack_underflow` line; the table
of arities is left as the constructor made it. -/
theorem emitBlocks_depth_check_per_token (uf : StodValue → Bool)
    (showDouble : StreamFmt → StodValue → Str) (fmt : StreamFmt) (expression : Str)
    (tokens : List Token) (h : tokenize uf Compiler.new expression = .ok tokens) :
    ∃ blocks counter,
      emitBlocks showDouble fmt tokens Compiler.new.operatorArities 0 =
        .ok (blocks, Compiler.new.operatorArities, counter) ∧
      emitTokens showDouble fmt tokens Compiler.new.operatorArities 0 =
        .ok (blocks.flatten, Compiler.new.operatorArities, counter) ∧
      List.Forall₂ depthCheckedBlock tokens blocks := by
  rw [tokenize_eq] at h
  refine emitBlocks_depthChecked uf showDouble fmt tokens 0 ?_
  intro t ht
  rcases classifyAll_mem uf Compiler.new _ [] tokens h t ht with hm | hm
  · cases hm
  · exact hm

/-- C19 at the expression `4 sqrt`, the doubles written as `4`. -/
theorem emitBlocks_depth_check_per_token_witness :
    ∃ blocks counter,
      emitBlocks (fun _ _ => "4".toList) StreamFmt.initial
          [⟨.NUMBER, "4".toList, some (.finite false false 4 0)⟩,
           ⟨.FUNCTION, "sqrt".toList, none⟩] Compiler.new.operatorArities 0 =
        .ok (blocks, Compiler.new.operatorArities, counter) ∧
      emitTokens (fun _ _ => "4".toList) StreamFmt.initial
          [⟨.NUMBER, "4".toList, some (.finite false false 4 0)⟩,
           ⟨.FUNCTION, "sqrt".toList, none⟩] Compiler.new.operatorArities 0 =
        .ok (blocks.flatten, Compiler.new.operatorArities, counter) ∧
      List.Forall₂ depthCheckedBlock
        [⟨.NUMBER, "4".toList, some (.finite false false 4 0)⟩,
         ⟨.FUNCTION, "sqrt".toList, none⟩] blocks :=
  emitBlocks_depth_check_per_token (fun _ => true) (fun _ _ => "4".toList) StreamFmt.initial
    "4 sqrt".toList _ rfl

theorem wordsOf_sentence3 (a w b : Str) (ha : isPlainWord a = true)
    (hw : isPlainWord w = true) (hb : isPlainWord b = true) :
    wordsOf (sentence3 a w b) = [a, w, b] := by
  unfold isPlainWord at ha hw hb
  simp only [Bool.and_eq_true, Bool.not_eq_true', List.all_eq_true, beq_iff_eq, bne_iff_ne,
    ne_eq] at ha hw hb
  have sa : ∀ x ∈ a, ¬ isspace x = true := fun x hx => by simp [ha.1.1.1.2 x hx]
  have sw : ∀ x ∈ w, ¬ isspace x = true := fun x hx => by simp [hw.1.1.1.2 x hx]
  have sb : ∀ x ∈ b, ¬ isspace x = true := fun x hx => by simp [hb.1.1.1.2 x hx]
  unfold wordsOf sentence3
  rw [List.splitOnP_first isspace a sa ' ' (by decide),
    List.splitOnP_first isspace w sw ' ' (by decide), List.splitOnP_eq_single isspace b sb]
  simp [List.filter, ha.1.1.1.1, hw.1.1.1.1, hb.1.1.1.1]

theorem tokenizeNaturalLanguage_sentence3 (a w b : Str) (ha : isPlainWord a = true)
    (hw : isPlainWord w = true) (hb : isPlainWord b = true) :
    tokenizeNaturalLanguage (sentence3 a w b) = [a, w, b] := by
  rw [tokenizeNaturalLanguage_eq, cleanedWords_eq, cleanedWordsSpec,
    wordsOf_sentence3 a w b ha hw hb]
  unfold isPlainWord at ha hw hb
  simp only [Bool.and_eq_true, Bool.not_eq_true', beq_iff_eq, bne_iff_ne, ne_eq] at ha hw hb
  simp only [List.map_cons, List.map_nil, ha.1.1.2, hw.1.1.2, hb.1.1.2]
  simp only [List.filter, ha.1.1.1.1, hw.1.1.1.1, hb.1.1.1.1, Bool.not_false]
  rw [greedyFold_plain a _ ha.1.2 ha.2, greedyFold_plain w _ hw.1.2 hw.2,
    greedyFold_plain b _ hb.1.2 hb.2, greedyFold_nil]

theorem mapWords_three (a w b na s nb : Str)
    (ha : wordToNumberInit.find a = some na) (hb : wordToNumberInit.find b = some nb)
    (hw1 : wordToNumberInit.find w = none) (hw2 : wordToOperatorInit.find w = some s) :
    mapWords [a, w, b] NaturalLanguageProcessor.new [] =
      ([na, s, nb], NaturalLanguageProcessor.new) := by
  simp only [mapWords, NaturalLanguageProcessor.new, ha, hb, hw1, hw2, Option.isSome_some,
    Option.isSome_none, if_true, Bool.false_eq_true, if_false,
    StrMap.index_of_find _ _ _ _ ha, StrMap.index_of_find _ _ _ _ hb,
    StrMap.index_of_find _ _ _ _ hw2, List.nil_append, List.cons_append]

theorem infixToRPN_one_operator (x s y : Str) (hx : isOperandToken x = true)
    (hy : isOperandToken y = true) (hs : s ∈ leftBinaryOperators) :
    infixToRPN NaturalLanguageProcessor.new [x, s, y] =
      .ok (spaced [x, y, s], NaturalLanguageProcessor.new) := by
  have hs1 : ¬ s = ['('] := leftBinaryOperators_ne_open s hs
  simp only [infixToRPN, processTokens, processToken_operand x _ hx,
    processToken_left_on_empty s hs, processToken_operand y _ hy, drainStack]
  simp [spaced, hs1]

theorem infixToRPN_caret_alone (x y : Str) (hx : isOperandToken x = true) :
    infixToRPN NaturalLanguageProcessor.new [x, "^".toList, y] =
      .error .top_of_empty_stack := by
  simp only [infixToRPN, processTokens, processToken_operand x _ hx]
  rfl

theorem numberWords_plain : ∀ p ∈ wordToNumberInit,
    isPlainWord p.1 = true ∧ wordToNumberInit.find p.1 = some p.2 ∧
      isOperandToken p.2 = true := by
  decide

theorem operatorWords_plain : ∀ p ∈ wordToOperatorInit, ' ' ∉ p.1 →
    isPlainWord p.1 = true ∧ wordToNumberInit.find p.1 = none ∧
      wordToOperatorInit.find p.1 = some p.2 := by
  decide

/-- C12 on the code, for the number words `a`, `b` and the single operator words `w` of
the constructor's tables, on the sentence `a w b`. When `w` maps to one of `+ - * / %`,
the infix stream is `num(a)`, `s`, `num(b)` and `convertToRPN` returns
`num(a) num(b) s` followed by one space, as the claim says. When `w` maps to `^` (the
words `power`, `exponent`, `raised`), the infix stream is `num(a)`, `^`, `num(b)` and
`infixToRPN` reads `top()` of the empty stack, which is undefined, so nothing is
returned: `two power three` fails so, and `three plus four` gives `3 4 +`. -/
theorem convertToRPN_three_words :
    (∀ a ∈ wordToNumberInit, ∀ w ∈ wordToOperatorInit, ∀ b ∈ wordToNumberInit,
      ' ' ∉ w.1 →
      (w.2 ∈ leftBinaryOperators →
        (infixStream NaturalLanguageProcessor.new (sentence3 a.1 w.1 b.1)).1 =
            [a.2, w.2, b.2] ∧
          convertToRPN NaturalLanguageProcessor.new (sentence3 a.1 w.1 b.1) =
            .ok (spaced [a.2, b.2, w.2], NaturalLanguageProcessor.new)) ∧
      (w.2 = "^".toList →
        (infixStream NaturalLanguageProcessor.new (sentence3 a.1 w.1 b.1)).1 =
            [a.2, "^".toList, b.2] ∧
          convertToRPN NaturalLanguageProcessor.new (sentence3 a.1 w.1 b.1) =
            .error .top_of_empty_stack)) ∧
    (infixStream NaturalLanguageProcessor.new "two power three".toList).1 =
      ["2".toList, "^".toList, "3".toList] ∧
    convertToRPN NaturalLanguageProcessor.new "two power three".toList =
      .error .top_of_empty_stack ∧
    convertToRPN NaturalLanguageProcessor.new "two raised three".toList =
      .error .top_of_empty_stack ∧
    convertToRPN NaturalLanguageProcessor.new "two exponent three".toList =
      .error .top_of_empty_stack ∧
    (infixStream NaturalLanguageProcessor.new "three plus four".toList).1 =
      ["3".toList, "+".toList, "4".toList] ∧
    convertToRPN NaturalLanguageProcessor.new "three plus four".toList =
      .ok ("3 4 + ".toList, NaturalLanguageProcessor.new) := by
  refine ⟨?_, by decide, by decide, by decide, by decide, by decide, by decide⟩
  intro a ha w hw b hb hsp
  obtain ⟨pa, fa, oa⟩ := numberWords_plain a ha
  obtain ⟨pb, fb, ob⟩ := numberWords_plain b hb
  obtain ⟨pw, fw1, fw2⟩ := operatorWords_plain w hw hsp
  have hstream : infixStream NaturalLanguageProcessor.new (sentence3 a.1 w.1 b.1) =
      ([a.2, w.2, b.2], NaturalLanguageProcessor.new) := by
    unfold infixStream
    rw [tokenizeNaturalLanguage_sentence3 _ _ _ pa pw pb]
    exact mapWords_three _ _ _ _ _ _ fa fb fw1 fw2
  refine ⟨fun hs => ⟨by rw [hstream], ?_⟩, fun hs => ⟨by rw [hstream, hs], ?_⟩⟩
  · unfold convertToRPN
    simp only [hstream]
    exact infixToRPN_one_operator _ _ _ oa ob hs
  · unfold convertToRPN
    simp only [hstream, hs]
    exact infixToRPN_caret_alone _ _ oa

/-- C12 at the sentence `seven times eight`, which gives `7 8 *`. -/
theorem convertToRPN_three_words_witness :
    (infixStream NaturalLanguageProcessor.new
        (sentence3 "seven".toList "times".toList "eight".toList)).1 =
        ["7".toList, "*".toList, "8".toList] ∧
      convertToRPN NaturalLanguageProcessor.new
          (sentence3 "seven".toList "times".toList "eight".toList) =
        .ok (spaced ["7".toList, "8".toList, "*".toList], NaturalLanguageProcessor.new) :=
  (convertToRPN_three_words.1 ("seven".toList, "7".toList) (by decide)
    ("times".toList, "*".toList) (by decide) ("eight".toList, "8".toList) (by decide)
    (by decide)).1 (by decide)

theorem factorialIntegerPath_fin : ∀ n : Fin 21,
    factorialIntegerPath (n.val : Int) = .done (Nat.factorial n.val : Nat) := by
  decide

theorem descFactorial_fin : ∀ n : Fin 21, ∀ j : Fin 21,
    Nat.descFactorial n.val j.val < 2 ^ 63 := by
  decide

/-- C28: the factorial block compares the operand with 20 before its integer loop, and 20
is the exact bound of that loop: for every operand `n` with `0 <= n <= 20` every
intermediate product `n * (n - 1) * ... * k` is below `2 ^ 63`, the loop ends with `n!` in
`rcx` and never takes the branch `jo factorial_overflow_N`; `21!` is at least `2 ^ 63`, and
the loop entered with 21 would take that branch. -/
theorem factorial_bound_is_exact :
    (∀ N : Int, "    cmp rax, 20".toList ∈ factorialLines N ∧
      ("    jg factorial_overflow_".toList ++ showInt N) ∈ factorialLines N) ∧
    (∀ n j : Nat, n ≤ 20 → j ≤ n → Nat.descFactorial n j < 2 ^ 63) ∧
    (∀ n : Int, 0 ≤ n → n ≤ 20 →
      factorialIntegerPath n = .done (Nat.factorial n.toNat : Nat)) ∧
    2 ^ 63 ≤ Nat.factorial 21 ∧
    factorialIntegerPath 21 = .overflow := by
  refine ⟨fun N => ⟨by simp [factorialLines], by simp [factorialLines]⟩, ?_, ?_, by decide,
    by decide⟩
  · intro n j hn hj
    exact descFactorial_fin ⟨n, by omega⟩ ⟨j, by omega⟩
  · intro n h0 h20
    obtain ⟨m, rfl⟩ := Int.eq_ofNat_of_zero_le h0
    have hm : m < 21 := by omega
    simpa using factorialIntegerPath_fin ⟨m, hm⟩

/-- C28 at the operand 20, whose factorial the integer loop reaches. -/
theorem factorial_bound_is_exact_witness :
    factorialIntegerPath 20 = .done (Nat.factorial (20 : Int).toNat : Nat) :=
  factorial_bound_is_exact.2.2.1 20 (by decide) (by decide)

theorem dropWhile_space_append (a r : Str) (h : (a.dropWhile (· = ' ')) ≠ []) :
    (a ++ r).dropWhile (· = ' ') = a.dropWhile (· = ' ') ++ r := by
  induction a with
  | nil => simp at h
  | cons c a ih =>
    by_cases hc : c = ' '
    · subst hc
      simp only [List.cons_append, List.dropWhile_cons, decide_True, if_true] at h ⊢
      exact ih h
    · simp [List.dropWhile_cons, hc]

theorem takeWhile_append_of_stop {α : Type} (p : α → Bool) (a r : List α)
    (h : a.takeWhile p ≠ a) : (a ++ r).takeWhile p = a.takeWhile p := by
  induction a with
  | nil => simp at h
  | cons c a ih =>
    by_cases hc : p c = true
    · simp only [List.cons_append, List.takeWhile_cons, hc, if_true, List.cons.injEq,
        true_and, ne_eq] at h ⊢
      exact ih h
    · simp [List.takeWhile_cons, hc]

/-- The mnemonic of a line is decided by its start, once the start holds the
indentation, the mnemonic and the space after it. -/
theorem mnemonicOf_append (a r : Str)
    (h : (a.dropWhile (· = ' ')).takeWhile (· ≠ ' ') ≠ a.dropWhile (· = ' ')) :
    mnemonicOf (a ++ r) = mnemonicOf a := by
  unfold mnemonicOf
  have h1 : a.dropWhile (· = ' ') ≠ [] := by
    intro e; rw [e] at h; simp at h
  rw [dropWhile_space_append a r h1, takeWhile_append_of_stop _ _ _ h]

theorem head?_append_of_ne_nil {α : Type} (a r : List α) (h : a ≠ []) :
    (a ++ r).head? = a.head? := by
  cases a with
  | nil => exact absurd rfl h
  | cons c a => rfl

/-- Whether a line has a mnemonic is decided by its start. -/
theorem hasMnemonic_append (m a r : Str)
    (h : (a.dropWhile (· = ' ')).takeWhile (· ≠ ' ') ≠ a.dropWhile (· = ' ')) :
    hasMnemonic m (a ++ r) = hasMnemonic m a := by
  have h1 : a ≠ [] := by
    intro e; rw [e] at h; simp at h
  unfold hasMnemonic
  rw [mnemonicOf_append a r h, head?_append_of_ne_nil a r h1]

theorem isJumpLine_append (a r : Str)
    (h : (a.dropWhile (· = ' ')).takeWhile (· ≠ ' ') ≠ a.dropWhile (· = ' ')) :
    isJumpLine (a ++ r) = isJumpLine a := by
  have h1 : a ≠ [] := by
    intro e; rw [e] at h; simp at h
  unfold isJumpLine
  rw [mnemonicOf_append a r h, head?_append_of_ne_nil a r h1]

theorem hasMnemonic_label (m a r : Str) (h : a.head? ≠ some ' ') (ha : a ≠ []) :
    hasMnemonic m (a ++ r) = false := by
  unfold hasMnemonic
  rw [head?_append_of_ne_nil a r ha]
  simp [h]

theorem isJumpLine_label (a r : Str) (h : a.head? ≠ some ' ') (ha : a ≠ []) :
    isJumpLine (a ++ r) = false := by
  unfold isJumpLine
  rw [head?_append_of_ne_nil a r ha]
  simp [h]

theorem operatorBody_factorial (n : Int) :
    operatorBody "!".toList n = (factorialLines (n + 1), n + 1) := by
  simp [operatorBody]

theorem emitToken_operator (showDouble : StreamFmt → StodValue → Str) (fmt : StreamFmt)
    (t : Token) (arities : StrMap Int) (n : Int) (h : t.type = .OPERATOR) :
    emitToken showDouble fmt t arities n =
      .ok ((processTokenComment ++ t.strValue) ::
        depthCheck (StrMap.index 0 arities t.strValue).1 ++
        (operatorBody t.strValue n).1 ++ [[]],
        (StrMap.index 0 arities t.strValue).2, (operatorBody t.strValue n).2) := by
  unfold emitToken
  rw [h]
  rfl

/-- The blocks of the token loop are what `emitToken` writes for each token, at the
counter that the tokens before it left. -/
theorem emitBlocks_forall₂ (P : Token → List Str → Prop)
    (showDouble : StreamFmt → StodValue → Str) (fmt : StreamFmt)
    (hP : ∀ t arities n b a1 c1, emitToken showDouble fmt t arities n = .ok (b, a1, c1) → P t b)
    (tokens : List Token) (arities : StrMap Int) (n : Int) (blocks : List (List Str))
    (a : StrMap Int) (c : Int)
    (h : emitBlocks showDouble fmt tokens arities n = .ok (blocks, a, c)) :
    List.Forall₂ P tokens blocks := by
  induction tokens generalizing arities n blocks with
  | nil => simp only [emitBlocks] at h; cases h; exact List.Forall₂.nil
  | cons t rest ih =>
    simp only [emitBlocks] at h
    cases h1 : emitToken showDouble fmt t arities n with
    | error u => rw [h1] at h; cases h
    | ok r =>
      obtain ⟨b, a1, c1⟩ := r
      rw [h1] at h
      simp only at h
      cases h2 : emitBlocks showDouble fmt rest a1 c1 with
      | error u => rw [h2] at h; cases h
      | ok r2 =>
        obtain ⟨bs, a2, c2⟩ := r2
        rw [h2] at h
        cases h
        exact List.Forall₂.cons (hP t arities n b a1 c1 h1) (ih a1 c1 bs h2)

theorem emitBlocks_ok (showDouble : StreamFmt → StodValue → Str) (fmt : StreamFmt)
    (tokens : List Token) (arities : StrMap Int) (n : Int)
    (h : ∀ t ∈ tokens, t.initialized) :
    ∃ r, emitBlocks showDouble fmt tokens arities n = .ok r := by
  induction tokens generalizing arities n with
  | nil => exact ⟨_, rfl⟩
  | cons t rest ih =>
    obtain ⟨⟨ls, a1, c1⟩, h1⟩ :=
      emitToken_ok showDouble fmt t arities n (h t (List.mem_cons_self _ _))
    obtain ⟨⟨ls2, a2, c2⟩, h2⟩ := ih a1 c1 (fun u hu => h u (List.mem_cons_of_mem _ hu))
    exact ⟨(ls :: ls2, a2, c2), by simp only [emitBlocks, h1, h2]⟩

theorem emitTokens_eq_flatten (showDouble : StreamFmt → StodValue → Str) (fmt : StreamFmt)
    (tokens : List Token) (arities : StrMap Int) (n : Int) :
    emitTokens showDouble fmt tokens arities n =
      (emitBlocks showDouble fmt tokens arities n).map
        fun r => (r.1.flatten, r.2.1, r.2.2) := by
  induction tokens generalizing arities n with
  | nil => rfl
  | cons t rest ih =>
    simp only [emitTokens, emitBlocks]
    cases h1 : emitToken showDouble fmt t arities n with
    | error u => rfl
    | ok r =>
      obtain ⟨b, a1, c1⟩ := r
      simp only [ih a1 c1]
      cases h2 : emitBlocks showDouble fmt rest a1 c1 with
      | error u => rfl
      | ok r2 => rfl

/-- C23: the block of a `!` token (an Operator token with the text `!`) is, after its
comments and depth check, the factorial lines with a suffix `N`. In them `cmp rax, 20` and
`jg factorial_overflow_N` come before the label `factorial_loop_N:`, and no line before
that label is an `imul`; the line after the label is the `imul`. The label
`factorial_overflow_N:` is followed by two comments and two moves, none of them a jump or
an `imul`, and then by the label `factorial_fp_loop_N:`, so an operand greater than 20
goes from the `jg` to the floating-point loop without passing an `imul`. This holds for
every token sequence on which the token loop returns, and it returns for every sequence
whose Number tokens carry their value. -/
theorem factorial_block_overflow_guard :
    (∀ N : Int, ∃ before between loop fpSetup after,
      factorialLines N =
        before ++ ["    cmp rax, 20".toList, "    jg factorial_overflow_".toList ++ showInt N] ++
          between ++ ["factorial_loop_".toList ++ showInt N ++ ":".toList] ++
          ("    imul rcx, rax  ; result *= n".toList :: loop) ++
          ["factorial_overflow_".toList ++ showInt N ++ ":".toList] ++ fpSetup ++
          ["factorial_fp_loop_".toList ++ showInt N ++ ":".toList] ++ after ∧
      (∀ l ∈ before ++ between ++ fpSetup, hasMnemonic "imul".toList l = false) ∧
      (∀ l ∈ fpSetup, isJumpLine l = false ∧ l.head? = some ' ')) ∧
    (∀ (showDouble : StreamFmt → StodValue → Str) (fmt : StreamFmt) (tokens : List Token)
      (arities : StrMap Int) (n : Int) (blocks : List (List Str)) (a : StrMap Int) (c : Int),
      emitBlocks showDouble fmt tokens arities n = .ok (blocks, a, c) →
      List.Forall₂ (fun t b => t.type = .OPERATOR → t.strValue = "!".toList →
        ∃ (k N : Int), b = (processTokenComment ++ "!".toList) :: depthCheck k ++
          factorialLines N ++ [[]]) tokens blocks) ∧
    (∀ (showDouble : StreamFmt → StodValue → Str) (fmt : StreamFmt) (tokens : List Token)
      (arities : StrMap Int) (n : Int), (∀ t ∈ tokens, t.initialized) →
      ∃ r, emitBlocks showDouble fmt tokens arities n = .ok r) := by
  refine ⟨fun N => ?_, ?_, fun showDouble fmt tokens arities n h =>
    emitBlocks_ok showDouble fmt tokens arities n h⟩
  · refine ⟨(factorialLines N).take 11, ((factorialLines N).drop 13).take 4,
      ((factorialLines N).drop 19).take 6, ((factorialLines N).drop 26).take 4,
      (factorialLines N).drop 31, by simp [factorialLines], ?_, ?_⟩
    · simp only [factorialLines, List.take, List.drop, List.cons_append, List.nil_append,
        List.forall_mem_cons]
      repeat' apply And.intro
      all_goals first
        | decide
        | (rw [hasMnemonic_append _ _ _ (by decide)]; decide)
        | (rw [List.append_assoc, hasMnemonic_append _ _ _ (by decide)]; decide)
    · simp only [factorialLines, List.take, List.drop, List.forall_mem_cons]
      repeat' apply And.intro
      all_goals decide
  · intro showDouble fmt tokens arities n blocks a c h
    refine emitBlocks_forall₂ _ showDouble fmt ?_ tokens arities n blocks a c h
    intro t ar m b a1 c1 he hty hs
    rw [emitToken_operator showDouble fmt t ar m hty, hs, operatorBody_factorial] at he
    cases he
    exact ⟨_, _, rfl⟩

/-- C23 at the tokens of `25 !`, whose token loop returns. -/
theorem factorial_block_overflow_guard_witness :
    ∃ r, emitBlocks (fun _ _ => "25".toList) StreamFmt.initial
      [⟨.NUMBER, "25".toList, some (.finite false false 25 0)⟩, ⟨.OPERATOR, "!".toList, none⟩]
      Compiler.new.operatorArities 0 = .ok r :=
  factorial_block_overflow_guard.2.2 (fun _ _ => "25".toList) StreamFmt.initial _ _ 0
    (by simp [Token.initialized])

/-- C24: the block of an Operator token is its comments and depth check followed by the
lines of the operator. Run on a stack with `b` on top of `a` (so `a` was pushed first),
the lines of `+ - * /` pop `b`, move it to `xmm1`, pop `a` into `xmm0`, combine with
`<op>sd xmm0, xmm1` and push, leaving `a + b`, `a - b`, `a * b`, `a / b` on the stack;
`/` first compares the popped `b` with zero and leaves for `division_by_zero` when the
comparison holds. In the lines of each of the four the combining instruction is followed
directly by `call push_stack`. The first lines of `%` leave the divisor `b` in `xmm1` and
the dividend `a` in `xmm0`, and the first lines of `^` leave the exponent `b` in `xmm1` and
the base `a` in `xmm0`. -/
theorem operator_blocks_operand_order :
    (∀ (showDouble : StreamFmt → StodValue → Str) (fmt : StreamFmt) (t : Token)
      (arities : StrMap Int) (n : Int), t.type = .OPERATOR →
      emitToken showDouble fmt t arities n =
        .ok ((processTokenComment ++ t.strValue) ::
          depthCheck (StrMap.index 0 arities t.strValue).1 ++
          (operatorBody t.strValue n).1 ++ [[]],
          (StrMap.index 0 arities t.strValue).2, (operatorBody t.strValue n).2)) ∧
    (∀ (α : Type) (ops : DoubleOps α) (a b x0 x1 : α) (z : Bool) (rest : List α) (n : Int),
      runLines ops (operatorBody "+".toList n).1 ⟨b :: a :: rest, x0, x1, z⟩ =
        .ok ⟨ops.add a b :: rest, ops.add a b, b, z⟩ ∧
      runLines ops (operatorBody "-".toList n).1 ⟨b :: a :: rest, x0, x1, z⟩ =
        .ok ⟨ops.sub a b :: rest, ops.sub a b, b, z⟩ ∧
      runLines ops (operatorBody "*".toList n).1 ⟨b :: a :: rest, x0, x1, z⟩ =
        .ok ⟨ops.mul a b :: rest, ops.mul a b, b, z⟩ ∧
      (ops.equal b ops.zero = false →
        runLines ops (operatorBody "/".toList n).1 ⟨b :: a :: rest, x0, x1, z⟩ =
          .ok ⟨ops.div a b :: rest, ops.div a b, b, false⟩) ∧
      (ops.equal b ops.zero = true →
        runLines ops (operatorBody "/".toList n).1 ⟨b :: a :: rest, x0, x1, z⟩ =
          .error .division_by_zero) ∧
      (ops.equal b ops.zero = false →
        runLines ops ((operatorBody "%".toList n).1.take 8) ⟨b :: a :: rest, x0, x1, z⟩ =
          .ok ⟨rest, a, b, false⟩) ∧
      runLines ops ((operatorBody "^".toList n).1.take 4) ⟨b :: a :: rest, x0, x1, z⟩ =
        .ok ⟨rest, a, b, z⟩) ∧
    (∀ n : Int,
      ["    addsd xmm0, xmm1".toList, "    call push_stack".toList] <:+
        (operatorBody "+".toList n).1 ∧
      ["    subsd xmm0, xmm1".toList, "    call push_stack".toList] <:+
        (operatorBody "-".toList n).1 ∧
      ["    mulsd xmm0, xmm1".toList, "    call push_stack".toList] <:+
        (operatorBody "*".toList n).1 ∧
      ["    divsd xmm0, xmm1".toList, "    call push_stack".toList] <:+
        (operatorBody "/".toList n).1) := by
  refine ⟨emitToken_operator, ?_, ?_⟩
  · intro α ops a b x0 x1 z rest n
    refine ⟨rfl, rfl, rfl, ?_, ?_, ?_, rfl⟩
    · intro hb
      simp [operatorBody, runLines, execLine, divLines, instructionText, hb]
    · intro hb
      simp [operatorBody, runLines, execLine, divLines, instructionText, hb]
    · intro hb
      simp [operatorBody, runLines, execLine, modLines, instructionText, hb]
  · intro n
    refine ⟨⟨addLines.take 4, rfl⟩, ⟨subLines.take 4, rfl⟩, ⟨mulLines.take 4, rfl⟩,
      ⟨divLines.take 8, rfl⟩⟩

/-- C24 on the integers with `7` pushed before `2`: the lines of `/` leave `7 / 2`. -/
theorem operator_blocks_operand_order_witness :
    runLines ⟨Int.add, Int.sub, Int.mul, Int.tdiv, 0, fun x y => x == y⟩
        (operatorBody "/".toList 0).1 ⟨[2, 7], 0, 0, false⟩ =
      .ok ⟨[Int.tdiv 7 2], Int.tdiv 7 2, 2, false⟩ :=
  (operator_blocks_operand_order.2.1 Int
    ⟨Int.add, Int.sub, Int.mul, Int.tdiv, 0, fun x y => x == y⟩ 7 2 0 0 false [] 0).2.2.2.1
    (by decide)

theorem category_names (number : Str → Bool) (w : Str) (ty : TokenType)
    (h : firstMatchingCategory number w = some ty) :
    (ty = .CONSTANT → w ∈ knownConstants) ∧ (ty = .STACK_OP → w ∈ knownStackOps) ∧
      (ty = .FUNCTION → w ∈ knownFunctions) ∧ (ty = .OPERATOR → w ∈ knownOperators) := by
  unfold firstMatchingCategory at h
  split_ifs at h with h1 h2 h3 h4 h5
  all_goals cases h
  all_goals (refine ⟨?_, ?_, ?_, ?_⟩ <;> intro e <;> first | assumption | cases e)

/-- A property of the blocks that holds for each token made by the loop body of
`tokenize` holds along the token loop, which leaves the table of arities as the
constructor made it. -/
theorem emitBlocks_classified (P : Token → List Str → Prop) (uf : StodValue → Bool)
    (showDouble : StreamFmt → StodValue → Str) (fmt : StreamFmt)
    (hP : ∀ w t n b a1 c1, classify uf Compiler.new w = .ok t →
      emitToken showDouble fmt t Compiler.new.operatorArities n = .ok (b, a1, c1) → P t b)
    (tokens : List Token) (n : Int)
    (h : ∀ t ∈ tokens, ∃ w, classify uf Compiler.new w = .ok t) :
    ∃ blocks c1, emitBlocks showDouble fmt tokens Compiler.new.operatorArities n =
        .ok (blocks, Compiler.new.operatorArities, c1) ∧
      List.Forall₂ P tokens blocks := by
  induction tokens generalizing n with
  | nil => exact ⟨[], _, rfl, List.Forall₂.nil⟩
  | cons t rest ih =>
    obtain ⟨w, hw⟩ := h t (List.mem_cons_self _ _)
    obtain ⟨b, c1, e1, _⟩ := emitToken_depthChecked uf showDouble fmt w t n hw
    obtain ⟨blocks, c2, e2, hf⟩ := ih c1 (fun u hu => h u (List.mem_cons_of_mem _ hu))
    refine ⟨b :: blocks, c2, ?_, List.Forall₂.cons (hP w t n b _ c1 hw e1) hf⟩
    simp only [emitBlocks, e1, e2]

theorem tokenize_classified (uf : StodValue → Bool) (C : Compiler) (expression : Str)
    (tokens : List Token) (h : tokenize uf C expression = .ok tokens) :
    ∀ t ∈ tokens, ∃ w, classify uf C w = .ok t := by
  rw [tokenize_eq] at h
  intro t ht
  rcases classifyAll_mem uf C _ [] tokens h t ht with hm | hm
  · cases hm
  · exact hm

theorem swap_block_keeps_counter :
    ∀ l ∈ ("    ; Process token: ".toList ++ "swap".toList) ::
      depthCheck (StrMap.index 0 Compiler.new.operatorArities "swap".toList).1 ++
      stackOpBody "swap".toList ++ [[]], writesDepthCounter l = false := by
  decide

/-- The balance of the block written for a token that the loop body of `tokenize`
made. -/
theorem emitToken_balance (uf : StodValue → Bool)
    (showDouble : StreamFmt → StodValue → Str) (fmt : StreamFmt) (w : Str) (t : Token)
    (n : Int) (b : List Str) (a1 : StrMap Int) (c1 : Int)
    (hc : classify uf Compiler.new w = .ok t)
    (he : emitToken showDouble fmt t Compiler.new.operatorArities n = .ok (b, a1, c1)) :
    (countCalls "push_stack".toList b : Int) - countCalls "pop_stack".toList b =
        netStackEffect t ∧
      (t.type = .STACK_OP → t.strValue = "swap".toList →
        countCalls "push_stack".toList b = 0 ∧ countCalls "pop_stack".toList b = 0 ∧
          ∀ l ∈ b, writesDepthCounter l = false) ∧
      (t.type = .STACK_OP → t.strValue = "dup".toList →
        countCalls "push_stack".toList b = 2 ∧ countCalls "pop_stack".toList b = 1) := by
  have hinit := classify_initialized uf Compiler.new w t hc
  rcases classify_spec uf w with ⟨t1, h1, h2, h3⟩ | ⟨h1, _⟩
  · rw [h1] at hc
    cases hc
    obtain ⟨hcn, hsn, hfn, hon⟩ := category_names _ w _ h3
    obtain ⟨ty, sv, nv⟩ := t
    simp only at h2 hcn hsn hfn hon
    subst h2
    cases ty with
    | NUMBER =>
      have hv := hinit rfl
      cases nv with
      | none => cases hv
      | some v =>
        cases he
        exact ⟨rfl, (fun e => by cases e), (fun e => by cases e)⟩
    | CONSTANT =>
      cases he
      exact ⟨rfl, (fun e => by cases e), (fun e => by cases e)⟩
    | OPERATOR =>
      have := hon rfl
      simp only [knownOperators, List.mem_cons, List.mem_singleton, List.not_mem_nil,
        or_false] at this
      rcases this with rfl | rfl | rfl | rfl | rfl | rfl | rfl <;> cases he <;>
        exact ⟨rfl, (fun e => by cases e), (fun e => by cases e)⟩
    | FUNCTION =>
      have := hfn rfl
      simp only [knownFunctions, List.mem_cons, List.mem_singleton, List.not_mem_nil,
        or_false] at this
      rcases this with rfl | rfl | rfl | rfl | rfl <;> cases he <;>
        exact ⟨rfl, (fun e => by cases e), (fun e => by cases e)⟩
    | STACK_OP =>
      have := hsn rfl
      simp only [knownStackOps, List.mem_cons, List.mem_singleton, List.not_mem_nil,
        or_false] at this
      rcases this with rfl | rfl <;> cases he
      · exact ⟨rfl, (fun _ _ => ⟨rfl, rfl, swap_block_keeps_counter⟩),
          (fun _ e => absurd (show "swap".toList = "dup".toList from e) (by decide))⟩
      · exact ⟨rfl, (fun _ e => absurd (show "dup".toList = "swap".toList from e) (by decide)),
          (fun _ _ => ⟨rfl, rfl⟩)⟩
  · rw [h1] at hc; cases hc

/-- C25: for the tokens that `tokenize` returns the token loop writes one block for each
token, and in each block the number of `call push_stack` lines minus the number of
`call pop_stack` lines is the net stack effect of the token: `+1` for a Number or
Constant, `-1` for `+ - * / ^ %`, `0` for `!`, `abs`, `sin`, `cos`, `tan`, `sqrt` and
`swap`, `+1` for `dup`, whose block has one pop and two pushes; the block of `swap` calls
neither routine and has no line that writes `r12`. -/
theorem blocks_push_pop_balance (uf : StodValue → Bool)
    (showDouble : StreamFmt → StodValue → Str) (fmt : StreamFmt) (expression : Str)
    (tokens : List Token) (h : tokenize uf Compiler.new expression = .ok tokens) :
    ∃ blocks counter,
      emitBlocks showDouble fmt tokens Compiler.new.operatorArities 0 =
        .ok (blocks, Compiler.new.operatorArities, counter) ∧
      List.Forall₂ (fun t b =>
        (countCalls "push_stack".toList b : Int) - countCalls "pop_stack".toList b =
          netStackEffect t ∧
        (t.type = .STACK_OP → t.strValue = "swap".toList →
          countCalls "push_stack".toList b = 0 ∧ countCalls "pop_stack".toList b = 0 ∧
            ∀ l ∈ b, writesDepthCounter l = false) ∧
        (t.type = .STACK_OP → t.strValue = "dup".toList →
          countCalls "push_stack".toList b = 2 ∧ countCalls "pop_stack".toList b = 1))
        tokens blocks :=
  emitBlocks_classified _ uf showDouble fmt
    (fun w t n b a1 c1 hc he => emitToken_balance uf showDouble fmt w t n b a1 c1 hc he)
    tokens 0 (tokenize_classified uf Compiler.new expression tokens h)

/-- C25 at the expression `1 dup swap`, the doubles written as `1`. -/
theorem blocks_push_pop_balance_witness :
    ∃ blocks counter,
      emitBlocks (fun _ _ => "1".toList) StreamFmt.initial
          [⟨.NUMBER, "1".toList, some (.finite false false 1 0)⟩,
           ⟨.STACK_OP, "dup".toList, none⟩, ⟨.STACK_OP, "swap".toList, none⟩]
          Compiler.new.operatorArities 0 =
        .ok (blocks, Compiler.new.operatorArities, counter) ∧
      List.Forall₂ (fun t b =>
        (countCalls "push_stack".toList b : Int) - countCalls "pop_stack".toList b =
          netStackEffect t ∧
        (t.type = .STACK_OP → t.strValue = "swap".toList →
          countCalls "push_stack".toList b = 0 ∧ countCalls "pop_stack".toList b = 0 ∧
            ∀ l ∈ b, writesDepthCounter l = false) ∧
        (t.type = .STACK_OP → t.strValue = "dup".toList →
          countCalls "push_stack".toList b = 2 ∧ countCalls "pop_stack".toList b = 1))
        [⟨.NUMBER, "1".toList, some (.finite false false 1 0)⟩,
         ⟨.STACK_OP, "dup".toList, none⟩, ⟨.STACK_OP, "swap".toList, none⟩] blocks :=
  blocks_push_pop_balance (fun _ => true) (fun _ _ => "1".toList) StreamFmt.initial
    "1 dup swap".toList _ rfl

/-- C26 on the code: the literal of a Number token is written with the format flags that
the stream has when the token loop runs, and the declaration loop leaves `std::fixed` and
`std::setprecision(17)` set once it has met a Constant token. For the tokens of `3 4 +`
the block of `3` holds the literal that the default format gives, for the tokens of
`3 pi +` the literal that the fixed format with 17 decimals gives; when `operator<<`
writes the two as `3` and `3.00000000000000000`, the blocks of the same token differ. -/
theorem number_block_depends_on_constants (showDouble : StreamFmt → StodValue → Str) :
    (∀ uf, tokenize uf Compiler.new "3 4 +".toList =
      .ok [⟨.NUMBER, "3".toList, some (.finite false false 3 0)⟩,
        ⟨.NUMBER, "4".toList, some (.finite false false 4 0)⟩,
        ⟨.OPERATOR, "+".toList, none⟩]) ∧
    (∀ uf, tokenize uf Compiler.new "3 pi +".toList =
      .ok [⟨.NUMBER, "3".toList, some (.finite false false 3 0)⟩,
        ⟨.CONSTANT, "pi".toList, none⟩, ⟨.OPERATOR, "+".toList, none⟩]) ∧
    (programLines showDouble Compiler.new
        [⟨.NUMBER, "3".toList, some (.finite false false 3 0)⟩,
          ⟨.NUMBER, "4".toList, some (.finite false false 4 0)⟩,
          ⟨.OPERATOR, "+".toList, none⟩]).map (fun r => (r.1.drop 22).take 5) =
      .ok ["    ; Process token: 3".toList, "    ; Push number onto stack".toList,
        "    movsd xmm0, __float64__(".toList ++
          showDouble ⟨false, 6⟩ (.finite false false 3 0) ++ ")".toList,
        "    call push_stack".toList, []] ∧
    (programLines showDouble Compiler.new
        [⟨.NUMBER, "3".toList, some (.finite false false 3 0)⟩,
          ⟨.CONSTANT, "pi".toList, none⟩, ⟨.OPERATOR, "+".toList, none⟩]).map
        (fun r => (r.1.drop 23).take 5) =
      .ok ["    ; Process token: 3".toList, "    ; Push number onto stack".toList,
        "    movsd xmm0, __float64__(".toList ++
          showDouble ⟨true, 17⟩ (.finite false false 3 0) ++ ")".toList,
        "    call push_stack".toList, []] ∧
    (showDouble ⟨false, 6⟩ (.finite false false 3 0) = "3".toList →
      showDouble ⟨true, 17⟩ (.finite false false 3 0) = "3.00000000000000000".toList →
      "    movsd xmm0, __float64__(".toList ++
          showDouble ⟨false, 6⟩ (.finite false false 3 0) ++ ")".toList ≠
        "    movsd xmm0, __float64__(".toList ++
          showDouble ⟨true, 17⟩ (.finite false false 3 0) ++ ")".toList) := by
  refine ⟨fun _ => rfl, fun _ => rfl, rfl, rfl, ?_⟩
  intro h1 h2
  rw [h1, h2]
  decide

/-- C26 with a stand-in for `operator<<` that writes every double as it writes `3`. -/
theorem number_block_depends_on_constants_witness :
    "    movsd xmm0, __float64__(".toList ++
        (fun (f : StreamFmt) (_ : StodValue) =>
          if f.fixed then "3.00000000000000000".toList else "3".toList)
          ⟨false, 6⟩ (.finite false false 3 0) ++ ")".toList ≠
      "    movsd xmm0, __float64__(".toList ++
        (fun (f : StreamFmt) (_ : StodValue) =>
          if f.fixed then "3.00000000000000000".toList else "3".toList)
          ⟨true, 17⟩ (.finite false false 3 0) ++ ")".toList :=
  (number_block_depends_on_constants
    (fun f _ => if f.fixed then "3.00000000000000000".toList else "3".toList)).2.2.2.2
    rfl rfl

/-- The text that `generateAssembly` returns is its lines, each followed by a line
feed. -/
theorem generateAssembly_eq_programLines (showDouble : StreamFmt → StodValue → Str)
    (C : Compiler) (tokens : List Token) :
    generateAssembly showDouble C tokens =
      (programLines showDouble C tokens).map fun r => (unlines r.1, r.2) := by
  unfold generateAssembly programLines
  simp only
  cases emitTokens showDouble
    (declareConstants showDouble tokens C.constants StreamFmt.initial).2.2 tokens
    C.operatorArities 0 with
  | error u => rfl
  | ok r => rfl

theorem splitOn_of_not_mem (w : Str) (h : ' ' ∉ w) : w.splitOn ' ' = [w] := by
  unfold List.splitOn
  refine List.splitOnP_eq_single _ _ ?_
  intro x hx hxe
  have : x = ' ' := by simpa using hxe
  exact h (this ▸ hx)

theorem greedyFold_regroups (l : List Str) (h : ∀ w ∈ l, ' ' ∉ w) :
    ((greedyFold l).map fun w => w.splitOn ' ').flatten = l := by
  generalize hn : l.length = n
  induction n using Nat.strong_induction_on generalizing l with
  | _ n ih =>
    cases l with
    | nil => simp [greedyFold_nil]
    | cons w rest =>
      have hw : ' ' ∉ w := h w (List.mem_cons_self _ _)
      have hrest : ∀ k, ∀ x ∈ rest.drop k, ' ' ∉ x :=
        fun k x hx => h x (List.mem_cons_of_mem _ (List.mem_of_mem_drop hx))
      have hlen : ∀ k, (rest.drop k).length < n := by
        intro k; rw [← hn]; simp only [List.length_drop, List.length_cons]; omega
      rw [greedyFold_cons]
      split_ifs with h1 h2 h3
      · simp only [List.map_cons, List.flatten_cons, ih _ (hlen 3) _ (hrest 3) rfl]
        obtain ⟨rfl, ht⟩ := h1
        conv_rhs => rw [← List.take_append_drop 3 rest, ht]
        rfl
      · simp only [List.map_cons, List.flatten_cons, ih _ (hlen 2) _ (hrest 2) rfl]
        obtain ⟨rfl, ht⟩ := h2
        conv_rhs => rw [← List.take_append_drop 2 rest, ht]
        rfl
      · simp only [List.map_cons, List.flatten_cons, ih _ (hlen 1) _ (hrest 1) rfl]
        obtain ⟨rfl, ht⟩ := h3
        conv_rhs => rw [← List.take_append_drop 1 rest, ht]
        rfl
      · have := ih _ (hlen 0) (rest.drop 0) (hrest 0) rfl
        simp only [List.drop_zero] at this
        simp only [List.map_cons, List.flatten_cons, this, splitOn_of_not_mem w hw]
        rfl

/-- C29: splitting each element of the result of `tokenizeNaturalLanguage` at its spaces
and concatenating the pieces gives the cleaned words (the whitespace-delimited words,
lower-cased, without their punctuation other than `.`, the empty ones dropped) in their
order: folding loses, adds and reorders no word. -/
theorem tokenizeNaturalLanguage_regroups (sentence : Str) :
    ((tokenizeNaturalLanguage sentence).map fun w => w.splitOn ' ').flatten =
        cleanedWords sentence ∧
      cleanedWords sentence =
        ((wordsOf sentence).map cleanWord).filter fun w => !w.isEmpty := by
  refine ⟨?_, cleanedWords_eq sentence⟩
  rw [tokenizeNaturalLanguage_eq]
  exact greedyFold_regroups _ (cleanedWords_no_space sentence)

theorem stackAlphabet_no_operand : ∀ x ∈ stackAlphabet, isOperandToken x = false := by
  decide

theorem filter_operands_of_stack (xs : List Str) (h : ∀ x ∈ xs, x ∈ stackAlphabet) :
    xs.filter isOperandToken = [] := by
  rw [List.filter_eq_nil_iff]
  intro x hx
  rw [stackAlphabet_no_operand x (h x hx)]
  exact Bool.false_ne_true

/-- One token of `infixToRPN`: what is appended to the output holds the token when it is
an operand, and otherwise only what was on the stack. -/
theorem processToken_appends (token : Str) (s s1 : RPNState)
    (hstack : ∀ x ∈ s.operatorStack, x ∈ stackAlphabet) (hP : tablesKept s.P)
    (h : processToken token s = .ok s1) :
    (∀ x ∈ s1.operatorStack, x ∈ stackAlphabet) ∧ tablesKept s1.P ∧
      ∃ extra, s1.result = s.result ++ spaced extra ∧
        extra.filter isOperandToken = if isOperandToken token then [token] else [] := by
  unfold processToken at h
  by_cases h1 : isOperandToken token = true
  · rw [if_pos h1] at h
    cases h
    exact ⟨hstack, hP, [token], by simp [spaced], by simp [h1]⟩
  · rw [if_neg h1] at h
    have h1f : isOperandToken token = false := by simpa using h1
    simp only [h1f, Bool.false_eq_true, if_false]
    by_cases h2 : isPushedToken token = true
    · rw [if_pos h2] at h
      cases h
      have hmem : token ∈ stackAlphabet := by
        have : token = "(".toList ∨ token = "sin".toList ∨ token = "cos".toList ∨
            token = "tan".toList ∨ token = "sqrt".toList := by
          simpa [isPushedToken, or_assoc] using h2
        rcases this with rfl | rfl | rfl | rfl | rfl <;> decide
      refine ⟨?_, hP, [], by simp [spaced], rfl⟩
      intro x hx
      rcases List.mem_cons.mp hx with rfl | hx
      · exact hmem
      · exact hstack x hx
    · rw [if_neg h2] at h
      by_cases h3 : token = ")".toList
      · rw [if_pos h3] at h
        obtain ⟨popped, rest, e1, e2, _, e4⟩ := closeParenLoop_split s.operatorStack s.result
        have hpop : ∀ x ∈ popped, x ∈ stackAlphabet :=
          fun x hx => hstack x (by rw [e1]; exact List.mem_append_left _ hx)
        have hrest : ∀ x ∈ rest, x ∈ stackAlphabet :=
          fun x hx => hstack x (by rw [e1]; exact List.mem_append_right _ hx)
        rw [e2] at h
        rcases e4 with rfl | ⟨tl, rfl⟩
        · simp only at h
          cases h
          exact ⟨by simp, hP, popped, rfl, filter_operands_of_stack popped hpop⟩
        · simp only [if_true] at h
          cases h
          exact ⟨fun x hx => hrest x (List.mem_cons_of_mem _ hx), hP, popped, rfl,
            filter_operands_of_stack popped hpop⟩
      · rw [if_neg h3] at h
        by_cases h4 : isOperatorToken token = true
        · rw [if_pos h4] at h
          cases hl : operatorLoop token s.operatorStack s.P s.result with
          | error u => rw [hl] at h; cases h
          | ok r =>
            obtain ⟨stack1, P1, result1⟩ := r
            rw [hl] at h
            cases h
            obtain ⟨popped, e1, e2, _, e4⟩ :=
              operatorLoop_kept token h4 _ _ _ hstack hP _ _ _ hl
            have hmem : token ∈ stackAlphabet := by
              rcases mem_operators token h4 with rfl | rfl | rfl | rfl | rfl | rfl | rfl <;>
                decide
            have hpop : ∀ x ∈ popped, x ∈ stackAlphabet :=
              fun x hx => hstack x (by rw [e1]; exact List.mem_append_left _ hx)
            refine ⟨?_, e4, popped, e2, filter_operands_of_stack popped hpop⟩
            intro x hx
            rcases List.mem_cons.mp hx with rfl | hx
            · exact hmem
            · exact hstack x (by rw [e1]; exact List.mem_append_right _ hx)
        · rw [if_neg h4] at h
          cases h
          exact ⟨hstack, hP, [], by simp [spaced], rfl⟩

theorem processTokens_appends (tokens : List Str) (s s1 : RPNState)
    (hstack : ∀ x ∈ s.operatorStack, x ∈ stackAlphabet) (hP : tablesKept s.P)
    (h : processTokens tokens s = .ok s1) :
    (∀ x ∈ s1.operatorStack, x ∈ stackAlphabet) ∧
      ∃ extra, s1.result = s.result ++ spaced extra ∧
        extra.filter isOperandToken = tokens.filter isOperandToken := by
  induction tokens generalizing s with
  | nil =>
    cases h
    exact ⟨hstack, [], by simp [spaced], rfl⟩
  | cons t rest ih =>
    simp only [processTokens] at h
    cases hp : processToken t s with
    | error u => rw [hp] at h; cases h
    | ok s2 =>
      rw [hp] at h
      obtain ⟨k1, k2, extra1, e1, f1⟩ := processToken_appends t s s2 hstack hP hp
      obtain ⟨k3, extra2, e2, f2⟩ := ih s2 k1 k2 h
      refine ⟨k3, extra1 ++ extra2, ?_, ?_⟩
      · rw [e2, e1, spaced_append, List.append_assoc]
      · rw [List.filter_append, f1, f2, List.filter_cons]
        by_cases ht : isOperandToken t = true <;> simp [ht]

/-- C30 on the code: `2 ^ 3` reaches the undefined `top()` of the empty stack and returns
nothing. Whenever `infixToRPN` returns, and it does for every token sequence without `^`,
its output is a sequence of words, each followed by one space, whose operands (leading
digit, or `-` followed by a digit, or `pi`, `e`) are the operand tokens of the input in
the same order. -/
theorem infixToRPN_operand_order :
    infixToRPN NaturalLanguageProcessor.new ["2".toList, "^".toList, "3".toList] =
      .error .top_of_empty_stack ∧
    (∀ (tokens : List Str) (text : Str) (P1 : NaturalLanguageProcessor),
      infixToRPN NaturalLanguageProcessor.new tokens = .ok (text, P1) →
      ∃ out, text = spaced out ∧
        out.filter isOperandToken = tokens.filter isOperandToken) ∧
    (∀ tokens : List Str, "^".toList ∉ tokens →
      ∃ r, infixToRPN NaturalLanguageProcessor.new tokens = .ok r) := by
  refine ⟨rfl, ?_, ?_⟩
  · intro tokens text P1 h
    unfold infixToRPN at h
    cases hp : processTokens tokens ⟨NaturalLanguageProcessor.new, [], []⟩ with
    | error u => rw [hp] at h; cases h
    | ok s =>
      rw [hp] at h
      cases h
      obtain ⟨hs, extra, e1, f1⟩ := processTokens_appends tokens _ s (by simp)
        tablesKept_new hp
      refine ⟨extra ++ pendingOutput s.operatorStack, ?_, ?_⟩
      · rw [drainStack_eq, e1, spaced_append]; rfl
      · rw [List.filter_append, f1, filter_operands_of_stack (pendingOutput s.operatorStack)
          (fun x hx => hs x (List.mem_of_mem_filter hx))]
        simp
  · intro tokens hc
    obtain ⟨s1, hs1⟩ := processTokens_returns tokens hc ⟨NaturalLanguageProcessor.new, [], []⟩
      [] (by simp) tablesKept_new rfl
    exact ⟨(drainStack s1.operatorStack s1.result, s1.P), by simp only [infixToRPN, hs1]⟩

/-- C30 at `2 + 3 * 4`, whose operands come out as `2`, `3`, `4`. -/
theorem infixToRPN_operand_order_witness :
    ∃ out, "2 3 4 * + ".toList = spaced out ∧
      out.filter isOperandToken =
        ["2".toList, "+".toList, "3".toList, "*".toList, "4".toList].filter isOperandToken :=
  infixToRPN_operand_order.2.1
    ["2".toList, "+".toList, "3".toList, "*".toList, "4".toList] _ _ rfl

theorem operatorLoopCond_exact (token top : Str) (rest : List Str)
    (ht : isOperatorToken token = true) (htop : top ∈ stackAlphabet)
    (hopen : top ≠ "(".toList) :
    ∃ b, operatorLoopCond token (top :: rest) NaturalLanguageProcessor.new =
      .ok (b, NaturalLanguageProcessor.new) := by
  simp only [stackAlphabet, List.mem_cons, List.mem_singleton, List.mem_nil_iff,
    or_false] at htop
  rcases mem_operators token ht with rfl | rfl | rfl | rfl | rfl | rfl | rfl <;>
    rcases htop with rfl | rfl | rfl | rfl | rfl | rfl | rfl | rfl | rfl | rfl | rfl | rfl <;>
    first
      | exact absurd rfl hopen
      | exact ⟨true, rfl⟩
      | exact ⟨false, rfl⟩

theorem operatorLoopCond_nil_exact (token : Str) (b : Bool) (P1 : NaturalLanguageProcessor)
    (ht : isOperatorToken token = true)
    (h : operatorLoopCond token [] NaturalLanguageProcessor.new = .ok (b, P1)) :
    P1 = NaturalLanguageProcessor.new := by
  rcases mem_operators token ht with rfl | rfl | rfl | rfl | rfl | rfl | rfl <;>
    first
      | (cases h; rfl)
      | (rw [show operatorLoopCond "^".toList [] NaturalLanguageProcessor.new =
          .error .top_of_empty_stack from rfl] at h; cases h)

theorem operatorLoop_exact (token : Str) (ht : isOperatorToken token = true)
    (stack : List Str) (result : Str)
    (hstack : ∀ x ∈ stack, x ∈ stackAlphabet ∧ x ≠ "(".toList)
    (stack1 : List Str) (P1 : NaturalLanguageProcessor) (result1 : Str)
    (h : operatorLoop token stack NaturalLanguageProcessor.new result =
      .ok (stack1, P1, result1)) :
    P1 = NaturalLanguageProcessor.new ∧ ∀ x ∈ stack1, x ∈ stackAlphabet ∧ x ≠ "(".toList := by
  induction stack generalizing result with
  | nil =>
    unfold operatorLoop at h
    cases hc : operatorLoopCond token [] NaturalLanguageProcessor.new with
    | error u => rw [hc] at h; cases h
    | ok r =>
      obtain ⟨b, P2⟩ := r
      rw [hc] at h
      have hP2 := operatorLoopCond_nil_exact token b P2 ht hc
      cases b with
      | true => cases h
      | false => cases h; exact ⟨hP2, by simp⟩
  | cons top rest ih =>
    obtain ⟨b, hb⟩ := operatorLoopCond_exact token top rest ht
      (hstack top (List.mem_cons_self _ _)).1 (hstack top (List.mem_cons_self _ _)).2
    unfold operatorLoop at h
    rw [hb] at h
    cases b with
    | true =>
      exact ih _ (fun x hx => hstack x (List.mem_cons_of_mem _ hx)) h
    | false =>
      cases h
      exact ⟨rfl, hstack⟩

theorem closeParenLoop_no_open_stack (stack : List Str) (result : Str)
    (h : ∀ x ∈ stack, x ≠ "(".toList) : (closeParenLoop stack result).1 = [] := by
  induction stack generalizing result with
  | nil => rfl
  | cons top rest ih =>
    have htop := h top (List.mem_cons_self _ _)
    simp only [closeParenLoop, ne_eq, htop, not_false_eq_true, if_true]
    exact ih _ (fun x hx => h x (List.mem_cons_of_mem _ hx))

/-- One token other than the open parenthesis, met with no open parenthesis on the
stack, leaves the tables of the constructor as they are. -/
theorem processToken_exact (token : Str) (s s1 : RPNState)
    (hP : s.P = NaturalLanguageProcessor.new)
    (hstack : ∀ x ∈ s.operatorStack, x ∈ stackAlphabet ∧ x ≠ "(".toList)
    (htoken : token ≠ "(".toList) (h : processToken token s = .ok s1) :
    s1.P = NaturalLanguageProcessor.new ∧
      ∀ x ∈ s1.operatorStack, x ∈ stackAlphabet ∧ x ≠ "(".toList := by
  unfold processToken at h
  split_ifs at h with h1 h2 h3 h4
  · cases h; exact ⟨hP, hstack⟩
  · cases h
    refine ⟨hP, ?_⟩
    have hmem : token ∈ stackAlphabet := by
      have : token = "(".toList ∨ token = "sin".toList ∨ token = "cos".toList ∨
          token = "tan".toList ∨ token = "sqrt".toList := by
        simpa [isPushedToken, or_assoc] using h2
      rcases this with rfl | rfl | rfl | rfl | rfl <;> decide
    intro x hx
    rcases List.mem_cons.mp hx with rfl | hx
    · exact ⟨hmem, htoken⟩
    · exact hstack x hx
  · simp only [closeParenLoop_no_open_stack _ _ (fun x hx => (hstack x hx).2)] at h
    cases h
    exact ⟨hP, by simp⟩
  · rw [hP] at h
    cases hl : operatorLoop token s.operatorStack NaturalLanguageProcessor.new s.result with
    | error u => rw [hl] at h; cases h
    | ok r =>
      obtain ⟨stack1, P1, result1⟩ := r
      rw [hl] at h
      cases h
      obtain ⟨e1, e2⟩ := operatorLoop_exact token h4 _ _ hstack _ _ _ hl
      refine ⟨e1, ?_⟩
      have hmem : token ∈ stackAlphabet := by
        rcases mem_operators token h4 with rfl | rfl | rfl | rfl | rfl | rfl | rfl <;>
          decide
      intro x hx
      rcases List.mem_cons.mp hx with rfl | hx
      · exact ⟨hmem, htoken⟩
      · exact e2 x hx
  · cases h; exact ⟨hP, hstack⟩

theorem processTokens_exact (tokens : List Str) (s s1 : RPNState)
    (hP : s.P = NaturalLanguageProcessor.new)
    (hstack : ∀ x ∈ s.operatorStack, x ∈ stackAlphabet ∧ x ≠ "(".toList)
    (htokens : "(".toList ∉ tokens) (h : processTokens tokens s = .ok s1) :
    s1.P = NaturalLanguageProcessor.new := by
  induction tokens generalizing s with
  | nil => cases h; exact hP
  | cons t rest ih =>
    simp only [processTokens] at h
    cases hp : processToken t s with
    | error u => rw [hp] at h; cases h
    | ok s2 =>
      rw [hp] at h
      obtain ⟨k1, k2⟩ := processToken_exact t s s2 hP hstack
        (fun e => htokens (e ▸ List.mem_cons_self _ _)) hp
      exact ih s2 k1 k2 (fun hm => htokens (List.mem_cons_of_mem _ hm)) h

/-- Without an open parenthesis among its tokens `infixToRPN` leaves the tables of the
constructor as they are. -/
theorem infixToRPN_exact (tokens : List Str) (text : Str) (P1 : NaturalLanguageProcessor)
    (htokens : "(".toList ∉ tokens)
    (h : infixToRPN NaturalLanguageProcessor.new tokens = .ok (text, P1)) :
    P1 = NaturalLanguageProcessor.new := by
  unfold infixToRPN at h
  cases hp : processTokens tokens ⟨NaturalLanguageProcessor.new, [], []⟩ with
  | error u => rw [hp] at h; cases h
  | ok s =>
    rw [hp] at h
    cases h
    exact processTokens_exact tokens _ s rfl (by simp) htokens hp

theorem StrMap.find_mem {β : Type} (m : StrMap β) (k : Str) (v : β)
    (h : StrMap.find m k = some v) : ∃ p ∈ m, p.2 = v := by
  induction m with
  | nil => simp [StrMap.find] at h
  | cons p m ih =>
    obtain ⟨k1, v1⟩ := p
    unfold StrMap.find at h
    split_ifs at h with hk
    · cases h
      exact ⟨(k1, v), List.mem_cons_self _ _, rfl⟩
    · obtain ⟨q, hq, e⟩ := ih h
      exact ⟨q, List.mem_cons_of_mem _ hq, e⟩

theorem mapWords_snd (tokens : List Str) (P : NaturalLanguageProcessor) (acc : List Str) :
    (mapWords tokens P acc).2 = P := by
  induction tokens generalizing P acc with
  | nil => rfl
  | cons t rest ih =>
    unfold mapWords
    split_ifs with h1 h2 h3 h4
    · obtain ⟨v, hv⟩ := Option.isSome_iff_exists.mp h1
      simp only [StrMap.index_of_find _ _ _ v hv, ih]
    · obtain ⟨v, hv⟩ := Option.isSome_iff_exists.mp h2
      simp only [StrMap.index_of_find _ _ _ v hv, ih]
    · exact ih _ _
    · exact ih _ _
    · exact ih _ _

theorem mapWords_mem (tokens : List Str) (P : NaturalLanguageProcessor) (acc : List Str) :
    ∀ x ∈ (mapWords tokens P acc).1, x ∈ acc ∨ x ∈ tokens ∨
      (∃ p ∈ P.wordToNumber, p.2 = x) ∨ (∃ p ∈ P.wordToOperator, p.2 = x) := by
  induction tokens generalizing P acc with
  | nil => intro x hx; exact Or.inl hx
  | cons t rest ih =>
    unfold mapWords
    split_ifs with h1 h2 h3 h4
    · obtain ⟨v, hv⟩ := Option.isSome_iff_exists.mp h1
      simp only [StrMap.index_of_find _ _ _ v hv]
      intro x hx
      rcases ih _ _ x hx with h | h | h | h
      · rcases List.mem_append.mp h with h | h
        · exact Or.inl h
        · rw [List.mem_singleton] at h
          exact Or.inr (Or.inr (Or.inl (h ▸ StrMap.find_mem _ _ _ hv)))
      · exact Or.inr (Or.inl (List.mem_cons_of_mem _ h))
      · exact Or.inr (Or.inr (Or.inl h))
      · exact Or.inr (Or.inr (Or.inr h))
    · obtain ⟨v, hv⟩ := Option.isSome_iff_exists.mp h2
      simp only [StrMap.index_of_find _ _ _ v hv]
      intro x hx
      rcases ih _ _ x hx with h | h | h | h
      · rcases List.mem_append.mp h with h | h
        · exact Or.inl h
        · rw [List.mem_singleton] at h
          exact Or.inr (Or.inr (Or.inr (h ▸ StrMap.find_mem _ _ _ hv)))
      · exact Or.inr (Or.inl (List.mem_cons_of_mem _ h))
      · exact Or.inr (Or.inr (Or.inl h))
      · exact Or.inr (Or.inr (Or.inr h))
    · intro x hx
      rcases ih _ _ x hx with h | h | h | h
      · rcases List.mem_append.mp h with h | h
        · exact Or.inl h
        · rw [List.mem_singleton] at h
          exact Or.inr (Or.inl (h ▸ List.mem_cons_self _ _))
      · exact Or.inr (Or.inl (List.mem_cons_of_mem _ h))
      · exact Or.inr (Or.inr (Or.inl h))
      · exact Or.inr (Or.inr (Or.inr h))
    · intro x hx
      rcases ih _ _ x hx with h | h | h | h
      · exact Or.inl h
      · exact Or.inr (Or.inl (List.mem_cons_of_mem _ h))
      · exact Or.inr (Or.inr (Or.inl h))
      · exact Or.inr (Or.inr (Or.inr h))
    · intro x hx
      rcases ih _ _ x hx with h | h | h | h
      · rcases List.mem_append.mp h with h | h
        · exact Or.inl h
        · rw [List.mem_singleton] at h
          exact Or.inr (Or.inl (h ▸ List.mem_cons_self _ _))
      · exact Or.inr (Or.inl (List.mem_cons_of_mem _ h))
      · exact Or.inr (Or.inr (Or.inl h))
      · exact Or.inr (Or.inr (Or.inr h))

theorem greedyFold_mem (l : List Str) :
    ∀ x ∈ greedyFold l, x ∈ l ∨ x = phrasePower ∨ x = phraseRootOf ∨ x = phraseRoot := by
  generalize hn : l.length = n
  induction n using Nat.strong_induction_on generalizing l with
  | _ n ih =>
    cases l with
    | nil => intro x hx; simp [greedyFold_nil] at hx
    | cons w rest =>
      have hlen : ∀ k, (rest.drop k).length < n := by
        intro k; rw [← hn]; simp only [List.length_drop, List.length_cons]; omega
      have hsub : ∀ k x, (x ∈ rest.drop k ∨ x = phrasePower ∨ x = phraseRootOf ∨
          x = phraseRoot) → (x ∈ w :: rest ∨ x = phrasePower ∨ x = phraseRootOf ∨
          x = phraseRoot) := by
        intro k x hx
        rcases hx with h | h
        · exact Or.inl (List.mem_cons_of_mem _ (List.mem_of_mem_drop h))
        · exact Or.inr h
      rw [greedyFold_cons]
      intro x hx
      split_ifs at hx with h1 h2 h3
      · rcases List.mem_cons.mp hx with rfl | hx
        · exact Or.inr (Or.inl rfl)
        · exact hsub 3 x (ih _ (hlen 3) _ rfl x hx)
      · rcases List.mem_cons.mp hx with rfl | hx
        · exact Or.inr (Or.inr (Or.inl rfl))
        · exact hsub 2 x (ih _ (hlen 2) _ rfl x hx)
      · rcases List.mem_cons.mp hx with rfl | hx
        · exact Or.inr (Or.inr (Or.inr rfl))
        · exact hsub 1 x (ih _ (hlen 1) _ rfl x hx)
      · rcases List.mem_cons.mp hx with rfl | hx
        · exact Or.inl (List.mem_cons_self _ _)
        · have := ih _ (hlen 0) (rest.drop 0) rfl x (by simpa using hx)
          exact hsub 0 x this

theorem cleanedWords_no_open (sentence : Str) : ∀ w ∈ cleanedWords sentence, '(' ∉ w := by
  rw [cleanedWords_eq]
  intro w hw hp
  unfold cleanedWordsSpec at hw
  obtain ⟨hw, _⟩ := List.mem_filter.mp hw
  obtain ⟨raw, _, rfl⟩ := List.mem_map.mp hw
  unfold cleanWord at hp
  have := (List.mem_filter.mp hp).2
  revert this
  decide

/-- No open parenthesis reaches `infixToRPN` through `convertToRPN`. -/
theorem infixStream_no_open (sentence : Str) :
    "(".toList ∉ (infixStream NaturalLanguageProcessor.new sentence).1 := by
  intro hm
  unfold infixStream at hm
  rcases mapWords_mem _ _ _ _ hm with h | h | h | h
  · cases h
  · rw [tokenizeNaturalLanguage_eq] at h
    rcases greedyFold_mem _ _ h with h | h | h | h
    · exact cleanedWords_no_open sentence _ h (by decide)
    · revert h; decide
    · revert h; decide
    · revert h; decide
  · obtain ⟨p, hp, e⟩ := h
    revert p; decide
  · obtain ⟨p, hp, e⟩ := h
    revert p; decide

theorem classify_constant_known (uf : StodValue → Bool) (w : Str) (t : Token)
    (h : classify uf Compiler.new w = .ok t) (hty : t.type = .CONSTANT) :
    t.strValue ∈ knownConstants := by
  rcases classify_spec uf w with ⟨t1, h1, h2, h3⟩ | ⟨h1, _⟩
  · rw [h1] at h
    cases h
    rw [h2]
    exact (category_names _ w _ h3).1 hty
  · rw [h1] at h; cases h

theorem declareConstants_constants (showDouble : StreamFmt → StodValue → Str)
    (tokens : List Token) (fmt : StreamFmt)
    (h : ∀ t ∈ tokens, t.type = .CONSTANT → t.strValue ∈ knownConstants) :
    (declareConstants showDouble tokens Compiler.new.constants fmt).2.1 =
      Compiler.new.constants := by
  induction tokens generalizing fmt with
  | nil => rfl
  | cons t rest ih =>
    have hrest := fun u hu => h u (List.mem_cons_of_mem _ hu)
    unfold declareConstants
    split_ifs with hty
    · have hk := h t (List.mem_cons_self _ _) hty
      have hidx : (StrMap.index (StodValue.finite false false 0 0) Compiler.new.constants
          t.strValue).2 = Compiler.new.constants := by
        simp only [knownConstants, List.mem_cons, List.mem_singleton, List.not_mem_nil,
          or_false] at hk
        rcases hk with e | e <;> rw [e] <;> rfl
      simp only [hidx]
      exact ih _ hrest
    · exact ih _ hrest

/-- For the tokens that `tokenize` returns `generateAssembly` leaves both tables of the
compiler as the constructor made them. -/
theorem generateAssembly_keeps_tables (uf : StodValue → Bool)
    (showDouble : StreamFmt → StodValue → Str) (expression : Str) (tokens : List Token)
    (text : Str) (C1 : Compiler) (ht : tokenize uf Compiler.new expression = .ok tokens)
    (h : generateAssembly showDouble Compiler.new tokens = .ok (text, C1)) :
    C1 = Compiler.new := by
  have hcl := tokenize_classified uf Compiler.new expression tokens ht
  obtain ⟨blocks, c1, e1, _⟩ := emitBlocks_classified (fun _ _ => True) uf showDouble
    (declareConstants showDouble tokens Compiler.new.constants StreamFmt.initial).2.2
    (fun _ _ _ _ _ _ _ _ => trivial) tokens 0 hcl
  have e2 := emitTokens_eq_flatten showDouble
    (declareConstants showDouble tokens Compiler.new.constants StreamFmt.initial).2.2
    tokens Compiler.new.operatorArities 0
  rw [e1] at e2
  unfold generateAssembly at h
  simp only [e2, Except.map] at h
  cases h
  have hc := declareConstants_constants showDouble tokens StreamFmt.initial
    (fun t ht2 hty => by
      obtain ⟨w, hw⟩ := hcl t ht2
      exact classify_constant_known uf w t hw hty)
  rw [hc]

/-- C27 on the code. `compileToString` on the compiler as constructed leaves
`operatorArities` and `constants` as they were, so a second call returns what the first
returned. `convertToRPN` on the processor as constructed leaves its four tables as they
were whenever it returns, and it returns whenever no `^` reaches `infixToRPN`; but
`two power three` reaches the undefined `top()` of the empty stack, and nothing is
guaranteed there. -/
theorem tables_read_only :
    (∀ (uf : StodValue → Bool) (showDouble : StreamFmt → StodValue → Str)
      (expression text : Str) (C1 : Compiler),
      compileToString uf showDouble Compiler.new expression = .ok (text, C1) →
      C1 = Compiler.new ∧ compileToString uf showDouble C1 expression = .ok (text, C1)) ∧
    (∀ (sentence text : Str) (P1 : NaturalLanguageProcessor),
      convertToRPN NaturalLanguageProcessor.new sentence = .ok (text, P1) →
      P1 = NaturalLanguageProcessor.new ∧ convertToRPN P1 sentence = .ok (text, P1)) ∧
    (∀ sentence : Str,
      "^".toList ∉ (infixStream NaturalLanguageProcessor.new sentence).1 →
      ∃ r, convertToRPN NaturalLanguageProcessor.new sentence = .ok r) ∧
    convertToRPN NaturalLanguageProcessor.new "two power three".toList =
      .error .top_of_empty_stack := by
  refine ⟨?_, ?_, ?_, by decide⟩
  · intro uf showDouble expression text C1 h
    have h0 := h
    unfold compileToString at h
    cases ht : tokenize uf Compiler.new expression with
    | error e => rw [ht] at h; cases h
    | ok tokens =>
      rw [ht] at h
      simp only at h
      cases hg : generateAssembly showDouble Compiler.new tokens with
      | error u => rw [hg] at h; cases h
      | ok r =>
        rw [hg] at h
        cases h
        have := generateAssembly_keeps_tables uf showDouble expression tokens text C1 ht hg
        subst this
        exact ⟨rfl, h0⟩
  · intro sentence text P1 h
    have h0 := h
    unfold convertToRPN at h
    simp only at h
    have hP : (infixStream NaturalLanguageProcessor.new sentence).2 =
        NaturalLanguageProcessor.new := mapWords_snd _ _ _
    rw [hP] at h
    have := infixToRPN_exact _ text P1 (infixStream_no_open sentence) h
    subst this
    exact ⟨rfl, h0⟩
  · intro sentence hc
    have hP : (infixStream NaturalLanguageProcessor.new sentence).2 =
        NaturalLanguageProcessor.new := mapWords_snd _ _ _
    obtain ⟨s1, hs1⟩ := processTokens_returns _ hc
      ⟨NaturalLanguageProcessor.new, [], []⟩ [] (by simp) tablesKept_new rfl
    refine ⟨(drainStack s1.operatorStack s1.result, s1.P), ?_⟩
    unfold convertToRPN
    simp only [hP, infixToRPN, hs1]

/-- C27 at the sentence `three plus four`, on which `convertToRPN` returns `3 4 +`. -/
theorem tables_read_only_witness :
    NaturalLanguageProcessor.new = NaturalLanguageProcessor.new ∧
      convertToRPN NaturalLanguageProcessor.new "three plus four".toList =
        .ok ("3 4 + ".toList, NaturalLanguageProcessor.new) :=
  tables_read_only.2.1 "three plus four".toList "3 4 + ".toList NaturalLanguageProcessor.new
    (by decide)

theorem digitChar_isdigit (n : Nat) (h : n < 10) :
    isdigit (Nat.digitChar n) = true ∧ (Nat.digitChar n).toNat - 48 = n := by
  interval_cases n <;> exact ⟨by decide, by decide⟩

/-- The digits that `Nat.toDigitsCore` puts in front of the accumulator are decimal
digits, and read back from left to right they give the number. -/
theorem toDigitsCore_decode (fuel n : Nat) (acc : List Char) (h : n < fuel) :
    ∃ ds, Nat.toDigitsCore 10 fuel n acc = ds ++ acc ∧ (∀ c ∈ ds, isdigit c = true) ∧
      ∀ init : Nat, ds.foldl (fun m c => 10 * m + (c.toNat - 48)) init =
        init * 10 ^ ds.length + n := by
  induction fuel generalizing n acc with
  | zero => omega
  | succ fuel ih =>
    obtain ⟨hd1, hd2⟩ := digitChar_isdigit (n % 10) (Nat.mod_lt _ (by decide))
    unfold Nat.toDigitsCore
    simp only
    split_ifs with h0
    · refine ⟨[Nat.digitChar (n % 10)], rfl, ?_, ?_⟩
      · intro c hc
        rw [List.mem_singleton] at hc
        rw [hc]; exact hd1
      · intro init
        simp only [List.foldl_cons, List.foldl_nil, hd2, List.length_singleton, pow_one]
        have : n % 10 = n := Nat.mod_eq_of_lt (by omega)
        omega
    · have hlt : n / 10 < fuel := by omega
      obtain ⟨ds, e1, e2, e3⟩ := ih (n / 10) (Nat.digitChar (n % 10) :: acc) hlt
      refine ⟨ds ++ [Nat.digitChar (n % 10)], ?_, ?_, ?_⟩
      · rw [e1]; simp
      · intro c hc
        rcases List.mem_append.mp hc with hc | hc
        · exact e2 c hc
        · rw [List.mem_singleton] at hc
          rw [hc]; exact hd1
      · intro init
        simp only [List.foldl_append, List.foldl_cons, List.foldl_nil, e3, hd2,
          List.length_append, List.length_singleton, pow_succ]
        have := Nat.div_add_mod n 10
        nlinarith [Nat.div_add_mod n 10]

theorem natRepr_decode (n : Nat) :
    decVal (Nat.repr n).toList = n ∧ ∀ c ∈ (Nat.repr n).toList, isdigit c = true := by
  obtain ⟨ds, e1, e2, e3⟩ := toDigitsCore_decode (n + 1) n [] (by omega)
  have e : (Nat.repr n).toList = ds := by
    unfold Nat.repr Nat.toDigits
    rw [e1, List.append_nil]
    rfl
  rw [e]
  refine ⟨?_, e2⟩
  have := e3 0
  simpa [decVal] using this

theorem natRepr_injective (a b : Nat) (h : (Nat.repr a).toList = (Nat.repr b).toList) :
    a = b := by
  have := congrArg decVal h
  rwa [(natRepr_decode a).1, (natRepr_decode b).1] at this

theorem showInt_ofNat (m : Nat) : showInt (Int.ofNat m) = (Nat.repr m).toList := rfl

theorem showInt_negSucc (m : Nat) :
    showInt (Int.negSucc m) = '-' :: (Nat.repr (m + 1)).toList := rfl

/-- The text written for an integer tells the integer. -/
theorem showInt_injective (a b : Int) (h : showInt a = showInt b) : a = b := by
  cases a with
  | ofNat m =>
    cases b with
    | ofNat k =>
      rw [showInt_ofNat, showInt_ofNat] at h
      rw [natRepr_injective m k h]
    | negSucc k =>
      rw [showInt_ofNat, showInt_negSucc] at h
      have := (natRepr_decode m).2 '-' (by rw [h]; exact List.mem_cons_self _ _)
      exact absurd this (by decide)
  | negSucc m =>
    cases b with
    | ofNat k =>
      rw [showInt_ofNat, showInt_negSucc] at h
      have := (natRepr_decode k).2 '-' (by rw [← h]; exact List.mem_cons_self _ _)
      exact absurd this (by decide)
    | negSucc k =>
      rw [showInt_negSucc, showInt_negSucc] at h
      have := natRepr_injective _ _ (List.cons.inj h).2
      have hk : m = k := by omega
      rw [hk]

/-- The text written for an integer holds digits and at most a sign. -/
theorem showInt_chars (n : Int) : ∀ c ∈ showInt n, isdigit c = true ∨ c = '-' := by
  cases n with
  | ofNat m =>
    rw [showInt_ofNat]
    exact fun c hc => Or.inl ((natRepr_decode m).2 c hc)
  | negSucc m =>
    rw [showInt_negSucc]
    intro c hc
    rcases List.mem_cons.mp hc with rfl | hc
    · exact Or.inr rfl
    · exact Or.inl ((natRepr_decode _).2 c hc)

/-- The program that `generateAssembly` writes for the tokens that `tokenize` returns:
the text is its lines, each followed by a line feed, the lines are the two heads, the
declarations, one block for each token and the tail, and the tables are left as the
constructor made them. -/
theorem generateAssembly_program (uf : StodValue → Bool)
    (showDouble : StreamFmt → StodValue → Str) (hd : ∀ f v, '\n' ∉ showDouble f v)
    (expression : Str) (tokens : List Token)
    (ht : tokenize uf Compiler.new expression = .ok tokens) :
    ∃ blocks counter,
      emitBlocks showDouble
          (declareConstants showDouble tokens Compiler.new.constants StreamFmt.initial).2.2
          tokens Compiler.new.operatorArities 0 =
        .ok (blocks, Compiler.new.operatorArities, counter) ∧
      generateAssembly showDouble Compiler.new tokens =
        .ok (unlines (dataSectionHead ++
          (declareConstants showDouble tokens Compiler.new.constants StreamFmt.initial).1 ++
          textSectionHead ++ blocks.flatten ++ programTail), Compiler.new) ∧
      linesOf (unlines (dataSectionHead ++
          (declareConstants showDouble tokens Compiler.new.constants StreamFmt.initial).1 ++
          textSectionHead ++ blocks.flatten ++ programTail)) =
        dataSectionHead ++
          (declareConstants showDouble tokens Compiler.new.constants StreamFmt.initial).1 ++
          textSectionHead ++ blocks.flatten ++ programTail := by
  obtain ⟨hi, hs⟩ := tokenize_tokens_plain uf Compiler.new expression tokens ht
  have hnl : ∀ t ∈ tokens, '\n' ∉ t.strValue :=
    fun t ht2 => no_newline_of_no_space _ (hs t ht2)
  obtain ⟨blocks, a1, c1, e1, e2, hf⟩ := emitBlocks_spec showDouble
    (declareConstants showDouble tokens Compiler.new.constants StreamFmt.initial).2.2 tokens
    Compiler.new.operatorArities 0 hi hnl hd
  have hdecl := isPlainLine_declareConstants showDouble hd tokens hs Compiler.new.constants
    StreamFmt.initial
  have hlines : ∀ l ∈ dataSectionHead ++
      (declareConstants showDouble tokens Compiler.new.constants StreamFmt.initial).1 ++
      textSectionHead ++ blocks.flatten ++ programTail, '\n' ∉ l := by
    intro l hl
    simp only [List.mem_append] at hl
    rcases hl with (((hl | hl) | hl) | hl) | hl
    · exact no_newline_of_plain l (isPlainLine_fixed l (by simp [hl]))
    · exact no_newline_of_plain l (hdecl l hl)
    · exact no_newline_of_plain l (isPlainLine_fixed l (by simp [hl]))
    · exact no_newline_blocks tokens blocks hnl hf l hl
    · exact no_newline_of_plain l (isPlainLine_fixed l (by simp [hl]))
  have hg : generateAssembly showDouble Compiler.new tokens =
      .ok (unlines (dataSectionHead ++
        (declareConstants showDouble tokens Compiler.new.constants StreamFmt.initial).1 ++
        textSectionHead ++ blocks.flatten ++ programTail),
        ⟨a1, (declareConstants showDouble tokens Compiler.new.constants
          StreamFmt.initial).2.1⟩) := by
    simp only [generateAssembly, e2]
  have hC := generateAssembly_keeps_tables uf showDouble expression tokens _ _ ht hg
  have ha : a1 = Compiler.new.operatorArities := congrArg Compiler.operatorArities hC
  subst ha
  rw [hC] at hg
  exact ⟨blocks, c1, e1, hg, linesOf_unlines _ hlines⟩

theorem no_divide_of_filter (b : List Str)
    (h : b.filter (hasMnemonic "divsd".toList) = []) :
    ∀ l ∈ b, hasMnemonic "divsd".toList l = false := by
  intro l hl
  have := List.filter_eq_nil_iff.mp h l hl
  simpa using this

theorem no_divide_declareConstants (showDouble : StreamFmt → StodValue → Str)
    (tokens : List Token) (constants : StrMap StodValue) (fmt : StreamFmt)
    (h : ∀ t ∈ tokens, t.type = .CONSTANT → t.strValue ∈ knownConstants) :
    ∀ l ∈ (declareConstants showDouble tokens constants fmt).1,
      hasMnemonic "divsd".toList l = false := by
  induction tokens generalizing constants fmt with
  | nil => intro l hl; cases hl
  | cons t rest ih =>
    have hrest := fun u hu => h u (List.mem_cons_of_mem _ hu)
    unfold declareConstants
    split_ifs with hty
    · have hk := h t (List.mem_cons_self _ _) hty
      simp only [knownConstants, List.mem_cons, List.mem_singleton, List.not_mem_nil,
        or_false] at hk
      intro l hl
      rcases List.mem_cons.mp hl with rfl | hl
      · rcases hk with e | e <;> rw [e] <;> rfl
      · exact ih _ _ hrest l hl
    · exact ih _ _ hrest

theorem not_division (sv : Str) (nv : Option StodValue) (h1 : sv ≠ "/".toList)
    (h2 : sv ≠ "%".toList) : ¬ isDivisionToken ⟨.OPERATOR, sv, nv⟩ := by
  rintro ⟨_, h | h⟩
  · exact h1 h
  · exact h2 h

/-- The block of a token that the loop body of `tokenize` made: a guarded division for
`/` and `%`, and no `divsd` otherwise. -/
theorem emitToken_division (uf : StodValue → Bool)
    (showDouble : StreamFmt → StodValue → Str) (fmt : StreamFmt) (w : Str) (t : Token)
    (n : Int) (b : List Str) (a1 : StrMap Int) (c1 : Int)
    (hc : classify uf Compiler.new w = .ok t)
    (he : emitToken showDouble fmt t Compiler.new.operatorArities n = .ok (b, a1, c1)) :
    (isDivisionToken t → guardedDivision b) ∧
      (¬ isDivisionToken t → ∀ l ∈ b, hasMnemonic "divsd".toList l = false) := by
  have hinit := classify_initialized uf Compiler.new w t hc
  rcases classify_spec uf w with ⟨t1, h1, h2, h3⟩ | ⟨h1, _⟩
  · rw [h1] at hc
    cases hc
    obtain ⟨hcn, hsn, hfn, hon⟩ := category_names _ w _ h3
    obtain ⟨ty, sv, nv⟩ := t
    simp only at h2 hcn hsn hfn hon
    subst h2
    cases ty with
    | NUMBER =>
      have hv := hinit rfl
      cases nv with
      | none => cases hv
      | some v =>
        cases he
        exact ⟨(fun h => by cases h.1), (fun _ => no_divide_of_filter _ rfl)⟩
    | CONSTANT =>
      cases he
      exact ⟨(fun h => by cases h.1), (fun _ => no_divide_of_filter _ rfl)⟩
    | OPERATOR =>
      have := hon rfl
      simp only [knownOperators, List.mem_cons, List.mem_singleton, List.not_mem_nil,
        or_false] at this
      rcases this with rfl | rfl | rfl | rfl | rfl | rfl | rfl <;> cases he
      · exact ⟨(fun h => absurd h (not_division _ _ (by decide) (by decide))),
          (fun _ => no_divide_of_filter _ rfl)⟩
      · exact ⟨(fun h => absurd h (not_division _ _ (by decide) (by decide))),
          (fun _ => no_divide_of_filter _ rfl)⟩
      · exact ⟨(fun h => absurd h (not_division _ _ (by decide) (by decide))),
          (fun _ => no_divide_of_filter _ rfl)⟩
      · refine ⟨fun _ => ?_, fun h => absurd ⟨rfl, Or.inl rfl⟩ h⟩
        exact ⟨("    ; Process token: ".toList ++ "/".toList) :: depthCheck 2 ++
            ["    ; Division".toList], "    call pop_stack  ; Get divisor into xmm0".toList,
          ["    movsd xmm1, xmm0".toList,
            "    call pop_stack  ; Get dividend into xmm0".toList],
          "    divsd xmm0, xmm1".toList, ["    call push_stack".toList, []],
          rfl, rfl, rfl, rfl, no_divide_of_filter _ rfl⟩
      · exact ⟨(fun h => absurd h (not_division _ _ (by decide) (by decide))),
          (fun _ => no_divide_of_filter _ rfl)⟩
      · refine ⟨fun _ => ?_, fun h => absurd ⟨rfl, Or.inr rfl⟩ h⟩
        exact ⟨("    ; Process token: ".toList ++ "%".toList) :: depthCheck 2 ++
            ["    ; Modulus".toList],
          "    call pop_stack  ; Get second operand into xmm0".toList,
          ["    movsd xmm1, xmm0".toList,
            "    call pop_stack  ; Get first operand into xmm0".toList,
            "    ; Floating-point modulus: x % y = x - y * floor(x/y)".toList,
            "    movsd xmm2, xmm0  ; Save x".toList],
          "    divsd xmm0, xmm1  ; x / y".toList,
          ["    sub rsp, 8  ; Align stack".toList, "    movq [rsp], xmm1  ; Save y".toList,
            "    call floor  ; Get floor(x/y)".toList,
            "    movsd xmm1, [rsp]  ; Restore y from stack".toList,
            "    add rsp, 8  ; Restore stack".toList,
            "    mulsd xmm0, xmm1  ; y * floor(x/y)".toList,
            "    movsd xmm1, xmm2  ; Restore x".toList,
            "    subsd xmm1, xmm0  ; x - y * floor(x/y)".toList,
            "    movsd xmm0, xmm1".toList, "    call push_stack".toList, []],
          rfl, rfl, rfl, rfl, no_divide_of_filter _ rfl⟩
      · exact ⟨(fun h => absurd h (not_division _ _ (by decide) (by decide))),
          (fun _ => no_divide_of_filter _ rfl)⟩
    | FUNCTION =>
      have := hfn rfl
      simp only [knownFunctions, List.mem_cons, List.mem_singleton, List.not_mem_nil,
        or_false] at this
      rcases this with rfl | rfl | rfl | rfl | rfl <;> cases he <;>
        exact ⟨(fun h => by cases h.1), (fun _ => no_divide_of_filter _ rfl)⟩
    | STACK_OP =>
      have := hsn rfl
      simp only [knownStackOps, List.mem_cons, List.mem_singleton, List.not_mem_nil,
        or_false] at this
      rcases this with rfl | rfl <;> cases he <;>
        exact ⟨(fun h => by cases h.1), (fun _ => no_divide_of_filter _ rfl)⟩
  · rw [h1] at hc; cases hc

/-- C22 as stated fails: a token text is written to the output as it is, so a Constant
token built by hand with line feeds in its text puts the line `divsd xmm0, xmm1` into the
text section (after the first 25 lines, which are the data section and the head of the
text section) of a program whose token sequence has no `/` and no `%`. -/
theorem generateAssembly_unguarded_divsd :
    ∃ text C1,
      generateAssembly (fun _ _ => "0.00000000000000000".toList) Compiler.new
          [⟨.CONSTANT, "x]\n    divsd xmm0, xmm1\n    ; [".toList, none⟩] = .ok (text, C1) ∧
        "    divsd xmm0, xmm1".toList ∈ (linesOf text).drop 25 ∧
        hasMnemonic "divsd".toList "    divsd xmm0, xmm1".toList = true ∧
        ∀ t ∈ [(⟨.CONSTANT, "x]\n    divsd xmm0, xmm1\n    ; [".toList, none⟩ : Token)],
          ¬ isDivisionToken t := by
  refine ⟨_, _, rfl, by decide, by decide, ?_⟩
  intro t ht h
  rw [List.mem_singleton] at ht
  rw [ht] at h
  exact absurd h.1 (by decide)

/-- C22 on the code, for the token sequences that `tokenize` returns: `generateAssembly`
returns; the lines of its text are the two heads, the declarations, one block for each
token and the tail; the block of a `/` or `%` token pops the divisor, compares it with
zero and has `je division_by_zero` before its one `divsd`; and no other line of the
program is a `divsd`. -/
theorem generateAssembly_division_guarded (uf : StodValue → Bool)
    (showDouble : StreamFmt → StodValue → Str) (hd : ∀ f v, '\n' ∉ showDouble f v)
    (expression : Str) (tokens : List Token)
    (ht : tokenize uf Compiler.new expression = .ok tokens) :
    ∃ text decls blocks,
      generateAssembly showDouble Compiler.new tokens = .ok (text, Compiler.new) ∧
      linesOf text =
        dataSectionHead ++ decls ++ textSectionHead ++ blocks.flatten ++ programTail ∧
      (∀ l ∈ dataSectionHead ++ decls ++ textSectionHead ++ programTail,
        hasMnemonic "divsd".toList l = false) ∧
      List.Forall₂ (fun t b => (isDivisionToken t → guardedDivision b) ∧
        (¬ isDivisionToken t → ∀ l ∈ b, hasMnemonic "divsd".toList l = false))
        tokens blocks := by
  obtain ⟨blocks, counter, e1, e2, e3⟩ :=
    generateAssembly_program uf showDouble hd expression tokens ht
  have hcl := tokenize_classified uf Compiler.new expression tokens ht
  obtain ⟨blocks2, c2, e4, hf⟩ := emitBlocks_classified _ uf showDouble
    (declareConstants showDouble tokens Compiler.new.constants StreamFmt.initial).2.2
    (fun w t n b a1 c1 hc he => emitToken_division uf showDouble _ w t n b a1 c1 hc he)
    tokens 0 hcl
  rw [e1] at e4
  cases e4
  refine ⟨_, _, blocks, e2, e3, ?_, hf⟩
  intro l hl
  simp only [List.mem_append] at hl
  rcases hl with ((hl | hl) | hl) | hl
  · revert l; decide
  · exact no_divide_declareConstants showDouble tokens _ _
      (fun t ht2 hty => by
        obtain ⟨w, hw⟩ := hcl t ht2
        exact classify_constant_known uf w t hw hty) l hl
  · revert l; decide
  · revert l; decide

/-- C22 at the expression `5 0 /`, the doubles written as `0`: the block of `/` is
guarded. -/
theorem generateAssembly_division_guarded_witness :
    ∃ text decls blocks,
      generateAssembly (fun _ _ => "0".toList) Compiler.new
          [⟨.NUMBER, "5".toList, some (.finite false false 5 0)⟩,
           ⟨.NUMBER, "0".toList, some (.finite false false 0 0)⟩,
           ⟨.OPERATOR, "/".toList, none⟩] = .ok (text, Compiler.new) ∧
      linesOf text =
        dataSectionHead ++ decls ++ textSectionHead ++ blocks.flatten ++ programTail ∧
      (∀ l ∈ dataSectionHead ++ decls ++ textSectionHead ++ programTail,
        hasMnemonic "divsd".toList l = false) ∧
      List.Forall₂ (fun t b => (isDivisionToken t → guardedDivision b) ∧
        (¬ isDivisionToken t → ∀ l ∈ b, hasMnemonic "divsd".toList l = false))
        [⟨.NUMBER, "5".toList, some (.finite false false 5 0)⟩,
         ⟨.NUMBER, "0".toList, some (.finite false false 0 0)⟩,
         ⟨.OPERATOR, "/".toList, none⟩] blocks :=
  generateAssembly_division_guarded (fun _ => true) (fun _ _ => "0".toList)
    (fun _ _ => (by decide : '\n' ∉ "0".toList)) "5 0 /".toList _ rfl

theorem definedLabels_append (xs ys : List Str) :
    definedLabels (xs ++ ys) = definedLabels xs ++ definedLabels ys := by
  simp [definedLabels]

theorem definedLabels_cons_none (l : Str) (ls : List Str) (h : labelOf l = none) :
    definedLabels (l :: ls) = definedLabels ls := by
  simp [definedLabels, List.filterMap_cons, h]

theorem labelOf_label (a s : Str) (ha : a.head? ≠ some ' ') (hne : a ≠ []) :
    labelOf (a ++ s ++ ":".toList) = some (a ++ s) := by
  cases a with
  | nil => exact absurd rfl hne
  | cons c r =>
    have hc : c ≠ ' ' := fun e => ha (by rw [e]; rfl)
    have e1 : (c :: r) ++ s ++ ":".toList = c :: (r ++ s ++ [':']) := by simp
    rw [e1]
    have e2 : (c :: (r ++ s ++ [':'])).getLast? = some ':' := by
      rw [show c :: (r ++ s ++ [':']) = (c :: (r ++ s)) ++ [':'] by simp]
      exact List.getLast?_concat _
    have e3 : (c :: (r ++ s ++ [':'])).dropLast = c :: (r ++ s) := by
      rw [show c :: (r ++ s ++ [':']) = (c :: (r ++ s)) ++ [':'] by simp]
      exact List.dropLast_concat
    simp only [labelOf, hc, if_false, e2, if_true, e3]
    simp

theorem definedLabels_cons_label (a s : Str) (ls : List Str) (ha : a.head? ≠ some ' ')
    (hne : a ≠ []) :
    definedLabels ((a ++ s ++ ":".toList) :: ls) = (a ++ s) :: definedLabels ls := by
  unfold definedLabels
  rw [List.filterMap_cons, labelOf_label a s ha hne]

theorem definedLabels_powLines (N : Int) :
    definedLabels (powLines N) = powPrefixes.map (· ++ showInt N) := by
  simp only [powLines]
  repeat (first
    | rw [definedLabels_cons_label _ _ _ (by decide) (by decide)]
    | rw [definedLabels_cons_none _ _ (by rfl)])
  rfl

theorem definedLabels_factorialLines (N : Int) :
    definedLabels (factorialLines N) = factorialPrefixes.map (· ++ showInt N) := by
  simp only [factorialLines]
  repeat (first
    | rw [definedLabels_cons_label _ _ _ (by decide) (by decide)]
    | rw [definedLabels_cons_none _ _ (by rfl)])
  rfl

theorem operand_char_of_showInt (N : Int) :
    ∀ c ∈ showInt N, (fun c : Char => c ≠ ' ' && c ≠ ',') c = true := by
  intro c hc
  have h := showInt_chars N c hc
  by_cases h1 : c = ' '
  · subst h1; rcases h with h | h
    · exact absurd h (by decide)
    · exact absurd h (by decide)
  · by_cases h2 : c = ','
    · subst h2; rcases h with h | h
      · exact absurd h (by decide)
      · exact absurd h (by decide)
    · simp [h1, h2]

theorem takeWhile_showInt (N : Int) (rest : Str)
    (hr : rest.takeWhile (fun c => c ≠ ' ' && c ≠ ',') = []) :
    (showInt N ++ rest).takeWhile (fun c => c ≠ ' ' && c ≠ ',') = showInt N := by
  rw [List.takeWhile_append_of_pos (operand_char_of_showInt N), hr, List.append_nil]

theorem takeWhile_showInt_nil (N : Int) :
    (showInt N).takeWhile (fun c => c ≠ ' ' && c ≠ ',') = showInt N := by
  have := takeWhile_showInt N [] rfl
  rwa [List.append_nil] at this

theorem jumpTargets_append (xs ys : List Str) :
    jumpTargets (xs ++ ys) = jumpTargets xs ++ jumpTargets ys := by
  simp [jumpTargets]

theorem callTargets_append (xs ys : List Str) :
    callTargets (xs ++ ys) = callTargets xs ++ callTargets ys := by
  simp [callTargets]

theorem jumpTargets_powLines (N : Int) :
    jumpTargets (powLines N) =
      ["power_general_".toList, "power_done_".toList, "power_general_".toList,
       "power_skip_".toList, "power_loop_".toList, "power_done_".toList,
       "power_error_".toList, "power_done_".toList].map (· ++ showInt N) := by
  have h : jumpTargets (powLines N) =
      ["power_general_".toList ++ (showInt N).takeWhile (fun c => c ≠ ' ' && c ≠ ','),
       "power_done_".toList ++
         (showInt N ++ "  ; x^0 = 1".toList).takeWhile (fun c => c ≠ ' ' && c ≠ ','),
       "power_general_".toList ++
         (showInt N ++ "  ; Negative exponent needs general case".toList).takeWhile
           (fun c => c ≠ ' ' && c ≠ ','),
       "power_skip_".toList ++ (showInt N).takeWhile (fun c => c ≠ ' ' && c ≠ ','),
       "power_loop_".toList ++ (showInt N).takeWhile (fun c => c ≠ ' ' && c ≠ ','),
       "power_done_".toList ++ (showInt N).takeWhile (fun c => c ≠ ' ' && c ≠ ','),
       "power_error_".toList ++
         (showInt N ++ "  ; If x <= 0, can't take log".toList).takeWhile
           (fun c => c ≠ ' ' && c ≠ ','),
       "power_done_".toList ++ (showInt N).takeWhile (fun c => c ≠ ' ' && c ≠ ',')] := rfl
  rw [h, takeWhile_showInt_nil, takeWhile_showInt N _ (by rfl), takeWhile_showInt N _ (by rfl),
    takeWhile_showInt N _ (by rfl)]
  rfl

theorem jumpTargets_factorialLines (N : Int) :
    jumpTargets (factorialLines N) =
      ["factorial_error_".toList, "factorial_error_".toList, "factorial_overflow_".toList,
       "factorial_done_".toList, "factorial_overflow_".toList, "factorial_loop_".toList,
       "factorial_end_".toList, "factorial_fp_loop_".toList,
       "factorial_end_".toList].map (· ++ showInt N) := by
  have h : jumpTargets (factorialLines N) =
      ["factorial_error_".toList ++ (showInt N).takeWhile (fun c => c ≠ ' ' && c ≠ ','),
       "factorial_error_".toList ++ (showInt N).takeWhile (fun c => c ≠ ' ' && c ≠ ','),
       "factorial_overflow_".toList ++ (showInt N).takeWhile (fun c => c ≠ ' ' && c ≠ ','),
       "factorial_done_".toList ++
         (showInt N ++ "  ; 0! = 1".toList).takeWhile (fun c => c ≠ ' ' && c ≠ ','),
       "factorial_overflow_".toList ++
         (showInt N ++ "  ; Jump if overflow occurred".toList).takeWhile
           (fun c => c ≠ ' ' && c ≠ ','),
       "factorial_loop_".toList ++ (showInt N).takeWhile (fun c => c ≠ ' ' && c ≠ ','),
       "factorial_end_".toList ++ (showInt N).takeWhile (fun c => c ≠ ' ' && c ≠ ','),
       "factorial_fp_loop_".toList ++ (showInt N).takeWhile (fun c => c ≠ ' ' && c ≠ ','),
       "factorial_end_".toList ++ (showInt N).takeWhile (fun c => c ≠ ' ' && c ≠ ',')] :=
    rfl
  rw [h, takeWhile_showInt_nil, takeWhile_showInt N _ (by rfl), takeWhile_showInt N _ (by rfl)]
  rfl

theorem callTargets_powLines (N : Int) :
    callTargets (powLines N) =
      ["pop_stack".toList, "pop_stack".toList, "log".toList, "exp".toList,
       "push_stack".toList] := rfl

theorem callTargets_factorialLines (N : Int) :
    callTargets (factorialLines N) = ["pop_stack".toList, "push_stack".toList] := rfl

theorem not_labelled (ty : TokenType) (sv : Str) (nv : Option StodValue)
    (h : ty ≠ .OPERATOR ∨ (sv ≠ "^".toList ∧ sv ≠ "!".toList)) :
    ¬ isLabelledToken ⟨ty, sv, nv⟩ := by
  rintro ⟨h1, h2⟩
  rcases h with h | ⟨h3, h4⟩
  · exact h h1
  · rcases h2 with h2 | h2
    · exact h3 h2
    · exact h4 h2

/-- A block that defines no label and whose jumps and calls go to the fixed labels and
the library functions. -/
theorem plain_block_targets (b : List Str)
    (h2 : (jumpTargets b).all (fun x => decide (x ∈ fixedLabels)) = true)
    (h3 : (callTargets b).all
      (fun x => decide (x ∈ fixedLabels) || decide (x ∈ libraryFunctions)) = true) :
    (∀ x ∈ jumpTargets b, x ∈ fixedLabels ∨ x ∈ definedLabels b) ∧
      (∀ x ∈ callTargets b, x ∈ fixedLabels ∨ x ∈ libraryFunctions) := by
  rw [List.all_eq_true] at h2 h3
  refine ⟨fun x hx => Or.inl (by simpa using h2 x hx), fun x hx => ?_⟩
  simpa using h3 x hx

theorem labelled_block (c : Str) (k : Int) (body : List Str) (hc : c.head? = some ' ') :
    definedLabels (c :: depthCheck k ++ body ++ [[]]) = definedLabels body ∧
      jumpTargets (c :: depthCheck k ++ body ++ [[]]) =
        (if isJumpLine c then [operandOf c] else []) ++
          "stack_underflow".toList :: jumpTargets body ∧
      callTargets (c :: depthCheck k ++ body ++ [[]]) =
        (if hasMnemonic "call".toList c then [operandOf c] else []) ++ callTargets body := by
  have h1 : labelOf c = none := by
    cases c with
    | nil => rfl
    | cons a r =>
      have : a = ' ' := by simpa using hc
      subst this
      rfl
  have e : c :: depthCheck k ++ body ++ [[]] = [c] ++ depthCheck k ++ body ++ [[]] := rfl
  refine ⟨?_, ?_, ?_⟩
  · rw [e, definedLabels_append, definedLabels_append, definedLabels_append,
      definedLabels_cons_none _ _ h1]
    rw [show definedLabels (depthCheck k) = [] from rfl,
      show definedLabels ([[]] : List Str) = [] from rfl]
    simp [definedLabels]
  · rw [e, jumpTargets_append, jumpTargets_append, jumpTargets_append,
      show jumpTargets (depthCheck k) = ["stack_underflow".toList] from rfl,
      show jumpTargets ([[]] : List Str) = [] from rfl]
    by_cases hj : isJumpLine c = true <;> simp [jumpTargets, hj]
  · rw [e, callTargets_append, callTargets_append, callTargets_append,
      show callTargets (depthCheck k) = [] from rfl,
      show callTargets ([[]] : List Str) = [] from rfl]
    have e2 : callTargets [c] =
        if hasMnemonic "call".toList c then [operandOf c] else [] := by
      unfold callTargets
      rw [List.filter_cons]
      split <;> rfl
    rw [e2, List.append_nil, List.append_nil]

theorem subset_prefixes_pow :
    ∀ p ∈ ["power_general_".toList, "power_done_".toList, "power_general_".toList,
       "power_skip_".toList, "power_loop_".toList, "power_done_".toList,
       "power_error_".toList, "power_done_".toList], p ∈ powPrefixes := by
  decide

theorem subset_prefixes_factorial :
    ∀ p ∈ ["factorial_error_".toList, "factorial_error_".toList,
       "factorial_overflow_".toList, "factorial_done_".toList, "factorial_overflow_".toList,
       "factorial_loop_".toList, "factorial_end_".toList, "factorial_fp_loop_".toList,
       "factorial_end_".toList], p ∈ factorialPrefixes := by
  decide

/-- The labels, jumps and calls of the block of `^` written with the suffix `N`. -/
theorem pow_block_labels (c : Str) (k N : Int) (hc : c = processTokenComment ++ "^".toList) :
    definedLabels (c :: depthCheck k ++ powLines N ++ [[]]) =
        powPrefixes.map (· ++ showInt N) ∧
      (∀ x ∈ jumpTargets (c :: depthCheck k ++ powLines N ++ [[]]),
        x ∈ fixedLabels ∨ x ∈ definedLabels (c :: depthCheck k ++ powLines N ++ [[]])) ∧
      (∀ x ∈ callTargets (c :: depthCheck k ++ powLines N ++ [[]]),
        x ∈ fixedLabels ∨ x ∈ libraryFunctions) := by
  subst hc
  obtain ⟨h1, h2, h3⟩ := labelled_block (processTokenComment ++ "^".toList) k (powLines N) rfl
  rw [h1, h2, h3, definedLabels_powLines, jumpTargets_powLines, callTargets_powLines]
  refine ⟨rfl, ?_, by decide⟩
  intro x hx
  rw [show (if isJumpLine (processTokenComment ++ "^".toList) = true then
      [operandOf (processTokenComment ++ "^".toList)] else []) = [] from rfl,
    List.nil_append, List.mem_cons] at hx
  rcases hx with rfl | hx
  · exact Or.inl (by decide)
  · exact Or.inr (List.map_subset _ subset_prefixes_pow hx)

/-- The labels, jumps and calls of the block of `!` written with the suffix `N`. -/
theorem factorial_block_labels (c : Str) (k N : Int)
    (hc : c = processTokenComment ++ "!".toList) :
    definedLabels (c :: depthCheck k ++ factorialLines N ++ [[]]) =
        factorialPrefixes.map (· ++ showInt N) ∧
      (∀ x ∈ jumpTargets (c :: depthCheck k ++ factorialLines N ++ [[]]),
        x ∈ fixedLabels ∨
          x ∈ definedLabels (c :: depthCheck k ++ factorialLines N ++ [[]])) ∧
      (∀ x ∈ callTargets (c :: depthCheck k ++ factorialLines N ++ [[]]),
        x ∈ fixedLabels ∨ x ∈ libraryFunctions) := by
  subst hc
  obtain ⟨h1, h2, h3⟩ :=
    labelled_block (processTokenComment ++ "!".toList) k (factorialLines N) rfl
  rw [h1, h2, h3, definedLabels_factorialLines, jumpTargets_factorialLines,
    callTargets_factorialLines]
  refine ⟨rfl, ?_, by decide⟩
  intro x hx
  rw [show (if isJumpLine (processTokenComment ++ "!".toList) = true then
      [operandOf (processTokenComment ++ "!".toList)] else []) = [] from rfl,
    List.nil_append, List.mem_cons] at hx
  rcases hx with rfl | hx
  · exact Or.inl (by decide)
  · exact Or.inr (List.map_subset _ subset_prefixes_factorial hx)

/-- The labels of the block written for a token that the loop body of `tokenize` made:
the counter does not decrease, the jumps go to the labels of the block or to the error
handlers, the calls go to the helper routines or to library functions, and the block
defines labels only for `^` and `!`, with the counter after the block as suffix. -/
theorem emitToken_labels (uf : StodValue → Bool)
    (showDouble : StreamFmt → StodValue → Str) (fmt : StreamFmt) (w : Str) (t : Token)
    (n : Int) (b : List Str) (a1 : StrMap Int) (c1 : Int)
    (hc : classify uf Compiler.new w = .ok t)
    (he : emitToken showDouble fmt t Compiler.new.operatorArities n = .ok (b, a1, c1)) :
    n ≤ c1 ∧
      ((∀ x ∈ jumpTargets b, x ∈ fixedLabels ∨ x ∈ definedLabels b) ∧
        (∀ x ∈ callTargets b, x ∈ fixedLabels ∨ x ∈ libraryFunctions)) ∧
      ((¬ isLabelledToken t ∧ definedLabels b = []) ∨
        (isLabelledToken t ∧ c1 = n + 1 ∧ usesSuffix t c1 b ∧
          ∃ ps, (ps = powPrefixes ∨ ps = factorialPrefixes) ∧
            definedLabels b = ps.map (· ++ showInt c1))) := by
  have hinit := classify_initialized uf Compiler.new w t hc
  rcases classify_spec uf w with ⟨t1, h1, h2, h3⟩ | ⟨h1, _⟩
  · rw [h1] at hc
    cases hc
    obtain ⟨hcn, hsn, hfn, hon⟩ := category_names _ w _ h3
    obtain ⟨ty, sv, nv⟩ := t
    simp only at h2 hcn hsn hfn hon
    subst h2
    cases ty with
    | NUMBER =>
      have hv := hinit rfl
      cases nv with
      | none => cases hv
      | some v =>
        cases he
        exact ⟨Int.le_refl _, plain_block_targets _ rfl rfl,
          Or.inl ⟨not_labelled _ _ _ (Or.inl (by decide)), rfl⟩⟩
    | CONSTANT =>
      have := hcn rfl
      simp only [knownConstants, List.mem_cons, List.mem_singleton, List.not_mem_nil,
        or_false] at this
      rcases this with rfl | rfl <;> cases he <;>
      exact ⟨Int.le_refl _, plain_block_targets _ rfl rfl,
        Or.inl ⟨not_labelled _ _ _ (Or.inl (by decide)), rfl⟩⟩
    | OPERATOR =>
      have := hon rfl
      simp only [knownOperators, List.mem_cons, List.mem_singleton, List.not_mem_nil,
        or_false] at this
      rcases this with rfl | rfl | rfl | rfl | rfl | rfl | rfl
      · cases he
        exact ⟨Int.le_refl _, plain_block_targets _ rfl rfl,
          Or.inl ⟨not_labelled _ _ _ (Or.inr (by decide)), rfl⟩⟩
      · cases he
        exact ⟨Int.le_refl _, plain_block_targets _ rfl rfl,
          Or.inl ⟨not_labelled _ _ _ (Or.inr (by decide)), rfl⟩⟩
      · cases he
        exact ⟨Int.le_refl _, plain_block_targets _ rfl rfl,
          Or.inl ⟨not_labelled _ _ _ (Or.inr (by decide)), rfl⟩⟩
      · cases he
        exact ⟨Int.le_refl _, plain_block_targets _ rfl rfl,
          Or.inl ⟨not_labelled _ _ _ (Or.inr (by decide)), rfl⟩⟩
      · cases he
        obtain ⟨q1, q2, q3⟩ := pow_block_labels (processTokenComment ++ "^".toList)
          (StrMap.index 0 Compiler.new.operatorArities "^".toList).1 (n + 1) rfl
        exact ⟨show n ≤ n + 1 by omega, ⟨q2, q3⟩,
          Or.inr ⟨⟨rfl, Or.inl rfl⟩, rfl, ⟨_, Or.inl ⟨rfl, rfl⟩⟩, powPrefixes, Or.inl rfl, q1⟩⟩
      · cases he
        exact ⟨show n ≤ n + 1 by omega, plain_block_targets _ rfl rfl,
          Or.inl ⟨not_labelled _ _ _ (Or.inr (by decide)), rfl⟩⟩
      · cases he
        obtain ⟨q1, q2, q3⟩ := factorial_block_labels (processTokenComment ++ "!".toList)
          (StrMap.index 0 Compiler.new.operatorArities "!".toList).1 (n + 1) rfl
        exact ⟨show n ≤ n + 1 by omega, ⟨q2, q3⟩,
          Or.inr ⟨⟨rfl, Or.inr rfl⟩, rfl, ⟨_, Or.inr ⟨rfl, rfl⟩⟩, factorialPrefixes,
            Or.inr rfl, q1⟩⟩
    | FUNCTION =>
      have := hfn rfl
      simp only [knownFunctions, List.mem_cons, List.mem_singleton, List.not_mem_nil,
        or_false] at this
      rcases this with rfl | rfl | rfl | rfl | rfl <;> cases he <;>
      exact ⟨Int.le_refl _, plain_block_targets _ rfl rfl,
        Or.inl ⟨not_labelled _ _ _ (Or.inl (by decide)), rfl⟩⟩
    | STACK_OP =>
      have := hsn rfl
      simp only [knownStackOps, List.mem_cons, List.mem_singleton, List.not_mem_nil,
        or_false] at this
      rcases this with rfl | rfl <;> cases he <;>
      exact ⟨Int.le_refl _, plain_block_targets _ rfl rfl,
        Or.inl ⟨not_labelled _ _ _ (Or.inl (by decide)), rfl⟩⟩
  · rw [h1] at hc; cases hc

theorem dropWhile_append_all {α : Type} (g : α → Bool) (xs ys : List α)
    (h : ∀ c ∈ xs, g c = true) : (xs ++ ys).dropWhile g = ys.dropWhile g := by
  induction xs with
  | nil => rfl
  | cons c xs ih =>
    rw [List.cons_append, List.dropWhile_cons, h c (List.mem_cons_self _ _), if_pos rfl]
    exact ih (fun d hd => h d (List.mem_cons_of_mem _ hd))

theorem suffix_char_of_showInt (N : Int) :
    ∀ c ∈ (showInt N).reverse, (fun c : Char => isdigit c || c = '-') c = true := by
  intro c hc
  rcases showInt_chars N c (List.mem_reverse.mp hc) with h | h
  · simp [h]
  · simp [h]

/-- The stem of a suffixed label: what is left when the digits and signs at its end are
taken away. -/
theorem stem_suffixed (p : Str) (N : Int) :
    (p ++ showInt N).reverse.dropWhile (fun c : Char => isdigit c || c = '-') =
      p.reverse.dropWhile (fun c : Char => isdigit c || c = '-') := by
  rw [List.reverse_append]
  exact dropWhile_append_all _ _ _ (suffix_char_of_showInt N)

theorem stem_of_prefix :
    ∀ p ∈ powPrefixes ++ factorialPrefixes,
      p.reverse.dropWhile (fun c : Char => isdigit c || c = '-') = p.reverse := by
  decide

theorem stem_of_fixed :
    ∀ p ∈ fixedLabels,
      p.reverse.dropWhile (fun c : Char => isdigit c || c = '-') = p.reverse := by
  decide

theorem fixed_not_prefix : ∀ p ∈ fixedLabels, p ∉ powPrefixes ++ factorialPrefixes := by
  decide

theorem suffixedLabel_injective (p q : Str × Int)
    (hp : p.1 ∈ powPrefixes ++ factorialPrefixes)
    (hq : q.1 ∈ powPrefixes ++ factorialPrefixes)
    (h : suffixedLabel p = suffixedLabel q) : p = q := by
  obtain ⟨p1, p2⟩ := p
  obtain ⟨q1, q2⟩ := q
  unfold suffixedLabel at h
  simp only at h hp hq
  have h1 := congrArg
    (fun l : Str => l.reverse.dropWhile (fun c : Char => isdigit c || c = '-')) h
  simp only [stem_suffixed, stem_of_prefix p1 hp, stem_of_prefix q1 hq] at h1
  have e1 : p1 = q1 := List.reverse_injective h1
  subst e1
  have e2 : p2 = q2 := showInt_injective _ _ (List.append_cancel_left h)
  subst e2
  rfl

theorem fixed_ne_suffixed (f : Str) (p : Str × Int) (hf : f ∈ fixedLabels)
    (hp : p.1 ∈ powPrefixes ++ factorialPrefixes) : f ≠ suffixedLabel p := by
  intro h
  obtain ⟨p1, p2⟩ := p
  unfold suffixedLabel at h
  simp only at h hp
  have h1 := congrArg
    (fun l : Str => l.reverse.dropWhile (fun c : Char => isdigit c || c = '-')) h
  simp only [stem_suffixed, stem_of_prefix p1 hp, stem_of_fixed f hf] at h1
  have e1 : f = p1 := List.reverse_injective h1
  subst e1
  exact fixed_not_prefix f hf hp

theorem nodup_suffixed (sig : List (Str × Int)) (hn : sig.Nodup)
    (hp : ∀ p ∈ sig, p.1 ∈ powPrefixes ++ factorialPrefixes) :
    (sig.map suffixedLabel).Nodup := by
  apply List.Nodup.map_on _ hn
  intro p hp1 q hq1 h
  exact suffixedLabel_injective p q (hp p hp1) (hp q hq1) h

theorem mem_definedLabels_append_left (xs ys : List Str) (x : Str)
    (h : x ∈ fixedLabels ∨ x ∈ definedLabels xs) :
    x ∈ fixedLabels ∨ x ∈ definedLabels (xs ++ ys) := by
  rcases h with h | h
  · exact Or.inl h
  · exact Or.inr (by rw [definedLabels_append]; exact List.mem_append_left _ h)

theorem mem_definedLabels_append_right (xs ys : List Str) (x : Str)
    (h : x ∈ fixedLabels ∨ x ∈ definedLabels ys) :
    x ∈ fixedLabels ∨ x ∈ definedLabels (xs ++ ys) := by
  rcases h with h | h
  · exact Or.inl h
  · exact Or.inr (by rw [definedLabels_append]; exact List.mem_append_right _ h)

/-- The labels of the blocks of the token loop, for tokens that the loop body of
`tokenize` made and a loop entered with the counter `n`: the labels are stems with
suffixes between `n + 1` and the final counter, no stem occurs twice with one suffix,
jumps go to labels of the blocks or to the error handlers, calls go to the helper
routines or to library functions, and the suffixes of the blocks of `^` and `!` grow
along the loop. -/
theorem emitBlocks_labels (uf : StodValue → Bool)
    (showDouble : StreamFmt → StodValue → Str) (fmt : StreamFmt)
    (tokens : List Token) (n : Int)
    (h : ∀ t ∈ tokens, ∃ w, classify uf Compiler.new w = .ok t) :
    ∃ blocks c, emitBlocks showDouble fmt tokens Compiler.new.operatorArities n =
        .ok (blocks, Compiler.new.operatorArities, c) ∧ n ≤ c ∧
      (∃ sig : List (Str × Int),
        definedLabels blocks.flatten = sig.map suffixedLabel ∧ sig.Nodup ∧
          ∀ p ∈ sig, p.1 ∈ powPrefixes ++ factorialPrefixes ∧ n < p.2 ∧ p.2 ≤ c) ∧
      (∀ x ∈ jumpTargets blocks.flatten,
        x ∈ fixedLabels ∨ x ∈ definedLabels blocks.flatten) ∧
      (∀ x ∈ callTargets blocks.flatten, x ∈ fixedLabels ∨ x ∈ libraryFunctions) ∧
      (tokens.zip blocks).Pairwise suffixBefore ∧
      (∀ tb ∈ tokens.zip blocks, isLabelledToken tb.1 →
        ∃ N, usesSuffix tb.1 N tb.2 ∧ n < N ∧ N ≤ c) := by
  induction tokens generalizing n with
  | nil =>
    refine ⟨[], n, rfl, Int.le_refl _, ⟨[], rfl, List.nodup_nil, ?_⟩, ?_, ?_,
      List.Pairwise.nil, ?_⟩
    · intro p hp; cases hp
    · intro x hx; cases hx
    · intro x hx; cases hx
    · intro tb htb; cases htb
  | cons t rest ih =>
    obtain ⟨w, hw⟩ := h t (List.mem_cons_self _ _)
    obtain ⟨b, c1, e1, _⟩ := emitToken_depthChecked uf showDouble fmt w t n hw
    obtain ⟨hle, ⟨hj, hcl⟩, hlab⟩ := emitToken_labels uf showDouble fmt w t n b _ c1 hw e1
    obtain ⟨blocks, c2, e2, hle2, ⟨sig, hs1, hs2, hs3⟩, hj2, hcl2, hpw, hall⟩ :=
      ih c1 (fun u hu => h u (List.mem_cons_of_mem _ hu))
    have hfl : (b :: blocks).flatten = b ++ blocks.flatten := rfl
    refine ⟨b :: blocks, c2, by simp only [emitBlocks, e1, e2], Int.le_trans hle hle2, ?_,
      ?_, ?_, ?_, ?_⟩
    · rcases hlab with ⟨_, hnone⟩ | ⟨_, hc1, _, ps, hps, hdef⟩
      · refine ⟨sig, ?_, hs2, ?_⟩
        · rw [hfl, definedLabels_append, hnone, List.nil_append, hs1]
        · intro p hp
          obtain ⟨q1, q2, q3⟩ := hs3 p hp
          exact ⟨q1, by omega, q3⟩
      · refine ⟨ps.map (fun p => (p, c1)) ++ sig, ?_, ?_, ?_⟩
        · rw [hfl, definedLabels_append, hdef, hs1, List.map_append, List.map_map]
          rfl
        · have hpsn : ps.Nodup := by
            rcases hps with rfl | rfl <;> decide
          rw [List.nodup_append]
          refine ⟨hpsn.map (fun a b hab => congrArg Prod.fst hab), hs2, ?_⟩
          intro p hp1 hp2
          obtain ⟨q, _, rfl⟩ := List.mem_map.mp hp1
          have := (hs3 _ hp2).2.1
          simp only at this
          omega
        · intro p hp
          rcases List.mem_append.mp hp with hp | hp
          · obtain ⟨q, hq, rfl⟩ := List.mem_map.mp hp
            refine ⟨?_, by simp only; omega, by simp only; omega⟩
            rcases hps with rfl | rfl
            · exact List.mem_append_left _ hq
            · exact List.mem_append_right _ hq
          · obtain ⟨q1, q2, q3⟩ := hs3 p hp
            exact ⟨q1, by omega, q3⟩
    · intro x hx
      rw [hfl, jumpTargets_append] at hx
      rw [hfl]
      rcases List.mem_append.mp hx with hx | hx
      · exact mem_definedLabels_append_left _ _ _ (hj x hx)
      · exact mem_definedLabels_append_right _ _ _ (hj2 x hx)
    · intro x hx
      rw [hfl, callTargets_append] at hx
      rcases List.mem_append.mp hx with hx | hx
      · exact hcl x hx
      · exact hcl2 x hx
    · rw [List.zip_cons_cons, List.pairwise_cons]
      refine ⟨?_, hpw⟩
      intro tb htb h1 h2
      obtain ⟨N2, u2, l2, _⟩ := hall tb htb h2
      rcases hlab with ⟨hnot, _⟩ | ⟨_, hc1, hu, _⟩
      · exact absurd h1 hnot
      · exact ⟨c1, N2, hu, u2, l2⟩
    · intro tb htb hl
      rw [List.zip_cons_cons] at htb
      rcases List.mem_cons.mp htb with rfl | htb
      · rcases hlab with ⟨hnot, _⟩ | ⟨_, hc1, hu, _⟩
        · exact absurd hl hnot
        · exact ⟨c1, hu, by omega, hle2⟩
      · obtain ⟨N, u, l1, l2⟩ := hall tb htb hl
        exact ⟨N, u, by omega, l2⟩

theorem declareConstants_no_labels (showDouble : StreamFmt → StodValue → Str)
    (tokens : List Token) (constants : StrMap StodValue) (fmt : StreamFmt)
    (h : ∀ t ∈ tokens, t.type = .CONSTANT → t.strValue ∈ knownConstants) :
    ∀ l ∈ (declareConstants showDouble tokens constants fmt).1,
      labelOf l = none ∧ isJumpLine l = false ∧ hasMnemonic "call".toList l = false ∧
        hasMnemonic "extern".toList l = false := by
  induction tokens generalizing constants fmt with
  | nil => intro l hl; cases hl
  | cons t rest ih =>
    have hrest := fun u hu => h u (List.mem_cons_of_mem _ hu)
    unfold declareConstants
    split_ifs with hty
    · have hk := h t (List.mem_cons_self _ _) hty
      simp only [knownConstants, List.mem_cons, List.mem_singleton, List.not_mem_nil,
        or_false] at hk
      intro l hl
      rcases List.mem_cons.mp hl with rfl | hl
      · rcases hk with e | e <;> rw [e] <;> exact ⟨rfl, rfl, rfl, rfl⟩
      · exact ih _ _ hrest l hl
    · exact ih _ _ hrest

theorem targets_of_plain_lines (ls : List Str)
    (h : ∀ l ∈ ls, labelOf l = none ∧ isJumpLine l = false ∧
      hasMnemonic "call".toList l = false ∧ hasMnemonic "extern".toList l = false) :
    definedLabels ls = [] ∧ jumpTargets ls = [] ∧ callTargets ls = [] := by
  refine ⟨?_, ?_, ?_⟩
  · unfold definedLabels
    rw [List.filterMap_eq_nil_iff]
    exact fun l hl => (h l hl).1
  · unfold jumpTargets
    rw [List.map_eq_nil_iff, List.filter_eq_nil_iff]
    intro l hl
    rw [(h l hl).2.1]
    decide
  · unfold callTargets
    rw [List.map_eq_nil_iff, List.filter_eq_nil_iff]
    intro l hl
    rw [(h l hl).2.2.1]
    decide

theorem externNames_append (xs ys : List Str) :
    externNames (xs ++ ys) = externNames xs ++ externNames ys := by
  simp [externNames]

theorem library_declared (a b : List Str) :
    ∀ x ∈ libraryFunctions, x ∈ externNames (a ++ textSectionHead ++ b ++ programTail) := by
  intro x hx
  rw [externNames_append, externNames_append, externNames_append]
  have h1 : ∀ y ∈ libraryFunctions,
      y ∈ externNames textSectionHead ∨ y ∈ externNames programTail := by decide
  rcases h1 x hx with h | h
  · exact List.mem_append_left _ (List.mem_append_left _ (List.mem_append_right _ h))
  · exact List.mem_append_right _ h

/-- The labels of a program whose declarations define none and whose blocks define the
suffixed labels `sig`. -/
theorem program_labels (decls bf : List Str) (sig : List (Str × Int))
    (hdecl : definedLabels decls = []) (hs : definedLabels bf = sig.map suffixedLabel) :
    definedLabels (dataSectionHead ++ decls ++ textSectionHead ++ bf ++ programTail) =
      "main".toList :: (sig.map suffixedLabel ++
        ["push_stack".toList, "pop_stack".toList, "division_by_zero".toList,
         "stack_underflow".toList]) := by
  rw [definedLabels_append, definedLabels_append, definedLabels_append,
    definedLabels_append, hdecl, hs,
    show definedLabels dataSectionHead = [] from by decide,
    show definedLabels textSectionHead = ["main".toList] from by decide,
    show definedLabels programTail = ["push_stack".toList, "pop_stack".toList,
      "division_by_zero".toList, "stack_underflow".toList] from by decide]
  rfl

theorem program_labels_nodup (sig : List (Str × Int)) (hn : sig.Nodup)
    (hp : ∀ p ∈ sig, p.1 ∈ powPrefixes ++ factorialPrefixes) :
    ("main".toList :: (sig.map suffixedLabel ++
      ["push_stack".toList, "pop_stack".toList, "division_by_zero".toList,
       "stack_underflow".toList])).Nodup := by
  have hfix : ∀ f ∈ fixedLabels, f ∉ sig.map suffixedLabel := by
    intro f hf hm
    obtain ⟨p, hp1, hp2⟩ := List.mem_map.mp hm
    exact fixed_ne_suffixed f p hf (hp p hp1) hp2.symm
  rw [List.nodup_cons, List.nodup_append]
  refine ⟨?_, nodup_suffixed sig hn hp, by decide, ?_⟩
  · intro hm
    rcases List.mem_append.mp hm with hm | hm
    · exact hfix _ (by decide) hm
    · exact absurd hm (by decide)
  · intro x hx1 hx2
    exact hfix x (by
      simp only [List.mem_cons, List.mem_singleton, List.not_mem_nil, or_false] at hx2
      rcases hx2 with rfl | rfl | rfl | rfl <;> decide) hx1

theorem program_targets (decls bf : List Str)
    (hdecl : jumpTargets decls = [] ∧ callTargets decls = []) :
    jumpTargets (dataSectionHead ++ decls ++ textSectionHead ++ bf ++ programTail) =
        jumpTargets bf ∧
      callTargets (dataSectionHead ++ decls ++ textSectionHead ++ bf ++ programTail) =
        callTargets bf ++ callTargets programTail := by
  refine ⟨?_, ?_⟩
  · rw [jumpTargets_append, jumpTargets_append, jumpTargets_append, jumpTargets_append,
      hdecl.1, show jumpTargets dataSectionHead = [] from by decide,
      show jumpTargets textSectionHead = [] from by decide,
      show jumpTargets programTail = [] from by decide]
    simp
  · rw [callTargets_append, callTargets_append, callTargets_append, callTargets_append,
      hdecl.2, show callTargets dataSectionHead = [] from by decide,
      show callTargets textSectionHead = [] from by decide]
    simp

theorem count_eq_one_of_nodup {α : Type} [BEq α] [LawfulBEq α] (l : List α) (a : α)
    (d : l.Nodup) (h : a ∈ l) : l.count a = 1 := by
  induction l with
  | nil => cases h
  | cons b l ih =>
    rw [List.nodup_cons] at d
    rw [List.count_cons]
    by_cases hb : b = a
    · subst hb
      rw [List.count_eq_zero.mpr d.1]
      simp
    · rcases List.mem_cons.mp h with e | e
      · exact absurd e.symm hb
      · rw [ih d.2 e]
        simp [hb]

/-- C21: for the tokens that `tokenize` returns `generateAssembly` returns, and in the
lines of its text (the two heads, the declarations, one block for each token and the
tail) no label is defined twice, a label definition being a line that is not indented
and ends in a colon; the labels are `main`, `push_stack`, `pop_stack`,
`division_by_zero`, `stack_underflow`, each of which is defined, and labels made of one
of the stems `power_*_` and `factorial_*_` and a counter value; the operand of every jump
instruction is a label that is defined exactly once; the operand of every `call` is a
label that is defined exactly once or one of the library functions `printf`, `exit`,
`floor`, `log`, `exp`, `sin`, `cos`, `tan`, which the program declares external; the
block of every `^` and `!` token is written with a positive suffix, and of two such
blocks the earlier one has the smaller suffix. The label counter is an unbounded
integer here. -/
theorem generateAssembly_labels_unique (uf : StodValue → Bool)
    (showDouble : StreamFmt → StodValue → Str) (hd : ∀ f v, '\n' ∉ showDouble f v)
    (expression : Str) (tokens : List Token)
    (ht : tokenize uf Compiler.new expression = .ok tokens) :
    ∃ text decls blocks,
      generateAssembly showDouble Compiler.new tokens = .ok (text, Compiler.new) ∧
      linesOf text =
        dataSectionHead ++ decls ++ textSectionHead ++ blocks.flatten ++ programTail ∧
      blocks.length = tokens.length ∧
      (definedLabels (linesOf text)).Nodup ∧
      (∀ l ∈ fixedLabels, l ∈ definedLabels (linesOf text)) ∧
      (∀ l ∈ definedLabels (linesOf text), l ∈ fixedLabels ∨
        ∃ p ∈ powPrefixes ++ factorialPrefixes, ∃ N : Int, l = p ++ showInt N) ∧
      (∀ x ∈ jumpTargets (linesOf text), (definedLabels (linesOf text)).count x = 1) ∧
      (∀ x ∈ callTargets (linesOf text), (definedLabels (linesOf text)).count x = 1 ∨
        (x ∈ libraryFunctions ∧ x ∈ externNames (linesOf text))) ∧
      (tokens.zip blocks).Pairwise suffixBefore ∧
      (∀ tb ∈ tokens.zip blocks, isLabelledToken tb.1 →
        ∃ N : Int, usesSuffix tb.1 N tb.2 ∧ 0 < N) := by
  obtain ⟨blocks, counter, e1, e2, e3⟩ :=
    generateAssembly_program uf showDouble hd expression tokens ht
  have hcl := tokenize_classified uf Compiler.new expression tokens ht
  obtain ⟨blocks2, c2, e4, _, ⟨sig, hs1, hs2, hs3⟩, hj, hc, hpw, hall⟩ :=
    emitBlocks_labels uf showDouble
      (declareConstants showDouble tokens Compiler.new.constants StreamFmt.initial).2.2
      tokens 0 hcl
  rw [e1] at e4
  cases e4
  have hlen : blocks.length = tokens.length :=
    (List.Forall₂.length_eq (emitBlocks_forall₂ (fun _ _ => True) showDouble _
      (fun _ _ _ _ _ _ _ => trivial) tokens _ 0 blocks _ _ e1)).symm
  obtain ⟨hd1, hd2, hd3⟩ := targets_of_plain_lines _
    (declareConstants_no_labels showDouble tokens Compiler.new.constants StreamFmt.initial
      (fun t ht2 hty => by
        obtain ⟨w, hw⟩ := hcl t ht2
        exact classify_constant_known uf w t hw hty))
  have hlab := program_labels _ blocks.flatten sig hd1 hs1
  have hnd := program_labels_nodup sig hs2 (fun p hp => (hs3 p hp).1)
  obtain ⟨hjt, hct⟩ := program_targets _ blocks.flatten ⟨hd2, hd3⟩
  have hfixed : ∀ l ∈ fixedLabels,
      l ∈ "main".toList :: (sig.map suffixedLabel ++
        ["push_stack".toList, "pop_stack".toList, "division_by_zero".toList,
         "stack_underflow".toList]) := by
    intro l hl
    simp only [fixedLabels, List.mem_cons, List.mem_singleton, List.not_mem_nil,
      or_false] at hl
    rcases hl with rfl | hl
    · exact List.mem_cons_self _ _
    · exact List.mem_cons_of_mem _ (List.mem_append_right _ (by
        rcases hl with rfl | rfl | rfl | rfl <;> decide))
  have hblock : ∀ x, x ∈ fixedLabels ∨ x ∈ definedLabels blocks.flatten →
      x ∈ "main".toList :: (sig.map suffixedLabel ++
        ["push_stack".toList, "pop_stack".toList, "division_by_zero".toList,
         "stack_underflow".toList]) := by
    intro x hx
    rcases hx with hx | hx
    · exact hfixed x hx
    · rw [hs1] at hx
      exact List.mem_cons_of_mem _ (List.mem_append_left _ hx)
  refine ⟨_, _, blocks, e2, e3, hlen, ?_, ?_, ?_, ?_, ?_, hpw, ?_⟩
  · rw [e3, hlab]; exact hnd
  · rw [e3, hlab]; exact hfixed
  · rw [e3, hlab]
    intro l hl
    rcases List.mem_cons.mp hl with rfl | hl
    · exact Or.inl (by decide)
    · rcases List.mem_append.mp hl with hl | hl
      · obtain ⟨p, hp1, rfl⟩ := List.mem_map.mp hl
        exact Or.inr ⟨p.1, (hs3 p hp1).1, p.2, rfl⟩
      · exact Or.inl (List.mem_cons_of_mem _ hl)
  · rw [e3, hlab, hjt]
    intro x hx
    exact count_eq_one_of_nodup _ _ hnd (hblock x (hj x hx))
  · rw [e3, hlab, hct]
    intro x hx
    have hx2 : x ∈ fixedLabels ∨ x ∈ libraryFunctions := by
      rcases List.mem_append.mp hx with hx | hx
      · exact hc x hx
      · exact (by decide : ∀ y ∈ callTargets programTail,
          y ∈ fixedLabels ∨ y ∈ libraryFunctions) x hx
    rcases hx2 with hx2 | hx2
    · exact Or.inl (count_eq_one_of_nodup _ _ hnd (hfixed x hx2))
    · exact Or.inr ⟨hx2, library_declared _ _ x hx2⟩
  · intro tb htb hl
    obtain ⟨N, u, l1, _⟩ := hall tb htb hl
    exact ⟨N, u, l1⟩

/-- C21 at the expression `2 3 ^ 4 ! ^`, the doubles written as `0`: the labels of the
three blocks with labels do not collide. -/
theorem generateAssembly_labels_unique_witness :
    ∃ text decls blocks,
      generateAssembly (fun _ _ => "0".toList) Compiler.new
          [⟨.NUMBER, "2".toList, some (.finite false false 2 0)⟩,
           ⟨.NUMBER, "3".toList, some (.finite false false 3 0)⟩,
           ⟨.OPERATOR, "^".toList, none⟩,
           ⟨.NUMBER, "4".toList, some (.finite false false 4 0)⟩,
           ⟨.OPERATOR, "!".toList, none⟩,
           ⟨.OPERATOR, "^".toList, none⟩] = .ok (text, Compiler.new) ∧
      linesOf text =
        dataSectionHead ++ decls ++ textSectionHead ++ blocks.flatten ++ programTail ∧
      blocks.length =
        [(⟨.NUMBER, "2".toList, some (.finite false false 2 0)⟩ : Token),
         ⟨.NUMBER, "3".toList, some (.finite false false 3 0)⟩,
         ⟨.OPERATOR, "^".toList, none⟩,
         ⟨.NUMBER, "4".toList, some (.finite false false 4 0)⟩,
         ⟨.OPERATOR, "!".toList, none⟩,
         ⟨.OPERATOR, "^".toList, none⟩].length ∧
      (definedLabels (linesOf text)).Nodup ∧
      (∀ l ∈ fixedLabels, l ∈ definedLabels (linesOf text)) ∧
      (∀ l ∈ definedLabels (linesOf text), l ∈ fixedLabels ∨
        ∃ p ∈ powPrefixes ++ factorialPrefixes, ∃ N : Int, l = p ++ showInt N) ∧
      (∀ x ∈ jumpTargets (linesOf text), (definedLabels (linesOf text)).count x = 1) ∧
      (∀ x ∈ callTargets (linesOf text), (definedLabels (linesOf text)).count x = 1 ∨
        (x ∈ libraryFunctions ∧ x ∈ externNames (linesOf text))) ∧
      (List.zip
        [(⟨.NUMBER, "2".toList, some (.finite false false 2 0)⟩ : Token),
         ⟨.NUMBER, "3".toList, some (.finite false false 3 0)⟩,
         ⟨.OPERATOR, "^".toList, none⟩,
         ⟨.NUMBER, "4".toList, some (.finite false false 4 0)⟩,
         ⟨.OPERATOR, "!".toList, none⟩,
         ⟨.OPERATOR, "^".toList, none⟩] blocks).Pairwise suffixBefore ∧
      (∀ tb ∈ List.zip
        [(⟨.NUMBER, "2".toList, some (.finite false false 2 0)⟩ : Token),
         ⟨.NUMBER, "3".toList, some (.finite false false 3 0)⟩,
         ⟨.OPERATOR, "^".toList, none⟩,
         ⟨.NUMBER, "4".toList, some (.finite false false 4 0)⟩,
         ⟨.OPERATOR, "!".toList, none⟩,
         ⟨.OPERATOR, "^".toList, none⟩] blocks, isLabelledToken tb.1 →
        ∃ N : Int, usesSuffix tb.1 N tb.2 ∧ 0 < N) :=
  generateAssembly_labels_unique (fun _ => true) (fun _ _ => "0".toList)
    (fun _ _ => (by decide : '\n' ∉ "0".toList)) "2 3 ^ 4 ! ^".toList _ rfl

theorem countCalls_append (r : Str) (xs ys : List Str) :
    countCalls r (xs ++ ys) = countCalls r xs + countCalls r ys := by
  simp [countCalls]

/-- The calls of the block of a named token are those of its body. -/
theorem countCalls_block (r sv : Str) (k : Int) (body : List Str) :
    countCalls r ((processTokenComment ++ sv) :: depthCheck k ++ body ++ [[]]) =
      countCalls r body := by
  have e : (processTokenComment ++ sv) :: depthCheck k ++ body ++ [[]] =
      [processTokenComment ++ sv] ++ depthCheck k ++ body ++ [[]] := rfl
  rw [e, countCalls_append, countCalls_append, countCalls_append,
    show countCalls r [processTokenComment ++ sv] = 0 from rfl,
    show countCalls r (depthCheck k) = 0 from rfl,
    show countCalls r ([[]] : List Str) = 0 from rfl]
  simp

theorem checkedBlock_named (sv : Str) (k : Int) (body : List Str) :
    checkedBlock k ((processTokenComment ++ sv) :: depthCheck k ++ body ++ [[]]) :=
  ⟨[processTokenComment ++ sv, "    ; Check if we have enough operands".toList],
    [] :: (body ++ [[]]), by simp [depthCheck], rfl⟩

/-- The block of a named token whose body pops `p` times and pushes `q` times, with the
depth check `k`. -/
theorem named_block_guarded (sv : Str) (k : Int) (body : List Str) (p q : Nat)
    (hp : countCalls "pop_stack".toList body = p)
    (hq : countCalls "push_stack".toList body = q)
    (h1 : (p : Int) ≤ k) (h2 : 1 ≤ k + q - p) :
    popsGuarded ((processTokenComment ++ sv) :: depthCheck k ++ body ++ [[]]) ∧
      leavesOperand ((processTokenComment ++ sv) :: depthCheck k ++ body ++ [[]]) := by
  refine ⟨Or.inr ⟨k, checkedBlock_named sv k body, ?_⟩,
    Or.inr ⟨k, checkedBlock_named sv k body, ?_⟩⟩
  · rw [countCalls_block, hp]; exact h1
  · rw [countCalls_block, countCalls_block, hp, hq]; exact h2

theorem printBlock_unguarded : ¬ popsGuarded printBlock := by
  rintro (h | ⟨k, ⟨pre, post, hb, _⟩, _⟩)
  · exact absurd h (by decide)
  · have hm : "    jl stack_underflow".toList ∈ printBlock := by
      rw [hb]; simp
    exact absurd hm (by decide)

/-- The block written for a token that the loop body of `tokenize` made: its pops are
guarded, and it leaves an operand when its check has passed. -/
theorem emitToken_guarded (uf : StodValue → Bool)
    (showDouble : StreamFmt → StodValue → Str) (fmt : StreamFmt) (w : Str) (t : Token)
    (n : Int) (b : List Str) (a1 : StrMap Int) (c1 : Int)
    (hc : classify uf Compiler.new w = .ok t)
    (he : emitToken showDouble fmt t Compiler.new.operatorArities n = .ok (b, a1, c1)) :
    popsGuarded b ∧ leavesOperand b := by
  have hinit := classify_initialized uf Compiler.new w t hc
  rcases classify_spec uf w with ⟨t1, h1, h2, h3⟩ | ⟨h1, _⟩
  · rw [h1] at hc
    cases hc
    obtain ⟨hcn, hsn, hfn, hon⟩ := category_names _ w _ h3
    obtain ⟨ty, sv, nv⟩ := t
    simp only at h2 hcn hsn hfn hon
    subst h2
    cases ty with
    | NUMBER =>
      have hv := hinit rfl
      cases nv with
      | none => cases hv
      | some v =>
        cases he
        refine ⟨Or.inl rfl, Or.inl ⟨rfl, rfl, ?_⟩⟩
        intro l hl
        rcases List.mem_cons.mp hl with rfl | hl
        · exact isDepthCheckLine_comment _
        · rcases List.mem_append.mp hl with hl | hl
          · exact isDepthCheckLine_numberLines _ l hl
          · rw [List.mem_singleton.mp hl]; rfl
    | CONSTANT =>
      cases he
      refine ⟨Or.inl rfl, Or.inl ⟨rfl, rfl, ?_⟩⟩
      intro l hl
      rcases List.mem_cons.mp hl with rfl | hl
      · exact isDepthCheckLine_comment _
      · rcases List.mem_append.mp hl with hl | hl
        · exact isDepthCheckLine_constantLines _ l hl
        · rw [List.mem_singleton.mp hl]; rfl
    | OPERATOR =>
      have := hon rfl
      simp only [knownOperators, List.mem_cons, List.mem_singleton, List.not_mem_nil,
        or_false] at this
      rcases this with rfl | rfl | rfl | rfl | rfl | rfl | rfl <;> cases he
      · exact named_block_guarded "+".toList 2 (operatorBody "+".toList n).1 2 1 rfl rfl
          (by decide) (by decide)
      · exact named_block_guarded "-".toList 2 (operatorBody "-".toList n).1 2 1 rfl rfl
          (by decide) (by decide)
      · exact named_block_guarded "*".toList 2 (operatorBody "*".toList n).1 2 1 rfl rfl
          (by decide) (by decide)
      · exact named_block_guarded "/".toList 2 (operatorBody "/".toList n).1 2 1 rfl rfl
          (by decide) (by decide)
      · exact named_block_guarded "^".toList 2 (operatorBody "^".toList n).1 2 1 rfl rfl
          (by decide) (by decide)
      · exact named_block_guarded "%".toList 2 (operatorBody "%".toList n).1 2 1 rfl rfl
          (by decide) (by decide)
      · exact named_block_guarded "!".toList 1 (operatorBody "!".toList n).1 1 1 rfl rfl
          (by decide) (by decide)
    | FUNCTION =>
      have := hfn rfl
      simp only [knownFunctions, List.mem_cons, List.mem_singleton, List.not_mem_nil,
        or_false] at this
      rcases this with rfl | rfl | rfl | rfl | rfl <;> cases he
      · exact named_block_guarded _ 1 (functionBody _) 1 1 rfl rfl (by decide) (by decide)
      · exact named_block_guarded _ 1 (functionBody _) 1 1 rfl rfl (by decide) (by decide)
      · exact named_block_guarded _ 1 (functionBody _) 1 1 rfl rfl (by decide) (by decide)
      · exact named_block_guarded _ 1 (functionBody _) 1 1 rfl rfl (by decide) (by decide)
      · exact named_block_guarded _ 1 (functionBody _) 1 1 rfl rfl (by decide) (by decide)
    | STACK_OP =>
      have := hsn rfl
      simp only [knownStackOps, List.mem_cons, List.mem_singleton, List.not_mem_nil,
        or_false] at this
      rcases this with rfl | rfl <;> cases he
      · exact named_block_guarded _ 2 (stackOpBody _) 0 0 rfl rfl (by decide) (by decide)
      · exact named_block_guarded _ 1 (stackOpBody _) 1 2 rfl rfl (by decide) (by decide)
  · rw [h1] at hc; cases hc

/-- C31 on the code. The final print block (lines 446-450) holds a `call pop_stack` and no
depth check, so its pop is not guarded within its block, whatever the token sequence is.
For the empty expression `tokenize` returns the empty sequence, `compileToString` returns
the program made of the two heads and the tail, no line of that program is a
`cmp r12, ...` or a `jl stack_underflow`, and the first instruction after the set-up of
`main` is the pop of the print block, which finds no operand. For the tokens that
`tokenize` returns the rest of the claim holds: the program is the heads, the
declarations, one block for each token, the print block and the rest of the tail; in the
block of every token each `call pop_stack` is preceded by `cmp r12, k` and
`jl stack_underflow` with `k` at least the number of pops of the block; and by the count
of its pushes and pops every block leaves at least one operand when its check has
passed. -/
theorem final_pop_unguarded :
    (printBlock ++ programTail.drop 6 = programTail ∧
      countCalls "pop_stack".toList printBlock = 1 ∧
      (∀ l ∈ printBlock, isDepthCheckLine l = false) ∧
      ¬ popsGuarded printBlock) ∧
    ((∀ uf, tokenize uf Compiler.new "".toList = .ok []) ∧
      (∀ uf showDouble, compileToString uf showDouble Compiler.new "".toList =
        .ok (unlines (dataSectionHead ++ textSectionHead ++ printBlock ++
          programTail.drop 6), Compiler.new)) ∧
      linesOf (unlines (dataSectionHead ++ textSectionHead ++ printBlock ++
          programTail.drop 6)) =
        dataSectionHead ++ textSectionHead ++ printBlock ++ programTail.drop 6 ∧
      (∀ l ∈ dataSectionHead ++ textSectionHead ++ printBlock ++ programTail.drop 6,
        isDepthCheckLine l = false) ∧
      (∀ (α : Type) (ops : DoubleOps α) (x0 x1 : α) (z : Bool),
        runLines ops (printBlock.take 2) ⟨[], x0, x1, z⟩ = .error .empty_stack)) ∧
    (∀ (uf : StodValue → Bool) (showDouble : StreamFmt → StodValue → Str)
      (expression : Str) (tokens : List Token),
      (∀ f v, '\n' ∉ showDouble f v) →
      tokenize uf Compiler.new expression = .ok tokens →
      ∃ text decls blocks,
        generateAssembly showDouble Compiler.new tokens = .ok (text, Compiler.new) ∧
        linesOf text = dataSectionHead ++ decls ++ textSectionHead ++ blocks.flatten ++
          printBlock ++ programTail.drop 6 ∧
        List.Forall₂ (fun _ b => popsGuarded b ∧ leavesOperand b) tokens blocks) := by
  have htail : printBlock ++ programTail.drop 6 = programTail := List.take_append_drop 6 _
  refine ⟨⟨htail, by decide, by decide, printBlock_unguarded⟩,
    ⟨fun _ => rfl, fun _ _ => ?_, ?_, ?_, fun _ _ _ _ _ => rfl⟩, ?_⟩
  · rw [List.append_assoc, htail]
    rfl
  · rw [List.append_assoc, htail]
    exact linesOf_unlines _ (fun l hl => no_newline_of_plain l
      (isPlainLine_fixed l (by
        simp only [List.mem_append] at hl ⊢
        tauto)))
  · rw [List.append_assoc, htail]
    decide
  · intro uf showDouble expression tokens hd ht
    obtain ⟨blocks, counter, e1, e2, e3⟩ :=
      generateAssembly_program uf showDouble hd expression tokens ht
    have hcl := tokenize_classified uf Compiler.new expression tokens ht
    obtain ⟨blocks2, c2, e4, hf⟩ := emitBlocks_classified _ uf showDouble
      (declareConstants showDouble tokens Compiler.new.constants StreamFmt.initial).2.2
      (fun w t n b a1 c1 hc he => emitToken_guarded uf showDouble _ w t n b a1 c1 hc he)
      tokens 0 hcl
    rw [e1] at e4
    cases e4
    refine ⟨_, (declareConstants showDouble tokens Compiler.new.constants
      StreamFmt.initial).1, blocks, e2, ?_, hf⟩
    rw [e3, List.append_assoc _ printBlock, htail]

/-- C31 at the expression `3 4 + dup`, the doubles written as `0`: the pops of the four
blocks are guarded. -/
theorem final_pop_unguarded_witness :
    ∃ text decls blocks,
      generateAssembly (fun _ _ => "0".toList) Compiler.new
          [⟨.NUMBER, "3".toList, some (.finite false false 3 0)⟩,
           ⟨.NUMBER, "4".toList, some (.finite false false 4 0)⟩,
           ⟨.OPERATOR, "+".toList, none⟩,
           ⟨.STACK_OP, "dup".toList, none⟩] = .ok (text, Compiler.new) ∧
      linesOf text = dataSectionHead ++ decls ++ textSectionHead ++ blocks.flatten ++
        printBlock ++ programTail.drop 6 ∧
      List.Forall₂ (fun _ b => popsGuarded b ∧ leavesOperand b)
        [(⟨.NUMBER, "3".toList, some (.finite false false 3 0)⟩ : Token),
         ⟨.NUMBER, "4".toList, some (.finite false false 4 0)⟩,
         ⟨.OPERATOR, "+".toList, none⟩,
         ⟨.STACK_OP, "dup".toList, none⟩] blocks :=
  final_pop_unguarded.2.2 (fun _ => true) (fun _ _ => "0".toList) "3 4 + dup".toList _
    (fun _ _ => (by decide : '\n' ∉ "0".toList)) rfl

end MathCompiler
